import Mathlib

/-!
Verification of the legacy-message normalizer of WoltLabSuite
(src/ts/WoltLabSuite/Core/Component/Dialog/Setup.ts, module
"normalizeLegacyMessage" and its helpers normalizeBr, unwrapBr,
removeTrailingBr, getPossibleSpacerParagraphs, reduceSpacerParagraphs).

The DOM is embedded shallowly as a rose tree of nodes.  Every node carries
a numeric id modelling JavaScript object identity (reference equality of
DOM nodes becomes id equality; well-formed trees have pairwise distinct
ids).  An element node carries its tag name, the boolean
dataset.ckeFiller === "true" flag, and its ordered list of child nodes; a
text node carries its character data.  DOM mutations (Element.remove,
insertAdjacentElement) become functions from trees to trees.
-/

namespace LegacyMessage

/-- A DOM node: an element with id, tag name, ckeFiller flag and children,
or a text node with id and data. -/
inductive DNode where
  | elem : Nat → String → Bool → List DNode → DNode
  | text : Nat → String → DNode

mutual
def beqT : DNode → DNode → Bool
  | .text i s, .text j u => i == j && s == u
  | .elem i tg f cs, .elem j th g ds => i == j && tg == th && f == g && beqL cs ds
  | _, _ => false
def beqL : List DNode → List DNode → Bool
  | [], [] => true
  | c :: cs, d :: ds => beqT c d && beqL cs ds
  | _, _ => false
end

mutual
theorem beqT_iff : ∀ a b : DNode, beqT a b = true ↔ a = b
  | .text i s, .text j u => by
      simp [beqT]
  | .elem i tg f cs, .elem j th g ds => by
      simp [beqT, beqL_iff cs ds, and_assoc]
  | .text i s, .elem j th g ds => by simp [beqT]
  | .elem i tg f cs, .text j u => by simp [beqT]
theorem beqL_iff : ∀ a b : List DNode, beqL a b = true ↔ a = b
  | [], [] => by simp [beqL]
  | c :: cs, d :: ds => by
      simp [beqL, beqT_iff c d, beqL_iff cs ds]
  | [], _ :: _ => by simp [beqL]
  | _ :: _, [] => by simp [beqL]
end

instance : DecidableEq DNode := fun a b =>
  decidable_of_iff (beqT a b = true) (beqT_iff a b)

/-- Id of a node (object identity). -/
def nodeId : DNode → Nat
  | .elem i _ _ _ => i
  | .text i _ => i

/-- Tag name of an element (text nodes get the empty pseudo-tag). -/
def tagOf : DNode → String
  | .elem _ tg _ _ => tg
  | .text _ _ => ""

/-- The dataset.ckeFiller === "true" flag of an element. -/
def fillerOf : DNode → Bool
  | .elem _ _ f _ => f
  | .text _ _ => false

/-- Child nodes (childNodes). -/
def childrenOf : DNode → List DNode
  | .elem _ _ _ cs => cs
  | .text _ _ => []

/-- Whether a node is an element. -/
def isElemB : DNode → Bool
  | .elem _ _ _ _ => true
  | .text _ _ => false

/-- Whether a node is a line-break marker (a BR element). -/
def isBrB (n : DNode) : Bool := isElemB n && tagOf n == "BR"

mutual
/-- Number of nodes of a tree. -/
def sizeT : DNode → Nat
  | .text _ _ => 1
  | .elem _ _ _ cs => sizeL cs + 1
def sizeL : List DNode → Nat
  | [] => 0
  | c :: rest => sizeT c + sizeL rest
end

mutual
/-- All nodes of a tree, in document (preorder) order; each entry carries
its whole subtree. -/
def nodesOf : DNode → List DNode
  | .text i s => [.text i s]
  | .elem i tg f cs => .elem i tg f cs :: nodesOfL cs
def nodesOfL : List DNode → List DNode
  | [] => []
  | c :: rest => nodesOf c ++ nodesOfL rest
end

/-- All node ids of a tree in document order. -/
def allIds (t : DNode) : List Nat := (nodesOf t).map nodeId

/-- All strict descendants of the root, in document order (what
querySelectorAll enumerates). -/
def descendantNodes : DNode → List DNode
  | .elem _ _ _ cs => nodesOfL cs
  | .text _ _ => []

mutual
/-- The subtree rooted at the node with the given id, if present. -/
def findNode : DNode → Nat → Option DNode
  | .text i s, j => if i = j then some (.text i s) else none
  | .elem i tg f cs, j =>
      if i = j then some (.elem i tg f cs) else findNodeL cs j
def findNodeL : List DNode → Nat → Option DNode
  | [], _ => none
  | c :: rest, j =>
      match findNode c j with
      | some n => some n
      | none => findNodeL rest j
end

/-- Ids of the subtree rooted at a given id (empty if the id is absent). -/
def subtreeIds (t : DNode) (j : Nat) : List Nat :=
  match findNode t j with
  | some n => allIds n
  | none => []

mutual
/-- The parent node (with its whole subtree) of the node with the given
id, if it has one in the tree. -/
def parentNodeOf : DNode → Nat → Option DNode
  | .text _ _, _ => none
  | .elem i tg f cs, j =>
      if cs.any (fun c => nodeId c = j) then some (.elem i tg f cs)
      else parentNodeOfL cs j
def parentNodeOfL : List DNode → Nat → Option DNode
  | [], _ => none
  | c :: rest, j =>
      match parentNodeOf c j with
      | some p => some p
      | none => parentNodeOfL rest j
end

/-- The members of a sibling list strictly after the node with id j
(none when j is not among them). -/
def sibAfter : List DNode → Nat → Option (List DNode)
  | [], _ => none
  | c :: rest, j => if nodeId c = j then some rest else sibAfter rest j

/-- nextElementSibling of the node with id j, as an id. -/
def nextElemSibId (t : DNode) (j : Nat) : Option Nat :=
  match parentNodeOf t j with
  | none => none
  | some p =>
      match sibAfter (childrenOf p) j with
      | none => none
      | some rest => ((rest.filter isElemB).head?).map nodeId

/-- Whether the node with id j has a previous or a next sibling
(br.previousSibling || br.nextSibling): it shares its parent with at
least one other child. -/
def hasSiblings (t : DNode) (j : Nat) : Bool :=
  match parentNodeOf t j with
  | none => false
  | some p => decide (2 ≤ (childrenOf p).length)

mutual
def containsId : DNode → Nat → Bool
  | .text i _, j => i == j
  | .elem i _ _ cs, j => i == j || containsIdL cs j
def containsIdL : List DNode → Nat → Bool
  | [], _ => false
  | c :: rest, j => containsId c j || containsIdL rest j
end

/-- Whether a tag is a block boundary tag for closest("p, td"). -/
def isPTdTag (tg : String) : Bool := tg == "P" || tg == "TD"

mutual
/-- The id of the nearest strict ancestor of the node with id j whose tag
is P or TD, mirroring br.closest("p, td") (the marker itself is a BR and
never matches the selector). -/
def closestPTd : DNode → Nat → Option Nat
  | .text _ _, _ => none
  | .elem i tg _ cs, j =>
      match closestPTdL cs j with
      | some r => some r
      | none => if containsIdL cs j && isPTdTag tg then some i else none
def closestPTdL : List DNode → Nat → Option Nat
  | [], _ => none
  | c :: rest, j =>
      match closestPTd c j with
      | some r => some r
      | none => closestPTdL rest j
end

mutual
def atEndIn : DNode → Nat → Bool
  | .text i _, j => i == j
  | .elem i _ _ cs, j => i == j || atEndInL cs j
def atEndInL : List DNode → Nat → Bool
  | [], _ => false
  | [c], j => atEndIn c j
  | _ :: c :: rest, j => atEndInL (c :: rest) j
end

/-- Modelled from the spec: Dom/Util.isAtNodeEnd (the repository's
Dom/Util module is not part of the sources under study).  Per the spec,
the marker is "the last rendered node within that container (no following
sibling content, text or element)": walking up from the node to the
container, no node on the way may have a following sibling of any kind,
i.e. the node is reached from the container by repeatedly taking the last
child. -/
def isAtNodeEnd (t : DNode) (j cid : Nat) : Bool :=
  match findNode t cid with
  | some c => nodeId c != j && atEndInL (childrenOf c) j
  | none => false

mutual
/-- Element.remove(): drop every node with the given id (a well-formed
tree has at most one).  The root itself is never dropped, matching
remove() being a no-op on a parentless node. -/
def removeNode : DNode → Nat → DNode
  | .text i s, _ => .text i s
  | .elem i tg f cs, j => .elem i tg f (removeNodeL cs j)
def removeNodeL : List DNode → Nat → List DNode
  | [], _ => []
  | c :: rest, j =>
      if nodeId c = j then removeNodeL rest j
      else removeNode c j :: removeNodeL rest j
end

mutual
/-- Insert a node as the sibling immediately following the node with id
j (the "afterend" position of insertAdjacentElement). -/
def insertAfterNode : DNode → Nat → DNode → DNode
  | .text i s, _, _ => .text i s
  | .elem i tg f cs, j, nw => .elem i tg f (insertAfterL cs j nw)
def insertAfterL : List DNode → Nat → DNode → List DNode
  | [], _, _ => []
  | c :: rest, j, nw =>
      if nodeId c = j then c :: nw :: insertAfterL rest j nw
      else insertAfterNode c j nw :: insertAfterL rest j nw
end

mutual
/-- Replace the subtree rooted at the node with id j by another node. -/
def replaceNode : DNode → Nat → DNode → DNode
  | .text i s, _, _ => .text i s
  | .elem i tg f cs, j, nw => .elem i tg f (replaceNodeL cs j nw)
def replaceNodeL : List DNode → Nat → DNode → List DNode
  | [], _, _ => []
  | c :: rest, j, nw =>
      if nodeId c = j then nw :: replaceNodeL rest j nw
      else replaceNode c j nw :: replaceNodeL rest j nw
end

/-! ## The normalizer, translated from Setup.ts -/

/-- The recognized inline wrapper tags of unwrapBr's switch. -/
def inlineTags : List String :=
  ["B", "DEL", "EM", "I", "STRONG", "SUB", "SUP", "SPAN", "U"]

/-- One round of unwrapBr's for(;;) loop, with explicit fuel (each pass
through the loop body removes one node, so sizeT many rounds always
suffice).

Source (Setup.ts, unwrapBr): while the br has neither a previous nor a
next sibling, inspect its parent; if the parent's tag is a recognized
inline wrapper, move the br to immediately after the parent and remove
the now-childless parent, else stop.

Two situations are unreachable from normalizeLegacyMessage and modelled
as leaving the tree unchanged: a parentless br (the JavaScript would
fault reading parent.tagName), and a recognized wrapper that itself has
no parent (insertAdjacentElement("afterend") cannot insert and the
JavaScript loop would spin without changing the tree; the root there is
always the working DIV, which is not a recognized wrapper). -/
def unwrapBrLoop : Nat → DNode → Nat → DNode
  | 0, t, _ => t
  | fuel + 1, t, j =>
      if hasSiblings t j then t
      else
        match parentNodeOf t j with
        | none => t
        | some p =>
            if (tagOf p) ∈ inlineTags then
              match parentNodeOf t (nodeId p) with
              | none => t
              | some _ =>
                  match findNode t j with
                  | none => t
                  | some brNode =>
                      let t1 := removeNode t j
                      let t2 := insertAfterNode t1 (nodeId p) brNode
                      let t3 := removeNode t2 (nodeId p)
                      unwrapBrLoop fuel t3 j
            else t

/-- unwrapBr from Setup.ts. -/
def unwrapBr (t : DNode) (j : Nat) : DNode := unwrapBrLoop (sizeT t) t j

/-- removeTrailingBr from Setup.ts: skip filler markers; find the nearest
enclosing paragraph or table cell; skip unless the marker is at the node
end of that container; remove it if the container is a TD or has more
than one child node. -/
def removeTrailingBr (t : DNode) (j : Nat) : DNode :=
  match findNode t j with
  | none => t
  | some br =>
      if fillerOf br then t
      else
        match closestPTd t j with
        | none => t
        | some cid =>
            if ! isAtNodeEnd t j cid then t
            else
              match findNode t cid with
              | none => t
              | some c =>
                  if tagOf c == "TD" || decide (1 < (childrenOf c).length)
                  then removeNode t j
                  else t

/-- Ids of all BR elements among the root's descendants in document
order: the static snapshot div.querySelectorAll("br"). -/
def brIdsOf (t : DNode) : List Nat :=
  ((descendantNodes t).filter isBrB).map nodeId

/-- normalizeBr from Setup.ts: for each br of the snapshot, in document
order, first unwrapBr then removeTrailingBr. -/
def normalizeBr (t : DNode) : DNode :=
  (brIdsOf t).foldl (fun acc j => removeTrailingBr (unwrapBr acc j) j) t

/-- The condition of getPossibleSpacerParagraphs on one paragraph:
childElementCount === 1, the unique element child is a BR, and that BR is
not a filler.  Text-node children are not counted. -/
def isSpacerP (n : DNode) : Bool :=
  isElemB n && tagOf n == "P" &&
    (match (childrenOf n).filter isElemB with
     | [c] => tagOf c == "BR" && ! fillerOf c
     | _ => false)

/-- getPossibleSpacerParagraphs from Setup.ts: the ids of all paragraphs
(querySelectorAll("p"), document order) satisfying the spacer condition. -/
def getPossibleSpacerParagraphs (t : DNode) : List Nat :=
  ((descendantNodes t).filter isSpacerP).map nodeId

/-- The inner while loop of reduceSpacerParagraphs: count how many
consecutive following entries of the scanned list are reported as the
candidate's nextElementSibling.  The candidate is fixed, so with pairwise
distinct entries the count never passes 1. -/
def offsetLoop (t : DNode) (cand : Nat) (ps : List Nat) (i : Nat) :
    Nat → Nat → Nat
  | 0, off => off
  | fuel + 1, off =>
      if i + off + 1 < ps.length then
        if nextElemSibId t cand = some (ps.getD (i + off + 1) 0) then
          offsetLoop t cand ps i fuel (off + 1)
        else off
      else off

/-- The for loop of reduceSpacerParagraphs with explicit fuel (the index
grows by at least one per round, so ps.length rounds suffice).  An offset
of 0 removes the single candidate; otherwise ceil(offset/2) entries are
removed when the offset is odd, ceil(offset/2) + 1 when it is even, as a
slice starting at the candidate, and the index skips the whole run. -/
def reduceLoop : Nat → DNode → List Nat → Nat → DNode
  | 0, t, _, _ => t
  | fuel + 1, t, ps, i =>
      if i < ps.length then
        let cand := ps.getD i 0
        let off := offsetLoop t cand ps i ps.length 0
        if off = 0 then reduceLoop fuel (removeNode t cand) ps (i + 1)
        else
          let k := if off % 2 = 1 then (off + 1) / 2 else off / 2 + 1
          let t2 := ((ps.drop i).take k).foldl removeNode t
          reduceLoop fuel t2 ps (i + off + 1)
      else t

/-- reduceSpacerParagraphs from Setup.ts. -/
def reduceSpacerParagraphs (t : DNode) (ps : List Nat) : DNode :=
  if ps.length = 0 then t else reduceLoop ps.length t ps 0

/-- The whole tree-level pipeline of normalizeLegacyMessage: normalizeBr,
then scan for spacer paragraphs, then reduce them. -/
def normalizeDiv (t : DNode) : DNode :=
  let t1 := normalizeBr t
  reduceSpacerParagraphs t1 (getPossibleSpacerParagraphs t1)

/-- A form element of the host page: a textarea carrying its markup
value, or some other element.  By the round-trip contract of the external
parser/serializer (spec section 6), a markup value is identified with
the forest of nodes it parses to.  props models every further observable
property of the element, untouched by the normalizer. -/
inductive UiElement where
  | textarea : List DNode → List (String × String) → UiElement
  | other : String → List (String × String) → UiElement

/-- The working div of normalizeLegacyMessage: a fresh DIV (id 0) holding
the parsed value.  It is local to the call and never attached to the
document. -/
def mkWorkingDiv (value : List DNode) : DNode := .elem 0 "DIV" false value

/-- The normalized markup value: the children of the working div after
the pipeline ran over it. -/
def normalizeValue (value : List DNode) : List DNode :=
  childrenOf (normalizeDiv (mkWorkingDiv value))

/-- Whether an element is a textarea (element instanceof
HTMLTextAreaElement). -/
def isTextarea : UiElement → Bool
  | .textarea _ _ => true
  | .other _ _ => false

/-- normalizeLegacyMessage from Setup.ts, acting on a document given as
the list of its elements, the argument designated by its index: throw a
TypeError before touching anything unless the element is a textarea, else
replace the element's value by the serialization of the normalized
working div.  The first component is the outcome, the second the whole
document afterwards. -/
def normalizeLegacyMessage (doc : List UiElement) (k : Nat) :
    Except String Unit × List UiElement :=
  match doc.get? k with
  | some (.textarea v props) =>
      (Except.ok (), doc.set k (.textarea (normalizeValue v) props))
  | some (.other _ _) =>
      (Except.error "Expected the element to be a <textarea>.", doc)
  | none =>
      (Except.error "Expected the element to be a <textarea>.", doc)

end LegacyMessage

namespace LegacyMessage

/-! ## Well-formedness -/

/-- A tree is well formed when its node ids are pairwise distinct
(modelling distinct JavaScript object identities). -/
def wfIds (t : DNode) : Prop := (allIds t).Nodup

/-- Line-break markers are leaves (BR is a void element: a tree parsed
from markup gives its BR nodes no children). -/
def brLeaves (t : DNode) : Prop :=
  ∀ n ∈ nodesOf t, isBrB n = true → childrenOf n = []

instance (t : DNode) : Decidable (wfIds t) :=
  inferInstanceAs (Decidable ((allIds t).Nodup))

instance (t : DNode) : Decidable (brLeaves t) :=
  inferInstanceAs
    (Decidable (∀ n ∈ nodesOf t, isBrB n = true → childrenOf n = []))

/-! ## Basic structural lemmas -/

theorem sizeT_pos (t : DNode) : 0 < sizeT t := by
  cases t with
  | text i s => simp [sizeT]
  | elem i tg f cs => simp [sizeT]

theorem sizeT_le_sizeL_of_mem {c : DNode} {cs : List DNode} (h : c ∈ cs) :
    sizeT c ≤ sizeL cs := by
  induction cs with
  | nil => simp at h
  | cons d ds ih =>
    simp only [sizeL]
    rcases List.mem_cons.mp h with hh | hh
    · subst hh; omega
    · have := ih hh; omega

/-- Structural induction over trees: to prove a property of every tree it
is enough to prove it for text nodes and for elements assuming it for all
children. -/
theorem nodeInduction (P : DNode → Prop)
    (ht : ∀ i s, P (.text i s))
    (he : ∀ i tg f cs, (∀ c ∈ cs, P c) → P (.elem i tg f cs)) :
    ∀ t, P t := by
  have H : ∀ n t, sizeT t ≤ n → P t := by
    intro n
    induction n with
    | zero => intro t h; have := sizeT_pos t; omega
    | succ n ih =>
      intro t h
      cases t with
      | text i s => exact ht i s
      | elem i tg f cs =>
        apply he
        intro c hc
        apply ih
        have hle := sizeT_le_sizeL_of_mem hc
        simp only [sizeT] at h
        omega
  intro t
  exact H (sizeT t) t le_rfl

theorem nodesOfL_append (a b : List DNode) :
    nodesOfL (a ++ b) = nodesOfL a ++ nodesOfL b := by
  induction a with
  | nil => simp [nodesOfL]
  | cons c rest ih => simp [nodesOfL, ih]

theorem self_mem_nodesOf (t : DNode) : t ∈ nodesOf t := by
  cases t with
  | text i s => simp [nodesOf]
  | elem i tg f cs => simp [nodesOf]

theorem mem_nodesOfL {n : DNode} {cs : List DNode} :
    n ∈ nodesOfL cs ↔ ∃ c ∈ cs, n ∈ nodesOf c := by
  induction cs with
  | nil => simp [nodesOfL]
  | cons c rest ih =>
    simp [nodesOfL, ih]

theorem nodesOf_infix_of_mem :
    ∀ t : DNode, ∀ n ∈ nodesOf t, nodesOf n <:+: nodesOf t := by
  intro t
  induction t using nodeInduction with
  | ht i s =>
    intro n hn
    simp [nodesOf] at hn
    subst hn
    exact List.infix_refl _
  | he i tg f cs ih =>
    intro n hn
    simp only [nodesOf, List.mem_cons] at hn
    rcases hn with hn | hn
    · subst hn; exact List.infix_refl _
    · rcases mem_nodesOfL.mp hn with ⟨c, hc, hnc⟩
      have h1 : nodesOf n <:+: nodesOf c := ih c hc n hnc
      have h2 : nodesOf c <:+: nodesOfL cs := by
        rcases List.mem_iff_append.mp hc with ⟨u, v, huv⟩
        subst huv
        rw [nodesOfL_append]
        refine ⟨nodesOfL u, nodesOfL v, ?_⟩
        simp [nodesOfL]
      have h3 : nodesOfL cs <:+: nodesOf (DNode.elem i tg f cs) := by
        simp only [nodesOf]
        exact ⟨[DNode.elem i tg f cs], [], by simp⟩
      exact h1.trans (h2.trans h3)

theorem mem_nodesOf_trans {m n t : DNode} (h1 : m ∈ nodesOf n)
    (h2 : n ∈ nodesOf t) : m ∈ nodesOf t :=
  (nodesOf_infix_of_mem t n h2).subset h1

theorem mem_allIds {i : Nat} {t : DNode} :
    i ∈ allIds t ↔ ∃ n ∈ nodesOf t, nodeId n = i := by
  simp [allIds]

theorem nodeId_mem_allIds {n t : DNode} (h : n ∈ nodesOf t) :
    nodeId n ∈ allIds t :=
  mem_allIds.mpr ⟨n, h, rfl⟩

/-- Ids of a children list. -/
def allIdsL (cs : List DNode) : List Nat := (nodesOfL cs).map nodeId

theorem allIds_elem (i : Nat) (tg : String) (f : Bool) (cs : List DNode) :
    allIds (.elem i tg f cs) = i :: allIdsL cs := by
  simp [allIds, allIdsL, nodesOf, nodeId]

theorem allIds_text (i : Nat) (s : String) : allIds (.text i s) = [i] := by
  simp [allIds, nodesOf, nodeId]

theorem allIdsL_cons (c : DNode) (rest : List DNode) :
    allIdsL (c :: rest) = allIds c ++ allIdsL rest := by
  simp [allIdsL, allIds, nodesOfL]

theorem allIdsL_nil : allIdsL [] = [] := by simp [allIdsL, nodesOfL]

theorem nodeId_mem_allIds_self (t : DNode) : nodeId t ∈ allIds t :=
  nodeId_mem_allIds (self_mem_nodesOf t)

theorem mem_allIdsL {i : Nat} {cs : List DNode} :
    i ∈ allIdsL cs ↔ ∃ c ∈ cs, i ∈ allIds c := by
  induction cs with
  | nil => simp [allIdsL_nil]
  | cons c rest ih =>
    rw [allIdsL_cons]
    simp only [List.mem_append, ih, List.mem_cons]
    constructor
    · rintro (h | ⟨d, hd, hn⟩)
      · exact ⟨c, Or.inl rfl, h⟩
      · exact ⟨d, Or.inr hd, hn⟩
    · rintro ⟨d, hd | hd, hn⟩
      · subst hd; exact Or.inl hn
      · exact Or.inr ⟨d, hd, hn⟩

/-! ## findNode lemmas -/

theorem findNode_self (t : DNode) : findNode t (nodeId t) = some t := by
  cases t with
  | text i s => simp [findNode, nodeId]
  | elem i tg f cs => simp [findNode, nodeId]

mutual
theorem findNode_some_mem :
    ∀ {t : DNode} {j : Nat} {n : DNode}, findNode t j = some n →
      n ∈ nodesOf t ∧ nodeId n = j
  | .text i s, j, n => by
      simp only [findNode]
      split
      · intro h
        injection h with h
        subst h
        exact ⟨self_mem_nodesOf _, by simp [nodeId]; omega⟩
      · intro h; cases h
  | .elem i tg f cs, j, n => by
      simp only [findNode]
      split
      · intro h
        injection h with h
        subst h
        refine ⟨self_mem_nodesOf _, ?_⟩
        simp only [nodeId]; omega
      · intro h
        have h2 := findNodeL_some_mem h
        refine ⟨?_, h2.2⟩
        simp only [nodesOf, List.mem_cons]
        exact Or.inr h2.1
theorem findNodeL_some_mem :
    ∀ {cs : List DNode} {j : Nat} {n : DNode}, findNodeL cs j = some n →
      n ∈ nodesOfL cs ∧ nodeId n = j
  | [], j, n => by intro h; cases h
  | c :: rest, j, n => by
      simp only [findNodeL]
      cases hc : findNode c j with
      | some m =>
          intro h
          injection h with h
          subst h
          have h2 := findNode_some_mem hc
          refine ⟨?_, h2.2⟩
          simp only [nodesOfL, List.mem_append]
          exact Or.inl h2.1
      | none =>
          intro h
          have h2 := findNodeL_some_mem h
          refine ⟨?_, h2.2⟩
          simp only [nodesOfL, List.mem_append]
          exact Or.inr h2.1
end

mutual
theorem findNode_isSome :
    ∀ {t : DNode} {j : Nat}, j ∈ allIds t → (findNode t j).isSome = true
  | .text i s, j => by
      rw [allIds_text]
      intro h
      simp at h
      subst h
      simp [findNode]
  | .elem i tg f cs, j => by
      rw [allIds_elem]
      intro h
      simp only [findNode]
      rcases List.mem_cons.mp h with h | h
      · subst h; simp
      · split
        · simp
        · exact findNodeL_isSome h
theorem findNodeL_isSome :
    ∀ {cs : List DNode} {j : Nat}, j ∈ allIdsL cs →
      (findNodeL cs j).isSome = true
  | [], j => by rw [allIdsL_nil]; intro h; simp at h
  | c :: rest, j => by
      rw [allIdsL_cons]
      intro h
      simp only [findNodeL]
      rcases List.mem_append.mp h with h | h
      · cases hc : findNode c j with
        | some m => simp
        | none =>
            exfalso
            have := findNode_isSome h
            rw [hc] at this
            simp at this
      · cases hc : findNode c j with
        | some m => simp
        | none => exact findNodeL_isSome h
end

theorem findNode_eq_none {t : DNode} {j : Nat} (h : j ∉ allIds t) :
    findNode t j = none := by
  cases hf : findNode t j with
  | none => rfl
  | some n =>
    exfalso
    have h2 := findNode_some_mem hf
    exact h (h2.2 ▸ nodeId_mem_allIds h2.1)

theorem findNode_mem_of_mem {t : DNode} {j : Nat} (h : j ∈ allIds t) :
    ∃ n, findNode t j = some n ∧ n ∈ nodesOf t ∧ nodeId n = j := by
  have h2 := findNode_isSome h
  cases hf : findNode t j with
  | none => rw [hf] at h2; simp at h2
  | some n => exact ⟨n, rfl, findNode_some_mem hf⟩

theorem subtreeIds_subset_allIds (t : DNode) (j : Nat) :
    subtreeIds t j ⊆ allIds t := by
  unfold subtreeIds
  cases hf : findNode t j with
  | none => simp
  | some n =>
    intro x hx
    rcases mem_allIds.mp hx with ⟨m, hm, hid⟩
    exact hid ▸ nodeId_mem_allIds (mem_nodesOf_trans hm (findNode_some_mem hf).1)

theorem mem_subtreeIds_self {t : DNode} {j : Nat} (h : j ∈ allIds t) :
    j ∈ subtreeIds t j := by
  rcases findNode_mem_of_mem h with ⟨n, hf, _, hid⟩
  unfold subtreeIds
  rw [hf]
  exact hid ▸ nodeId_mem_allIds_self n

end LegacyMessage

namespace LegacyMessage

/-! ## removeNode lemmas -/

/-- Subtree ids relative to a children list. -/
def subtreeIdsL (cs : List DNode) (j : Nat) : List Nat :=
  match findNodeL cs j with
  | some n => allIds n
  | none => []

theorem mem_allIds_of_mem_nodesOfL {x : Nat} {n : DNode} {cs : List DNode}
    (hn : n ∈ nodesOfL cs) (hx : x ∈ allIds n) : x ∈ allIdsL cs := by
  rcases mem_nodesOfL.mp hn with ⟨c, hc, hnc⟩
  rcases mem_allIds.mp hx with ⟨m, hm, hid⟩
  exact mem_allIdsL.mpr ⟨c, hc, hid ▸ nodeId_mem_allIds (mem_nodesOf_trans hm hnc)⟩

theorem subtreeIdsL_subset (cs : List DNode) (j : Nat) :
    subtreeIdsL cs j ⊆ allIdsL cs := by
  unfold subtreeIdsL
  cases hf : findNodeL cs j with
  | none => simp
  | some n =>
    intro x hx
    exact mem_allIds_of_mem_nodesOfL (findNodeL_some_mem hf).1 hx

mutual
theorem removeNode_of_not_mem :
    ∀ {t : DNode} {j : Nat}, j ∉ allIds t → removeNode t j = t
  | .text i s, j => by intro h; simp [removeNode]
  | .elem i tg f cs, j => by
      rw [allIds_elem]
      intro h
      simp only [removeNode]
      rw [removeNodeL_of_not_mem (fun hc => h (List.mem_cons_of_mem i hc))]
theorem removeNodeL_of_not_mem :
    ∀ {cs : List DNode} {j : Nat}, j ∉ allIdsL cs → removeNodeL cs j = cs
  | [], j => by intro h; simp [removeNodeL]
  | c :: rest, j => by
      rw [allIdsL_cons]
      intro h
      simp only [removeNodeL]
      rw [if_neg, removeNode_of_not_mem, removeNodeL_of_not_mem]
      · exact fun hc => h (List.mem_append.mpr (Or.inr hc))
      · exact fun hc => h (List.mem_append.mpr (Or.inl hc))
      · intro hc
        subst hc
        exact h (List.mem_append.mpr (Or.inl (nodeId_mem_allIds_self c)))
end

mutual
theorem allIds_removeNode_sublist :
    ∀ (t : DNode) (j : Nat), List.Sublist (allIds (removeNode t j)) (allIds t)
  | .text i s, j => by simp [removeNode]
  | .elem i tg f cs, j => by
      simp only [removeNode, allIds_elem]
      exact (allIdsL_removeNodeL_sublist cs j).cons₂ i
theorem allIdsL_removeNodeL_sublist :
    ∀ (cs : List DNode) (j : Nat), List.Sublist (allIdsL (removeNodeL cs j)) (allIdsL cs)
  | [], j => by simp [removeNodeL]
  | c :: rest, j => by
      simp only [removeNodeL]
      split
      · rw [allIdsL_cons]
        exact (allIdsL_removeNodeL_sublist rest j).trans
          (List.sublist_append_right _ _)
      · rw [allIdsL_cons, allIdsL_cons]
        exact (allIds_removeNode_sublist c j).append
          (allIdsL_removeNodeL_sublist rest j)
end

theorem wfIds_removeNode {t : DNode} (hw : wfIds t) (j : Nat) :
    wfIds (removeNode t j) :=
  (allIds_removeNode_sublist t j).nodup hw

theorem mem_of_mem_removeNode {t : DNode} {j x : Nat}
    (h : x ∈ allIds (removeNode t j)) : x ∈ allIds t :=
  (allIds_removeNode_sublist t j).subset h

mutual
theorem mem_allIds_removeNode :
    ∀ {t : DNode} {j x : Nat}, wfIds t → j ≠ nodeId t →
      (x ∈ allIds (removeNode t j) ↔ x ∈ allIds t ∧ x ∉ subtreeIds t j)
  | .text i s, j, x => by
      intro hw hj
      simp only [nodeId] at hj
      have hsub : subtreeIds (DNode.text i s) j = [] := by
        unfold subtreeIds
        simp only [findNode]
        rw [if_neg (fun h => hj h.symm)]
      simp [removeNode, hsub]
  | .elem i tg f cs, j, x => by
      intro hw hj
      simp only [nodeId] at hj
      have hw2 : (allIdsL cs).Nodup ∧ i ∉ allIdsL cs := by
        have := hw
        unfold wfIds at this
        rw [allIds_elem] at this
        exact ⟨(List.nodup_cons.mp this).2, (List.nodup_cons.mp this).1⟩
      have hsub : subtreeIds (DNode.elem i tg f cs) j = subtreeIdsL cs j := by
        unfold subtreeIds subtreeIdsL
        simp only [findNode]
        rw [if_neg (fun h => hj h.symm)]
      simp only [removeNode, allIds_elem, List.mem_cons, hsub]
      rw [mem_allIdsL_removeNodeL hw2.1]
      constructor
      · rintro (rfl | ⟨hmem, hnot⟩)
        · exact ⟨Or.inl rfl, fun hc => hw2.2 (subtreeIdsL_subset cs j hc)⟩
        · exact ⟨Or.inr hmem, hnot⟩
      · rintro ⟨rfl | hmem, hnot⟩
        · exact Or.inl rfl
        · exact Or.inr ⟨hmem, hnot⟩
theorem mem_allIdsL_removeNodeL :
    ∀ {cs : List DNode} {j x : Nat}, (allIdsL cs).Nodup →
      (x ∈ allIdsL (removeNodeL cs j) ↔ x ∈ allIdsL cs ∧ x ∉ subtreeIdsL cs j)
  | [], j, x => by
      intro hw
      simp [removeNodeL, allIdsL_nil, subtreeIdsL, findNodeL]
  | c :: rest, j, x => by
      intro hw
      rw [allIdsL_cons] at hw
      have hnd := List.nodup_append.mp hw
      by_cases hcj : nodeId c = j
      · have hjrest : j ∉ allIdsL rest := fun hc =>
          hnd.2.2 (hcj ▸ nodeId_mem_allIds_self c) hc
        have hfc : findNode c j = some c := by
          rw [← hcj]; exact findNode_self c
        have hsub : subtreeIdsL (c :: rest) j = allIds c := by
          unfold subtreeIdsL
          simp only [findNodeL, hfc]
        simp only [removeNodeL, if_pos hcj, hsub,
          removeNodeL_of_not_mem hjrest, allIdsL_cons, List.mem_append]
        constructor
        · intro hx
          exact ⟨Or.inr hx, fun hc => hnd.2.2 hc hx⟩
        · rintro ⟨hx | hx, hnot⟩
          · exact absurd hx hnot
          · exact hx
      · by_cases hjc : j ∈ allIds c
        · have hjrest : j ∉ allIdsL rest := fun hc => hnd.2.2 hjc hc
          rcases findNode_mem_of_mem hjc with ⟨n, hfn, _, _⟩
          have hsub : subtreeIdsL (c :: rest) j = subtreeIds c j := by
            unfold subtreeIdsL subtreeIds
            simp only [findNodeL, hfn]
          have hsubc : subtreeIds c j ⊆ allIds c := subtreeIds_subset_allIds c j
          simp only [removeNodeL, if_neg hcj, hsub, allIdsL_cons,
            List.mem_append, removeNodeL_of_not_mem hjrest]
          rw [mem_allIds_removeNode hnd.1 (fun h => hcj h.symm)]
          constructor
          · rintro (⟨hmem, hnot⟩ | hmem)
            · exact ⟨Or.inl hmem, hnot⟩
            · exact ⟨Or.inr hmem, fun hc => hnd.2.2 (hsubc hc) hmem⟩
          · rintro ⟨hmem | hmem, hnot⟩
            · exact Or.inl ⟨hmem, hnot⟩
            · exact Or.inr hmem
        · have hfc : findNode c j = none := findNode_eq_none hjc
          have hsub : subtreeIdsL (c :: rest) j = subtreeIdsL rest j := by
            unfold subtreeIdsL
            simp only [findNodeL, hfc]
          have hsubr : subtreeIdsL rest j ⊆ allIdsL rest :=
            subtreeIdsL_subset rest j
          simp only [removeNodeL, if_neg hcj, hsub, allIdsL_cons,
            List.mem_append, removeNode_of_not_mem hjc]
          rw [mem_allIdsL_removeNodeL hnd.2.1]
          constructor
          · rintro (hmem | ⟨hmem, hnot⟩)
            · exact ⟨Or.inl hmem, fun hc => hnd.2.2 hmem (hsubr hc)⟩
            · exact ⟨Or.inr hmem, hnot⟩
          · rintro ⟨hmem | hmem, hnot⟩
            · exact Or.inl hmem
            · exact Or.inr ⟨hmem, hnot⟩
end

end LegacyMessage

namespace LegacyMessage

/-! ## Uniqueness lemmas under distinct ids -/

theorem nodup_map_inj {α β : Type} {f : α → β} :
    ∀ {l : List α}, (l.map f).Nodup →
      ∀ a ∈ l, ∀ b ∈ l, f a = f b → a = b := by
  intro l
  induction l with
  | nil => intro h a ha; simp at ha
  | cons c rest ih =>
    intro h a ha b hb hf
    simp only [List.map_cons, List.nodup_cons] at h
    rcases List.mem_cons.mp ha with ha1 | ha1
    · rcases List.mem_cons.mp hb with hb1 | hb1
      · rw [ha1, hb1]
      · exfalso
        apply h.1
        have hcb : f c = f b := by rw [← ha1, hf]
        rw [hcb]
        exact List.mem_map_of_mem f hb1
    · rcases List.mem_cons.mp hb with hb1 | hb1
      · exfalso
        apply h.1
        have hca : f c = f a := by rw [← hb1, ← hf]
        rw [hca]
        exact List.mem_map_of_mem f ha1
      · exact ih h.2 a ha1 b hb1 hf

theorem nodeId_inj {t : DNode} (hw : wfIds t) :
    ∀ a ∈ nodesOf t, ∀ b ∈ nodesOf t, nodeId a = nodeId b → a = b :=
  nodup_map_inj hw

mutual
theorem sizeT_le_of_mem_nodesOf :
    ∀ {n t : DNode}, n ∈ nodesOf t → sizeT n ≤ sizeT t
  | n, .text i s => by
      intro h
      simp [nodesOf] at h
      subst h
      exact le_rfl
  | n, .elem i tg f cs => by
      intro h
      simp only [nodesOf, List.mem_cons] at h
      rcases h with h | h
      · subst h; exact le_rfl
      · have := sizeL_le_of_mem_nodesOfL h
        simp only [sizeT]
        omega
theorem sizeL_le_of_mem_nodesOfL :
    ∀ {n : DNode} {cs : List DNode}, n ∈ nodesOfL cs → sizeT n ≤ sizeL cs
  | n, [] => by intro h; simp [nodesOfL] at h
  | n, c :: rest => by
      intro h
      simp only [nodesOfL, List.mem_append] at h
      simp only [sizeL]
      rcases h with h | h
      · have := sizeT_le_of_mem_nodesOf h; omega
      · have := sizeL_le_of_mem_nodesOfL h; omega
end

theorem mem_childrenOf_sizeT_lt {c P : DNode} (h : c ∈ childrenOf P) :
    sizeT c < sizeT P := by
  cases P with
  | text i s => simp [childrenOf] at h
  | elem i tg f cs =>
    simp only [childrenOf] at h
    have := sizeT_le_sizeL_of_mem h
    simp only [sizeT]
    omega

theorem mem_nodesOf_of_mem_childrenOf {c P : DNode} (h : c ∈ childrenOf P) :
    c ∈ nodesOf P := by
  cases P with
  | text i s => simp [childrenOf] at h
  | elem i tg f cs =>
    simp only [childrenOf] at h
    simp only [nodesOf, List.mem_cons]
    exact Or.inr (mem_nodesOfL.mpr ⟨c, h, self_mem_nodesOf c⟩)

/-- Under distinct ids, finding the id of a known node returns that node. -/
theorem findNode_unique {t n : DNode} (hw : wfIds t) (h : n ∈ nodesOf t) :
    findNode t (nodeId n) = some n := by
  rcases findNode_mem_of_mem (nodeId_mem_allIds h) with ⟨m, hf, hm, hid⟩
  rw [hf]
  exact congrArg some (nodeId_inj hw m hm n h hid)

theorem subtreeIds_of_mem {t n : DNode} (hw : wfIds t) (h : n ∈ nodesOf t) :
    subtreeIds t (nodeId n) = allIds n := by
  unfold subtreeIds
  rw [findNode_unique hw h]

/-! ## parentNodeOf lemmas -/

mutual
theorem parentNodeOf_some_mem :
    ∀ {t : DNode} {p : Nat} {P : DNode}, parentNodeOf t p = some P →
      P ∈ nodesOf t ∧ (∃ c ∈ childrenOf P, nodeId c = p)
  | .text i s, p, P => by intro h; cases h
  | .elem i tg f cs, p, P => by
      simp only [parentNodeOf]
      split
      · intro h
        injection h with h
        subst h
        refine ⟨self_mem_nodesOf _, ?_⟩
        simp only [childrenOf]
        rename_i hany
        rcases List.any_eq_true.mp hany with ⟨c, hc, hcp⟩
        exact ⟨c, hc, of_decide_eq_true hcp⟩
      · intro h
        have h2 := parentNodeOfL_some_mem h
        refine ⟨?_, h2.2⟩
        simp only [nodesOf, List.mem_cons]
        exact Or.inr h2.1
theorem parentNodeOfL_some_mem :
    ∀ {cs : List DNode} {p : Nat} {P : DNode}, parentNodeOfL cs p = some P →
      P ∈ nodesOfL cs ∧ (∃ c ∈ childrenOf P, nodeId c = p)
  | [], p, P => by intro h; cases h
  | c :: rest, p, P => by
      simp only [parentNodeOfL]
      cases hc : parentNodeOf c p with
      | some q =>
          intro h
          injection h with h
          subst h
          have h2 := parentNodeOf_some_mem hc
          exact ⟨by
            simp only [nodesOfL, List.mem_append]
            exact Or.inl h2.1, h2.2⟩
      | none =>
          intro h
          have h2 := parentNodeOfL_some_mem h
          exact ⟨by
            simp only [nodesOfL, List.mem_append]
            exact Or.inr h2.1, h2.2⟩
end

theorem mem_allIds_of_parentNodeOf {t : DNode} {p : Nat} {P : DNode}
    (h : parentNodeOf t p = some P) : p ∈ allIds t := by
  rcases parentNodeOf_some_mem h with ⟨hP, c, hc, hid⟩
  exact hid ▸ nodeId_mem_allIds (mem_nodesOf_trans
    (self_mem_nodesOf c) (mem_nodesOf_trans (mem_nodesOf_of_mem_childrenOf hc) hP))

theorem parentNodeOf_eq_none_of_not_mem {t : DNode} {p : Nat}
    (h : p ∉ allIds t) : parentNodeOf t p = none := by
  cases hp : parentNodeOf t p with
  | none => rfl
  | some P => exact absurd (mem_allIds_of_parentNodeOf hp) h

/-- Under distinct ids the root has no parent. -/
theorem parentNodeOf_self_none {t : DNode} (hw : wfIds t) :
    parentNodeOf t (nodeId t) = none := by
  cases hp : parentNodeOf t (nodeId t) with
  | none => rfl
  | some P =>
    exfalso
    rcases parentNodeOf_some_mem hp with ⟨hP, c, hc, hid⟩
    have hct : c ∈ nodesOf t := mem_nodesOf_trans
      (self_mem_nodesOf c) (mem_nodesOf_trans (mem_nodesOf_of_mem_childrenOf hc) hP)
    have hceq : c = t := nodeId_inj hw c hct t (self_mem_nodesOf t) hid
    subst hceq
    have h1 : sizeT c < sizeT P := mem_childrenOf_sizeT_lt hc
    have h2 : sizeT P ≤ sizeT c := sizeT_le_of_mem_nodesOf hP
    omega

/-! ## Localization of subtreeIds -/

theorem subtreeIds_elem_ne {i : Nat} {tg : String} {f : Bool}
    {cs : List DNode} {p : Nat} (h : p ≠ i) :
    subtreeIds (.elem i tg f cs) p = subtreeIdsL cs p := by
  unfold subtreeIds subtreeIdsL
  simp only [findNode]
  rw [if_neg (fun hh => h hh.symm)]

theorem subtreeIdsL_cons_of_mem {c : DNode} {rest : List DNode} {p : Nat}
    (h : p ∈ allIds c) :
    subtreeIdsL (c :: rest) p = subtreeIds c p := by
  unfold subtreeIdsL subtreeIds
  rcases findNode_mem_of_mem h with ⟨n, hf, _, _⟩
  simp only [findNodeL, hf]

theorem subtreeIdsL_cons_of_not_mem {c : DNode} {rest : List DNode} {p : Nat}
    (h : p ∉ allIds c) :
    subtreeIdsL (c :: rest) p = subtreeIdsL rest p := by
  unfold subtreeIdsL
  simp only [findNodeL, findNode_eq_none h]

end LegacyMessage

namespace LegacyMessage

/-! ## Small commutation facts about removeNode -/

theorem nodeId_removeNode (t : DNode) (j : Nat) :
    nodeId (removeNode t j) = nodeId t := by
  cases t <;> rfl

theorem isElemB_removeNode (t : DNode) (j : Nat) :
    isElemB (removeNode t j) = isElemB t := by
  cases t <;> rfl

theorem childrenOf_removeNode (t : DNode) (j : Nat) :
    childrenOf (removeNode t j) = removeNodeL (childrenOf t) j := by
  cases t <;> rfl

theorem subtreeIds_self_eq (t : DNode) : subtreeIds t (nodeId t) = allIds t := by
  unfold subtreeIds
  rw [findNode_self]

theorem subtreeIdsL_eq_nil_of_not_mem {cs : List DNode} {j : Nat}
    (h : j ∉ allIdsL cs) : subtreeIdsL cs j = [] := by
  unfold subtreeIdsL
  cases hf : findNodeL cs j with
  | none => rfl
  | some n =>
    exfalso
    have h2 := findNodeL_some_mem hf
    exact h (h2.2 ▸ mem_allIds_of_mem_nodesOfL h2.1 (nodeId_mem_allIds_self n))

theorem not_mem_allIds_removeNode {t : DNode} {j p : Nat}
    (h : p ∉ allIds t) : p ∉ allIds (removeNode t j) :=
  fun hc => h (mem_of_mem_removeNode hc)

theorem findNode_removeNode_none {t : DNode} {j p : Nat}
    (h : p ∉ allIds t) : findNode (removeNode t j) p = none :=
  findNode_eq_none (not_mem_allIds_removeNode h)

theorem removeNode_subtree_id {t P : DNode} {j : Nat}
    (hP : P ∈ nodesOf t) (h : j ∉ allIds t) : removeNode P j = P := by
  apply removeNode_of_not_mem
  intro hc
  rcases mem_allIds.mp hc with ⟨m, hm, hid⟩
  exact h (hid ▸ nodeId_mem_allIds (mem_nodesOf_trans hm hP))

/-! ## Stability of findNode under removeNode -/

mutual
theorem findNode_removeNode :
    ∀ {t : DNode} {j p : Nat}, wfIds t → p ∈ allIds t →
      p ∉ subtreeIds t j → j ∉ subtreeIds t p →
      findNode (removeNode t j) p = findNode t p
  | .text i s, j, p => by
      intro hw hp hpj hjp
      simp [removeNode]
  | .elem i tg f cs, j, p => by
      intro hw hp hpj hjp
      by_cases hpi : p = i
      · have hall : subtreeIds (DNode.elem i tg f cs) p = allIds (DNode.elem i tg f cs) := by
          rw [hpi]
          have h0 := subtreeIds_self_eq (DNode.elem i tg f cs)
          simp only [nodeId] at h0
          exact h0
        rw [hall] at hjp
        rw [removeNode_of_not_mem hjp]
      · by_cases hji : j = i
        · have hall : subtreeIds (DNode.elem i tg f cs) j = allIds (DNode.elem i tg f cs) := by
            rw [hji]
            have h0 := subtreeIds_self_eq (DNode.elem i tg f cs)
            simp only [nodeId] at h0
            exact h0
          rw [hall] at hpj
          exact absurd hp hpj
        · have hw2 : (allIdsL cs).Nodup := by
            have := hw
            unfold wfIds at this
            rw [allIds_elem] at this
            exact (List.nodup_cons.mp this).2
          rw [allIds_elem] at hp
          have hpcs : p ∈ allIdsL cs := by
            rcases List.mem_cons.mp hp with h | h
            · exact absurd h hpi
            · exact h
          rw [subtreeIds_elem_ne hpi] at hjp
          rw [subtreeIds_elem_ne hji] at hpj
          simp only [removeNode, findNode]
          rw [if_neg (fun hh => hpi hh.symm), if_neg (fun hh => hpi hh.symm)]
          exact findNodeL_removeNodeL hw2 hpcs hpj hjp
theorem findNodeL_removeNodeL :
    ∀ {cs : List DNode} {j p : Nat}, (allIdsL cs).Nodup → p ∈ allIdsL cs →
      p ∉ subtreeIdsL cs j → j ∉ subtreeIdsL cs p →
      findNodeL (removeNodeL cs j) p = findNodeL cs p
  | [], j, p => by
      intro hw hp hpj hjp
      rw [allIdsL_nil] at hp
      simp at hp
  | c :: rest, j, p => by
      intro hw hp hpj hjp
      rw [allIdsL_cons] at hw hp
      have hnd := List.nodup_append.mp hw
      by_cases hcj : nodeId c = j
      · have hjc : j ∈ allIds c := hcj ▸ nodeId_mem_allIds_self c
        have hsubj : subtreeIdsL (c :: rest) j = allIds c := by
          rw [subtreeIdsL_cons_of_mem hjc]
          unfold subtreeIds
          rw [← hcj, findNode_self]
        rw [hsubj] at hpj
        have hjrest : j ∉ allIdsL rest := fun hc => hnd.2.2 hjc hc
        have hfc : findNode c p = none := findNode_eq_none hpj
        simp only [removeNodeL, if_pos hcj, removeNodeL_of_not_mem hjrest,
          findNodeL, hfc]
      · simp only [removeNodeL, if_neg hcj]
        by_cases hpc : p ∈ allIds c
        · rw [subtreeIdsL_cons_of_mem hpc] at hjp
          rcases findNode_mem_of_mem hpc with ⟨n, hfn, _, _⟩
          by_cases hjcm : j ∈ allIds c
          · rw [subtreeIdsL_cons_of_mem hjcm] at hpj
            have hrec := findNode_removeNode hnd.1 hpc hpj hjp
            simp only [findNodeL, hrec, hfn]
          · rw [removeNode_of_not_mem hjcm]
            simp only [findNodeL, hfn]
        · have hfc : findNode c p = none := findNode_eq_none hpc
          have hfc2 : findNode (removeNode c j) p = none :=
            findNode_eq_none (fun hc => hpc (mem_of_mem_removeNode hc))
          have hprest : p ∈ allIdsL rest := by
            rcases List.mem_append.mp hp with h | h
            · exact absurd h hpc
            · exact h
          rw [subtreeIdsL_cons_of_not_mem hpc] at hjp
          by_cases hjcm : j ∈ allIds c
          · have hjrest : j ∉ allIdsL rest := fun hc => hnd.2.2 hjcm hc
            rw [removeNodeL_of_not_mem hjrest]
            simp only [findNodeL, hfc, hfc2]
          · rw [subtreeIdsL_cons_of_not_mem hjcm] at hpj
            have hrec := findNodeL_removeNodeL hnd.2.1 hprest hpj hjp
            simp only [findNodeL, hfc, hfc2, hrec]
end

end LegacyMessage

namespace LegacyMessage

/-! ## Stability of parentNodeOf under removeNode -/

theorem mem_allIdsL_of_parentNodeOfL {cs : List DNode} {p : Nat} {P : DNode}
    (h : parentNodeOfL cs p = some P) : p ∈ allIdsL cs := by
  rcases parentNodeOfL_some_mem h with ⟨hP, c, hc, hid⟩
  exact hid ▸ mem_allIds_of_mem_nodesOfL hP
    (nodeId_mem_allIds (mem_nodesOf_of_mem_childrenOf hc))

theorem parentNodeOfL_eq_none {cs : List DNode} {p : Nat}
    (h : p ∉ allIdsL cs) : parentNodeOfL cs p = none := by
  cases hP : parentNodeOfL cs p with
  | none => rfl
  | some P => exact absurd (mem_allIdsL_of_parentNodeOfL hP) h

theorem anyTop_removeNodeL {cs : List DNode} {j p : Nat} (hpj : p ≠ j) :
    ((removeNodeL cs j).any (fun c => nodeId c = p)) =
      (cs.any (fun c => nodeId c = p)) := by
  induction cs with
  | nil => simp [removeNodeL]
  | cons c rest ih =>
    simp only [removeNodeL]
    by_cases hcj : nodeId c = j
    · rw [if_pos hcj]
      have hcp : (decide (nodeId c = p)) = false := by
        simp
        rw [hcj]
        exact fun hh => hpj hh.symm
      simp only [List.any_cons, hcp, Bool.false_or]
      exact ih
    · rw [if_neg hcj]
      simp only [List.any_cons, nodeId_removeNode]
      rw [ih]

theorem parentNodeOfL_map_id {cs : List DNode} {j p : Nat}
    (hj : j ∉ allIdsL cs) :
    (parentNodeOfL cs p).map (fun P => removeNode P j) = parentNodeOfL cs p := by
  cases hP : parentNodeOfL cs p with
  | none => rfl
  | some P =>
    have h2 := parentNodeOfL_some_mem hP
    have hrm : removeNode P j = P := by
      apply removeNode_of_not_mem
      intro hc
      exact hj (mem_allIds_of_mem_nodesOfL h2.1 hc)
    simp [hrm]

mutual
theorem parentNodeOf_removeNode :
    ∀ {t : DNode} {j p : Nat}, wfIds t → p ∈ allIds t →
      p ∉ subtreeIds t j →
      parentNodeOf (removeNode t j) p =
        (parentNodeOf t p).map (fun P => removeNode P j)
  | .text i s, j, p => by
      intro hw hp hpj
      rfl
  | .elem i tg f cs, j, p => by
      intro hw hp hpj
      have hpj2 : p ≠ j := by
        intro hh
        subst hh
        exact hpj (mem_subtreeIds_self hp)
      have hw2 : (allIdsL cs).Nodup := by
        have h0 := hw
        unfold wfIds at h0
        rw [allIds_elem] at h0
        exact (List.nodup_cons.mp h0).2
      have hicsL : i ∉ allIdsL cs := by
        have h0 := hw
        unfold wfIds at h0
        rw [allIds_elem] at h0
        exact (List.nodup_cons.mp h0).1
      simp only [removeNode, parentNodeOf, anyTop_removeNodeL hpj2]
      by_cases hany : (cs.any (fun c => nodeId c = p)) = true
      · rw [if_pos hany, if_pos hany]
        simp [removeNode]
      · rw [if_neg hany, if_neg hany]
        by_cases hpi : p = i
        · have h1 : parentNodeOfL cs p = none := by
            apply parentNodeOfL_eq_none
            rw [hpi]
            exact hicsL
          have h2 : parentNodeOfL (removeNodeL cs j) p = none := by
            apply parentNodeOfL_eq_none
            intro hc
            have h3 := (allIdsL_removeNodeL_sublist cs j).subset hc
            rw [hpi] at h3
            exact hicsL h3
          rw [h1, h2]
          rfl
        · have hpcs : p ∈ allIdsL cs := by
            rw [allIds_elem] at hp
            rcases List.mem_cons.mp hp with h | h
            · exact absurd h hpi
            · exact h
          by_cases hji : j = i
          · have hjcs : j ∉ allIdsL cs := hji ▸ hicsL
            rw [removeNodeL_of_not_mem hjcs]
            rw [parentNodeOfL_map_id hjcs]
          · rw [subtreeIds_elem_ne hji] at hpj
            exact parentNodeOfL_removeNodeL hw2 hpcs hpj
theorem parentNodeOfL_removeNodeL :
    ∀ {cs : List DNode} {j p : Nat}, (allIdsL cs).Nodup → p ∈ allIdsL cs →
      p ∉ subtreeIdsL cs j →
      parentNodeOfL (removeNodeL cs j) p =
        (parentNodeOfL cs p).map (fun P => removeNode P j)
  | [], j, p => by
      intro hw hp hpj
      rw [allIdsL_nil] at hp
      simp at hp
  | c :: rest, j, p => by
      intro hw hp hpj
      rw [allIdsL_cons] at hw hp
      have hnd := List.nodup_append.mp hw
      by_cases hcj : nodeId c = j
      · have hjc : j ∈ allIds c := hcj ▸ nodeId_mem_allIds_self c
        have hsubj : subtreeIdsL (c :: rest) j = allIds c := by
          rw [subtreeIdsL_cons_of_mem hjc]
          unfold subtreeIds
          rw [← hcj, findNode_self]
        rw [hsubj] at hpj
        have hjrest : j ∉ allIdsL rest := fun hc => hnd.2.2 hjc hc
        have hPc : parentNodeOf c p = none :=
          parentNodeOf_eq_none_of_not_mem hpj
        simp only [removeNodeL, if_pos hcj, removeNodeL_of_not_mem hjrest,
          parentNodeOfL, hPc]
        rw [parentNodeOfL_map_id hjrest]
      · simp only [removeNodeL, if_neg hcj]
        by_cases hpc : p ∈ allIds c
        · have hprest : p ∉ allIdsL rest := fun hc => hnd.2.2 hpc hc
          by_cases hjcm : j ∈ allIds c
          · have hjrest : j ∉ allIdsL rest := fun hc => hnd.2.2 hjcm hc
            rw [subtreeIdsL_cons_of_mem hjcm] at hpj
            have hrec := parentNodeOf_removeNode hnd.1 hpc hpj
            simp only [parentNodeOfL, hrec, removeNodeL_of_not_mem hjrest]
            cases hPc : parentNodeOf c p with
            | some P => simp
            | none =>
                have h1 : parentNodeOfL rest p = none :=
                  parentNodeOfL_eq_none hprest
                simp [h1]
          · rw [removeNode_of_not_mem hjcm]
            simp only [parentNodeOfL]
            cases hPc : parentNodeOf c p with
            | some P =>
                have h2 := parentNodeOf_some_mem hPc
                have hrm : removeNode P j = P := by
                  apply removeNode_of_not_mem
                  intro hc
                  apply hjcm
                  rcases mem_allIds.mp hc with ⟨m, hm, hid⟩
                  exact hid ▸ nodeId_mem_allIds (mem_nodesOf_trans hm h2.1)
                simp [hrm]
            | none =>
                have h1 : parentNodeOfL rest p = none :=
                  parentNodeOfL_eq_none hprest
                have h2 : parentNodeOfL (removeNodeL rest j) p = none := by
                  apply parentNodeOfL_eq_none
                  intro hc
                  exact hprest ((allIdsL_removeNodeL_sublist rest j).subset hc)
                simp [h1, h2]
        · have hprest : p ∈ allIdsL rest := by
            rcases List.mem_append.mp hp with h | h
            · exact absurd h hpc
            · exact h
          have hPc : parentNodeOf c p = none :=
            parentNodeOf_eq_none_of_not_mem hpc
          have hPc2 : parentNodeOf (removeNode c j) p = none := by
            apply parentNodeOf_eq_none_of_not_mem
            exact fun hc => hpc (mem_of_mem_removeNode hc)
          by_cases hjcm : j ∈ allIds c
          · have hjrest : j ∉ allIdsL rest := fun hc => hnd.2.2 hjcm hc
            simp only [parentNodeOfL, hPc, hPc2,
              removeNodeL_of_not_mem hjrest]
            rw [parentNodeOfL_map_id hjrest]
          · rw [subtreeIdsL_cons_of_not_mem hjcm] at hpj
            have hrec := parentNodeOfL_removeNodeL hnd.2.1 hprest hpj
            simp only [parentNodeOfL, hPc, hPc2, hrec]
end

end LegacyMessage

namespace LegacyMessage

/-! ## Stability of nextElemSibId under removeNode -/

theorem sibAfter_isSome {cs : List DNode} {p : Nat}
    (h : ∃ c ∈ cs, nodeId c = p) : ∃ v, sibAfter cs p = some v := by
  induction cs with
  | nil => rcases h with ⟨c, hc, _⟩; simp at hc
  | cons c rest ih =>
    by_cases hcp : nodeId c = p
    · exact ⟨rest, by simp [sibAfter, hcp]⟩
    · rcases h with ⟨d, hd, hdp⟩
      rcases List.mem_cons.mp hd with hd1 | hd1
      · exact absurd (hd1 ▸ hdp) hcp
      · rcases ih ⟨d, hd1, hdp⟩ with ⟨v, hv⟩
        exact ⟨v, by simp [sibAfter, hcp, hv]⟩

theorem sibAfter_removeNodeL {cs : List DNode} {j p : Nat} (hpj : p ≠ j) :
    ∀ {v : List DNode}, sibAfter cs p = some v →
      sibAfter (removeNodeL cs j) p = some (removeNodeL v j) := by
  induction cs with
  | nil => intro v h; cases h
  | cons c rest ih =>
    intro v h
    by_cases hcp : nodeId c = p
    · rw [sibAfter, if_pos hcp] at h
      injection h with h
      subst h
      have hcj : nodeId c ≠ j := fun hh => hpj (hcp ▸ hh)
      rw [removeNodeL, if_neg hcj, sibAfter,
        if_pos (by rw [nodeId_removeNode]; exact hcp)]
    · rw [sibAfter, if_neg hcp] at h
      by_cases hcj : nodeId c = j
      · rw [removeNodeL, if_pos hcj]
        exact ih h
      · rw [removeNodeL, if_neg hcj, sibAfter,
          if_neg (by rw [nodeId_removeNode]; exact hcp)]
        exact ih h

theorem filterHead_removeNodeL {v : List DNode} {j : Nat}
    (h : ((v.filter isElemB).head?).map nodeId ≠ some j) :
    (((removeNodeL v j).filter isElemB).head?).map nodeId =
      ((v.filter isElemB).head?).map nodeId := by
  induction v with
  | nil => simp [removeNodeL]
  | cons w rest ih =>
    by_cases hwj : nodeId w = j
    · have hwel : isElemB w = false := by
        cases hel : isElemB w
        · rfl
        · exfalso
          apply h
          simp [List.filter_cons, hel, hwj]
      rw [List.filter_cons, hwel] at h
      simp only [Bool.false_eq_true, if_false] at h
      simp only [removeNodeL, if_pos hwj, List.filter_cons, hwel,
        Bool.false_eq_true, if_false]
      exact ih h
    · cases hel : isElemB w
      · rw [List.filter_cons, hel] at h
        simp only [Bool.false_eq_true, if_false] at h
        simp only [removeNodeL, if_neg hwj, List.filter_cons,
          isElemB_removeNode, hel, Bool.false_eq_true, if_false]
        exact ih h
      · simp only [removeNodeL, if_neg hwj, List.filter_cons,
          isElemB_removeNode, hel, if_true]
        simp [nodeId_removeNode]

theorem nextElemSibId_removeNode {t : DNode} {j p : Nat} (hw : wfIds t)
    (hp : p ∈ allIds t) (hpj : p ∉ subtreeIds t j)
    (hne : nextElemSibId t p ≠ some j) :
    nextElemSibId (removeNode t j) p = nextElemSibId t p := by
  have hpj2 : p ≠ j := by
    intro hh
    subst hh
    exact hpj (mem_subtreeIds_self hp)
  unfold nextElemSibId at hne ⊢
  rw [parentNodeOf_removeNode hw hp hpj]
  cases hP : parentNodeOf t p with
  | none => rfl
  | some P =>
    rw [hP] at hne
    dsimp only at hne ⊢
    rcases parentNodeOf_some_mem hP with ⟨hPt, c, hc, hcp⟩
    obtain ⟨v, hv⟩ := sibAfter_isSome ⟨c, hc, hcp⟩
    rw [hv] at hne
    dsimp only at hne
    rw [show Option.map (fun P => removeNode P j) (some P)
          = some (removeNode P j) from rfl]
    dsimp only
    rw [childrenOf_removeNode, sibAfter_removeNodeL hpj2 hv, hv]
    dsimp only
    exact filterHead_removeNodeL hne

end LegacyMessage

namespace LegacyMessage

/-! ## Document order facts -/

theorem nodesOf_cons (n : DNode) : ∃ r, nodesOf n = n :: r := by
  cases n with
  | text i s => exact ⟨[], rfl⟩
  | elem i tg f cs => exact ⟨nodesOfL cs, rfl⟩

theorem head_filter_mem {l : List DNode} {q : DNode → Bool} {a : DNode}
    (h : (l.filter q).head? = some a) : a ∈ l := by
  have hmem : a ∈ l.filter q := by
    cases hf : l.filter q with
    | nil => rw [hf] at h; cases h
    | cons x xs =>
      rw [hf] at h
      injection h with h
      rw [← h]
      exact List.mem_cons_self x xs
  exact List.mem_of_mem_filter hmem

theorem sibAfter_decomp {cs : List DNode} {b : Nat} {rest : List DNode}
    (h : sibAfter cs b = some rest) :
    ∃ u bnode, cs = u ++ bnode :: rest ∧ nodeId bnode = b := by
  induction cs generalizing rest with
  | nil => cases h
  | cons c tail ih =>
    by_cases hcb : nodeId c = b
    · rw [sibAfter, if_pos hcb] at h
      injection h with h
      subst h
      exact ⟨[], c, rfl, hcb⟩
    · rw [sibAfter, if_neg hcb] at h
      rcases ih h with ⟨u, bnode, heq, hid⟩
      exact ⟨c :: u, bnode, by rw [heq]; rfl, hid⟩

theorem pair_sublist_of_lt {ps : List Nat} {k1 k2 : Nat}
    (h1 : k1 < k2) (h2 : k2 < ps.length) :
    List.Sublist [ps.getD k1 0, ps.getD k2 0] ps := by
  induction ps generalizing k1 k2 with
  | nil => simp at h2
  | cons c rest ih =>
    cases k1 with
    | zero =>
      cases k2 with
      | zero => omega
      | succ m =>
        have hm : m < rest.length := by simp at h2; omega
        have hmem : rest.getD m 0 ∈ rest := by
          rw [List.getD_eq_getElem rest 0 hm]
          exact List.getElem_mem hm
        simp only [List.getD_cons_zero, List.getD_cons_succ]
        exact (List.singleton_sublist.mpr hmem).cons₂ c
    | succ m1 =>
      cases k2 with
      | zero => omega
      | succ m2 =>
        have hm : m2 < rest.length := by simp at h2; omega
        simp only [List.getD_cons_succ]
        exact (ih (by omega) hm).cons c

theorem pair_sublist_antisym {L : List Nat} (hw : L.Nodup) {a b : Nat}
    (h1 : List.Sublist [a, b] L) (h2 : List.Sublist [b, a] L) : a = b := by
  induction L with
  | nil => cases h1
  | cons c rest ih =>
    have hnd := List.nodup_cons.mp hw
    cases h1 with
    | cons _ h1 =>
        cases h2 with
        | cons _ h2 => exact ih hnd.2 h1 h2
        | cons₂ h2 =>
            exfalso
            exact hnd.1 (h1.subset (by simp))
    | cons₂ h1 =>
        cases h2 with
        | cons _ h2 =>
            exfalso
            exact hnd.1 (h2.subset (by simp))
        | cons₂ h2 => rfl

theorem descendantNodes_sublist (t : DNode) :
    List.Sublist (descendantNodes t) (nodesOf t) := by
  cases t with
  | text i s => simp [descendantNodes]
  | elem i tg f cs =>
    simp only [descendantNodes, nodesOf]
    exact List.sublist_cons_self _ _

theorem scan_sublist_allIds (t : DNode) :
    List.Sublist (getPossibleSpacerParagraphs t) (allIds t) := by
  unfold getPossibleSpacerParagraphs allIds
  exact (((descendantNodes t).filter_sublist).trans
    (descendantNodes_sublist t)).map nodeId

theorem scan_nodup {t : DNode} (hw : wfIds t) :
    (getPossibleSpacerParagraphs t).Nodup :=
  (scan_sublist_allIds t).nodup hw

/-- When the next element sibling of b is a, the node b comes strictly
before a in document order. -/
theorem nextElemSib_pair_sublist {t : DNode} {a b : Nat}
    (h : nextElemSibId t b = some a) :
    List.Sublist [b, a] (allIds t) := by
  unfold nextElemSibId at h
  cases hP : parentNodeOf t b with
  | none => rw [hP] at h; cases h
  | some P =>
    rw [hP] at h
    dsimp only at h
    cases hs : sibAfter (childrenOf P) b with
    | none => rw [hs] at h; cases h
    | some rest =>
      rw [hs] at h
      dsimp only at h
      cases hh : (rest.filter isElemB).head? with
      | none => rw [hh] at h; cases h
      | some anode =>
        rw [hh] at h
        injection h with h
        have hamem : anode ∈ rest := head_filter_mem hh
        rcases sibAfter_decomp hs with ⟨u, bnode, heq, hidb⟩
        rcases parentNodeOf_some_mem hP with ⟨hPt, c0, hc0, _⟩
        have hPelem : ∃ i tg f cs, P = DNode.elem i tg f cs := by
          cases P with
          | text i s => simp [childrenOf] at hc0
          | elem i tg f cs => exact ⟨i, tg, f, cs, rfl⟩
        rcases hPelem with ⟨i, tg, f, cs, rfl⟩
        simp only [childrenOf] at heq
        have hpairP : List.Sublist [bnode, anode] (nodesOf (DNode.elem i tg f cs)) := by
          rcases nodesOf_cons bnode with ⟨r1, hr1⟩
          have h1 : List.Sublist [anode] (nodesOfL rest) :=
            List.singleton_sublist.mpr
              (mem_nodesOfL.mpr ⟨anode, hamem, self_mem_nodesOf anode⟩)
          have h2 : List.Sublist [bnode, anode] (bnode :: (r1 ++ nodesOfL rest)) :=
            (h1.trans (List.sublist_append_right r1 (nodesOfL rest))).cons₂ bnode
          have h3 : List.Sublist [bnode, anode] (nodesOfL (bnode :: rest)) := by
            simp only [nodesOfL, hr1]
            simpa using h2
          have h4 : List.Sublist [bnode, anode] (nodesOfL cs) := by
            rw [heq, nodesOfL_append]
            exact h3.trans (List.sublist_append_right (nodesOfL u) _)
          simp only [nodesOf]
          exact h4.cons _
        have hsub : List.Sublist [bnode, anode] (nodesOf t) :=
          hpairP.trans (nodesOf_infix_of_mem t _ hPt).sublist
        have := hsub.map nodeId
        simp only [List.map_cons, List.map_nil] at this
        rw [hidb, h] at this
        exact this

/-- A later scan entry never reports an earlier scan entry as its next
element sibling. -/
theorem scan_no_backward {t : DNode} (hw : wfIds t) {k1 k2 : Nat}
    (h1 : k1 < k2) (h2 : k2 < (getPossibleSpacerParagraphs t).length) :
    nextElemSibId t ((getPossibleSpacerParagraphs t).getD k2 0) ≠
      some ((getPossibleSpacerParagraphs t).getD k1 0) := by
  intro hcon
  set ps := getPossibleSpacerParagraphs t with hps
  have hforward : List.Sublist [ps.getD k1 0, ps.getD k2 0] (allIds t) :=
    (pair_sublist_of_lt h1 h2).trans (scan_sublist_allIds t)
  have hback : List.Sublist [ps.getD k2 0, ps.getD k1 0] (allIds t) :=
    nextElemSib_pair_sublist hcon
  have heq := pair_sublist_antisym hw hforward hback
  have hnd : ps.Nodup := scan_nodup hw
  have hk1 : k1 < ps.length := lt_trans h1 h2
  rw [List.getD_eq_getElem ps 0 hk1, List.getD_eq_getElem ps 0 h2] at heq
  have : k1 = k2 := (@List.Nodup.getElem_inj_iff ℕ ps hnd k1 hk1 k2 h2).mp heq
  omega

end LegacyMessage

namespace LegacyMessage

/-! ## Shape of scanned spacer paragraphs -/

/-- A filler line-break marker with id x is present in the tree. -/
def fillerBrIn (t : DNode) (x : Nat) : Prop :=
  ∃ m ∈ nodesOf t, nodeId m = x ∧ isBrB m = true ∧ fillerOf m = true

theorem mem_scan {t : DNode} {p : Nat} :
    p ∈ getPossibleSpacerParagraphs t ↔
      ∃ n ∈ descendantNodes t, isSpacerP n = true ∧ nodeId n = p := by
  unfold getPossibleSpacerParagraphs
  simp only [List.mem_map, List.mem_filter]
  constructor
  · rintro ⟨n, ⟨hn, hsp⟩, hid⟩
    exact ⟨n, hn, hsp, hid⟩
  · rintro ⟨n, hn, hsp, hid⟩
    exact ⟨n, ⟨hn, hsp⟩, hid⟩

theorem isSpacerP_shape {n : DNode} (h : isSpacerP n = true) :
    ∃ i f cs, n = DNode.elem i "P" f cs ∧
      ∃ br, cs.filter isElemB = [br] ∧ tagOf br = "BR" ∧
        isElemB br = true ∧ fillerOf br = false := by
  cases n with
  | text i s => simp [isSpacerP, isElemB] at h
  | elem i tg f cs =>
    unfold isSpacerP at h
    simp only [isElemB, childrenOf, tagOf, Bool.true_and, Bool.and_eq_true,
      beq_iff_eq] at h
    cases hf : cs.filter isElemB with
    | nil => rw [hf] at h; simp at h
    | cons c rest =>
      cases rest with
      | cons d ds => rw [hf] at h; simp at h
      | nil =>
        rw [hf] at h
        simp only [Bool.and_eq_true, beq_iff_eq, Bool.not_eq_true] at h
        refine ⟨i, f, cs, by rw [h.1], c, hf, h.2.1, ?_,
          by simpa using h.2.2⟩
        have : c ∈ cs.filter isElemB := by rw [hf]; exact List.mem_cons_self c []
        exact (List.mem_filter.mp this).2

theorem scan_subtree_nodes {t : DNode} (hw : wfIds t) (hbl : brLeaves t)
    {p : Nat} (hp : p ∈ getPossibleSpacerParagraphs t) :
    ∃ n, findNode t p = some n ∧ n ∈ nodesOf t ∧ isSpacerP n = true ∧
      ∀ m ∈ nodesOf n, m ≠ n →
        isElemB m = false ∨ (isBrB m = true ∧ fillerOf m = false) := by
  rcases mem_scan.mp hp with ⟨n, hnd, hsp, hid⟩
  have hnt : n ∈ nodesOf t := (descendantNodes_sublist t).subset hnd
  refine ⟨n, hid ▸ findNode_unique hw hnt, hnt, hsp, ?_⟩
  rcases isSpacerP_shape hsp with ⟨i, f, cs, hneq, br, hfilt, hbrtag, hbrel, hbrfill⟩
  intro m hm hmn
  have hm2 : m ∈ nodesOfL cs := by
    rw [hneq] at hm
    simp only [nodesOf, List.mem_cons] at hm
    rcases hm with h | h
    · exact absurd (hneq ▸ h) hmn
    · exact h
  rcases mem_nodesOfL.mp hm2 with ⟨c, hc, hmc⟩
  have hcn : c ∈ childrenOf n := by rw [hneq]; exact hc
  have hct : c ∈ nodesOf t :=
    mem_nodesOf_trans (mem_nodesOf_of_mem_childrenOf hcn) hnt
  cases hel : isElemB c with
  | false =>
    have hcleaf : nodesOf c = [c] := by
      cases c with
      | text ci cst => rfl
      | elem ci ct cf ccs => simp [isElemB] at hel
    rw [hcleaf] at hmc
    simp at hmc
    subst hmc
    exact Or.inl hel
  | true =>
    have hcbr : c = br := by
      have hmem : c ∈ cs.filter isElemB := List.mem_filter.mpr ⟨hc, hel⟩
      rw [hfilt] at hmem
      simpa using hmem
    subst hcbr
    have hbrb : isBrB c = true := by
      unfold isBrB
      rw [hel, hbrtag]
      rfl
    have hlf : childrenOf c = [] := hbl c hct hbrb
    have hcleaf : nodesOf c = [c] := by
      cases c with
      | text ci cst => rfl
      | elem ci ct cf ccs =>
        simp only [childrenOf] at hlf
        rw [hlf]
        rfl
    rw [hcleaf] at hmc
    simp at hmc
    subst hmc
    exact Or.inr ⟨hbrb, hbrfill⟩

theorem scan_mem_allIds {t : DNode} {p : Nat}
    (hp : p ∈ getPossibleSpacerParagraphs t) : p ∈ allIds t :=
  (scan_sublist_allIds t).subset hp

theorem scan_ne_root {t : DNode} (hw : wfIds t) {p : Nat}
    (hp : p ∈ getPossibleSpacerParagraphs t) : p ≠ nodeId t := by
  rcases mem_scan.mp hp with ⟨n, hnd, hsp, hid⟩
  intro hcon
  cases t with
  | text i s => simp [descendantNodes] at hnd
  | elem i tg f cs =>
    have hw2 := hw
    unfold wfIds at hw2
    rw [allIds_elem] at hw2
    have hmem : p ∈ allIdsL cs := by
      exact hid ▸ mem_allIds_of_mem_nodesOfL hnd (nodeId_mem_allIds_self n)
    simp only [nodeId] at hcon
    rw [hcon] at hmem
    exact (List.nodup_cons.mp hw2).1 hmem

/-- Distinct scanned spacer paragraphs are never nested. -/
theorem scan_not_nested {t : DNode} (hw : wfIds t) (hbl : brLeaves t)
    {p q : Nat} (hp : p ∈ getPossibleSpacerParagraphs t)
    (hq : q ∈ getPossibleSpacerParagraphs t) (hne : q ≠ p) :
    q ∉ subtreeIds t p := by
  intro hcon
  rcases scan_subtree_nodes hw hbl hp with ⟨n, hfn, hnt, hsp, hshape⟩
  unfold subtreeIds at hcon
  rw [hfn] at hcon
  rcases mem_allIds.mp hcon with ⟨m, hm, hid⟩
  rcases mem_scan.mp hq with ⟨nq, hnqd, hnqsp, hnqid⟩
  have hnqt : nq ∈ nodesOf t := (descendantNodes_sublist t).subset hnqd
  have hmt : m ∈ nodesOf t := mem_nodesOf_trans hm hnt
  have hmeq : m = nq := nodeId_inj hw m hmt nq hnqt (by rw [hid, hnqid])
  have hmn : m ≠ n := by
    intro hcon2
    apply hne
    rw [← hid, hcon2]
    exact (findNode_some_mem hfn).2
  rcases hshape m hm hmn with hcase | hcase
  · rcases isSpacerP_shape (hmeq ▸ hnqsp) with ⟨i2, f2, cs2, hm2, _⟩
    rw [hm2] at hcase
    simp [isElemB] at hcase
  · rcases isSpacerP_shape (hmeq ▸ hnqsp) with ⟨i2, f2, cs2, hm2, _⟩
    unfold isBrB at hcase
    rw [hm2] at hcase
    simp only [tagOf, isElemB, Bool.true_and] at hcase
    have := hcase.1
    simp at this

/-- The subtree of a scanned spacer paragraph contains no filler marker. -/
theorem scan_no_filler_inside {t : DNode} (hw : wfIds t) (hbl : brLeaves t)
    {p x : Nat} (hp : p ∈ getPossibleSpacerParagraphs t)
    (hx : fillerBrIn t x) : x ∉ subtreeIds t p := by
  intro hcon
  rcases scan_subtree_nodes hw hbl hp with ⟨n, hfn, hnt, hsp, hshape⟩
  unfold subtreeIds at hcon
  rw [hfn] at hcon
  rcases mem_allIds.mp hcon with ⟨m, hm, hid⟩
  rcases hx with ⟨mx, hmx, hmxid, hmxbr, hmxfill⟩
  have hmt : m ∈ nodesOf t := mem_nodesOf_trans hm hnt
  have hmeq : m = mx := nodeId_inj hw m hmt mx hmx (by rw [hid, hmxid])
  have hmn : m ≠ n := by
    intro hcon2
    rcases isSpacerP_shape hsp with ⟨i2, f2, cs2, hn2, _⟩
    rw [hcon2, hn2] at hmeq
    rw [← hmeq] at hmxbr
    unfold isBrB at hmxbr
    simp [tagOf, isElemB] at hmxbr
  rcases hshape m hm hmn with hcase | hcase
  · rw [hmeq] at hcase
    unfold isBrB at hmxbr
    rw [hcase] at hmxbr
    simp at hmxbr
  · rw [hmeq] at hcase
    rw [hcase.2] at hmxfill
    cases hmxfill

end LegacyMessage

namespace LegacyMessage

/-! ## Static description of the reducer's decisions -/

/-- The adjacency flag between consecutive scan entries, read off the
tree: entry k+1 is the nextElementSibling of entry k. -/
def adjFlag (t : DNode) (ps : List Nat) (k : Nat) : Bool :=
  decide (k + 1 < ps.length) &&
    (nextElemSibId t (ps.getD k 0) == some (ps.getD (k + 1) 0))

/-- Start index of the maximal adjacent run containing position k. -/
def runStartIdx (t : DNode) (ps : List Nat) : Nat → Nat
  | 0 => 0
  | k + 1 => if adjFlag t ps k then runStartIdx t ps k else k + 1

/-- The survivor of the reduction at position k: the second member of
each consecutive pair of a run, i.e. an odd offset from the run start. -/
def survivesIdx (t : DNode) (ps : List Nat) (k : Nat) : Bool :=
  (k - runStartIdx t ps k) % 2 == 1

theorem runStartIdx_le (t : DNode) (ps : List Nat) :
    ∀ k, runStartIdx t ps k ≤ k := by
  intro k
  induction k with
  | zero => exact le_rfl
  | succ m ih =>
    unfold runStartIdx
    split
    · omega
    · exact le_rfl

theorem runStartIdx_succ (t : DNode) (ps : List Nat) (k : Nat) :
    runStartIdx t ps (k + 1) =
      if adjFlag t ps k then runStartIdx t ps k else k + 1 := rfl

/-! ## Evaluation of the inner offset loop -/

theorem offsetLoop_stop {t : DNode} {cand : Nat} {ps : List Nat} {i : Nat}
    (fuel off : Nat)
    (h : ¬ (i + off + 1 < ps.length ∧
      nextElemSibId t cand = some (ps.getD (i + off + 1) 0))) :
    offsetLoop t cand ps i fuel off = off := by
  cases fuel with
  | zero => rfl
  | succ f =>
    unfold offsetLoop
    by_cases h1 : i + off + 1 < ps.length
    · rw [if_pos h1]
      by_cases h2 : nextElemSibId t cand = some (ps.getD (i + off + 1) 0)
      · exact absurd ⟨h1, h2⟩ h
      · rw [if_neg h2]
    · rw [if_neg h1]

theorem offsetLoop_eval {t : DNode} {ps : List Nat} {i : Nat}
    (hnd : ps.Nodup) (fuel : Nat) (hfuel : 1 ≤ fuel) :
    offsetLoop t (ps.getD i 0) ps i fuel 0 =
      if adjFlag t ps i = true then 1 else 0 := by
  by_cases hadj : adjFlag t ps i = true
  · rw [if_pos hadj]
    unfold adjFlag at hadj
    simp only [Bool.and_eq_true, decide_eq_true_eq, beq_iff_eq] at hadj
    cases fuel with
    | zero => omega
    | succ f =>
      unfold offsetLoop
      rw [if_pos (by omega : i + 0 + 1 < ps.length)]
      rw [if_pos (by simpa using hadj.2)]
      apply offsetLoop_stop
      rintro ⟨hb, hnext⟩
      rw [hadj.2] at hnext
      injection hnext with hnext
      have h1 : i + 1 < ps.length := hadj.1
      have h2 : i + 2 < ps.length := by omega
      rw [List.getD_eq_getElem ps 0 h1, List.getD_eq_getElem ps 0 (by omega)] at hnext
      have := (@List.Nodup.getElem_inj_iff Nat ps hnd (i+1) h1 (i+2) (by omega)).mp hnext
      omega
  · rw [if_neg hadj]
    apply offsetLoop_stop
    rintro ⟨hb, hnext⟩
    apply hadj
    unfold adjFlag
    simp only [Bool.and_eq_true, decide_eq_true_eq, beq_iff_eq]
    exact ⟨by omega, by simpa using hnext⟩

theorem offsetLoop_le_one {t : DNode} {ps : List Nat} {i : Nat}
    (hnd : ps.Nodup) (fuel : Nat) :
    offsetLoop t (ps.getD i 0) ps i fuel 0 ≤ 1 := by
  cases fuel with
  | zero => exact Nat.zero_le 1
  | succ f =>
    rw [offsetLoop_eval hnd (f + 1) (by omega)]
    split <;> omega

theorem drop_take_one {ps : List Nat} {i : Nat} (h : i < ps.length) :
    (ps.drop i).take 1 = [ps.getD i 0] := by
  have hdrop : ps.drop i = ps.getD i 0 :: ps.drop (i + 1) := by
    rw [List.getD_eq_getElem ps 0 h]
    exact List.drop_eq_getElem_cons h
  rw [hdrop]
  rfl

end LegacyMessage

namespace LegacyMessage

theorem getD_mem_of_lt {ps : List Nat} {k : Nat} (h : k < ps.length) :
    ps.getD k 0 ∈ ps := by
  rw [List.getD_eq_getElem ps 0 h]
  exact List.getElem_mem h

theorem getD_ne_of_ne {ps : List Nat} (hnd : ps.Nodup) {k1 k2 : Nat}
    (h1 : k1 < ps.length) (h2 : k2 < ps.length) (hne : k1 ≠ k2) :
    ps.getD k1 0 ≠ ps.getD k2 0 := by
  intro hcon
  rw [List.getD_eq_getElem ps 0 h1, List.getD_eq_getElem ps 0 h2] at hcon
  exact hne ((@List.Nodup.getElem_inj_iff Nat ps hnd k1 h1 k2 h2).mp hcon)

theorem mem_allIds_of_findNode {t : DNode} {j : Nat} {n : DNode}
    (h : findNode t j = some n) : j ∈ allIds t :=
  (findNode_some_mem h).2 ▸ nodeId_mem_allIds (findNode_some_mem h).1

theorem adjFlag_bound {t : DNode} {ps : List Nat} {i : Nat}
    (h : adjFlag t ps i = true) : i + 1 < ps.length := by
  unfold adjFlag at h
  simp only [Bool.and_eq_true, decide_eq_true_eq] at h
  exact h.1

/-- The reducer loop, characterized: an id survives the loop from
position i precisely when it is not inside the t1-subtree of any
non-surviving candidate at a position from i on.  The list ps is
abstracted by the properties shared by every spacer scan: entries are
pairwise distinct non-root ids of t1, never nested inside one another,
and a later entry never has an earlier one as next element sibling. -/
theorem reduceLoop_mem_char {t1 : DNode} {ps : List Nat}
    (hnd : ps.Nodup)
    (hmem : ∀ k, k < ps.length → ps.getD k 0 ∈ allIds t1)
    (hroot : ∀ k, k < ps.length → ps.getD k 0 ≠ nodeId t1)
    (hnest : ∀ k1 k2, k1 < ps.length → k2 < ps.length → k1 ≠ k2 →
      ps.getD k1 0 ∉ subtreeIds t1 (ps.getD k2 0))
    (hnb : ∀ k1 k2, k1 < k2 → k2 < ps.length →
      nextElemSibId t1 (ps.getD k2 0) ≠ some (ps.getD k1 0)) :
    ∀ (fuel : Nat) (t : DNode) (i : Nat),
      wfIds t → nodeId t = nodeId t1 → ps.length - i ≤ fuel →
      (i - runStartIdx t1 ps i) % 2 = 0 →
      (∀ k, i ≤ k → k < ps.length →
        findNode t (ps.getD k 0) = findNode t1 (ps.getD k 0) ∧
        nextElemSibId t (ps.getD k 0) = nextElemSibId t1 (ps.getD k 0)) →
      ∀ x, x ∈ allIds (reduceLoop fuel t ps i) ↔
        (x ∈ allIds t ∧ ∀ k, i ≤ k → k < ps.length →
          survivesIdx t1 ps k = false → x ∉ subtreeIds t1 (ps.getD k 0)) := by
  intro fuel
  induction fuel with
  | zero =>
    intro t i hw ht hfuel hpar hstab x
    unfold reduceLoop
    constructor
    · intro hx
      exact ⟨hx, fun k hk1 hk2 _ => by omega⟩
    · exact fun hx => hx.1
  | succ f ih =>
    intro t i hw ht hfuel hpar hstab x
    by_cases hi : i < ps.length
    case neg =>
      unfold reduceLoop
      rw [if_neg hi]
      constructor
      · intro hx
        exact ⟨hx, fun k hk1 hk2 _ => by omega⟩
      · exact fun hx => hx.1
    case pos =>
    have hstab_i := hstab i le_rfl hi
    have hadj_eq : adjFlag t ps i = adjFlag t1 ps i := by
      unfold adjFlag
      rw [hstab_i.2]
    have hcmem1 : ps.getD i 0 ∈ allIds t1 := hmem i hi
    have hcmem : ps.getD i 0 ∈ allIds t := by
      rcases findNode_mem_of_mem hcmem1 with ⟨n, hfn, _, _⟩
      exact mem_allIds_of_findNode (by rw [hstab_i.1]; exact hfn)
    have hcroot : ps.getD i 0 ≠ nodeId t := by
      rw [ht]
      exact hroot i hi
    have hsub_i_eq : subtreeIds t (ps.getD i 0) = subtreeIds t1 (ps.getD i 0) := by
      unfold subtreeIds
      rw [hstab_i.1]
    have hsurv_i : survivesIdx t1 ps i = false := by
      unfold survivesIdx
      simp only [beq_eq_false_iff_ne, ne_eq]
      omega
    have hw2 : wfIds (removeNode t (ps.getD i 0)) :=
      wfIds_removeNode hw (ps.getD i 0)
    have ht2 : nodeId (removeNode t (ps.getD i 0)) = nodeId t1 := by
      rw [nodeId_removeNode]
      exact ht
    have hstep : ∀ k, i + 1 ≤ k → k < ps.length →
        findNode (removeNode t (ps.getD i 0)) (ps.getD k 0) =
          findNode t1 (ps.getD k 0) ∧
        nextElemSibId (removeNode t (ps.getD i 0)) (ps.getD k 0) =
          nextElemSibId t1 (ps.getD k 0) := by
      intro k hk1 hk2
      have hstabk := hstab k (by omega) hk2
      have hqmem : ps.getD k 0 ∈ allIds t := by
        rcases findNode_mem_of_mem (hmem k hk2) with ⟨n, hfn, _, _⟩
        exact mem_allIds_of_findNode (by rw [hstabk.1]; exact hfn)
      have hsub_k_eq : subtreeIds t (ps.getD k 0) = subtreeIds t1 (ps.getD k 0) := by
        unfold subtreeIds
        rw [hstabk.1]
      have h1 : ps.getD k 0 ∉ subtreeIds t (ps.getD i 0) := by
        rw [hsub_i_eq]
        exact hnest k i hk2 hi (by omega)
      have h2 : ps.getD i 0 ∉ subtreeIds t (ps.getD k 0) := by
        rw [hsub_k_eq]
        exact hnest i k hi hk2 (by omega)
      have hne2 : nextElemSibId t (ps.getD k 0) ≠ some (ps.getD i 0) := by
        rw [hstabk.2]
        exact hnb i k (by omega) hk2
      constructor
      · rw [findNode_removeNode hw hqmem h1 h2]
        exact hstabk.1
      · rw [nextElemSibId_removeNode hw hqmem h1 hne2]
        exact hstabk.2
    have hmem_rm : ∀ y, y ∈ allIds (removeNode t (ps.getD i 0)) ↔
        (y ∈ allIds t ∧ y ∉ subtreeIds t1 (ps.getD i 0)) := by
      intro y
      rw [mem_allIds_removeNode hw hcroot, hsub_i_eq]
    by_cases hadj : adjFlag t1 ps i = true
    case neg =>
      -- a lone candidate: offset 0, remove it, advance one position
      have hoff : offsetLoop t (ps.getD i 0) ps i ps.length 0 = 0 := by
        rw [offsetLoop_eval hnd ps.length (by omega), hadj_eq, if_neg hadj]
      unfold reduceLoop
      rw [if_pos hi]
      dsimp only
      rw [hoff]
      rw [if_pos rfl]
      have hpar2 : (i + 1 - runStartIdx t1 ps (i + 1)) % 2 = 0 := by
        rw [runStartIdx_succ, if_neg (by simp [hadj])]
        omega
      rw [ih (removeNode t (ps.getD i 0)) (i + 1) hw2 ht2 (by omega) hpar2 hstep x]
      rw [hmem_rm x]
      constructor
      · rintro ⟨⟨hxt, hxsub⟩, hrest⟩
        refine ⟨hxt, ?_⟩
        intro k hk1 hk2 hks
        by_cases hki : k = i
        · subst hki
          exact hxsub
        · exact hrest k (by omega) hk2 hks
      · rintro ⟨hxt, hall⟩
        exact ⟨⟨hxt, hall i le_rfl hi hsurv_i⟩,
          fun k hk1 hk2 hks => hall k (by omega) hk2 hks⟩
    case pos =>
      -- an adjacent pair: offset 1, remove the first, skip both
      have hb2 : i + 1 < ps.length := adjFlag_bound hadj
      have hoff : offsetLoop t (ps.getD i 0) ps i ps.length 0 = 1 := by
        rw [offsetLoop_eval hnd ps.length (by omega), hadj_eq, if_pos hadj]
      unfold reduceLoop
      rw [if_pos hi]
      dsimp only
      rw [hoff]
      rw [if_neg (by omega)]
      have hksimp : (if 1 % 2 = 1 then (1 + 1) / 2 else 1 / 2 + 1) = 1 := by
        norm_num
      rw [hksimp, drop_take_one hi]
      simp only [List.foldl_cons, List.foldl_nil]
      have hrs1 : runStartIdx t1 ps (i + 1) = runStartIdx t1 ps i := by
        rw [runStartIdx_succ, if_pos hadj]
      have hsurv_i1 : survivesIdx t1 ps (i + 1) = true := by
        unfold survivesIdx
        rw [hrs1]
        have := runStartIdx_le t1 ps i
        simp only [beq_iff_eq]
        omega
      have hpar2 : (i + 1 + 1 - runStartIdx t1 ps (i + 1 + 1)) % 2 = 0 := by
        rw [runStartIdx_succ]
        split
        · rw [hrs1]
          have := runStartIdx_le t1 ps i
          omega
        · omega
      have hstep2 : ∀ k, i + 1 + 1 ≤ k → k < ps.length →
          findNode (removeNode t (ps.getD i 0)) (ps.getD k 0) =
            findNode t1 (ps.getD k 0) ∧
          nextElemSibId (removeNode t (ps.getD i 0)) (ps.getD k 0) =
            nextElemSibId t1 (ps.getD k 0) :=
        fun k hk1 hk2 => hstep k (by omega) hk2
      rw [ih (removeNode t (ps.getD i 0)) (i + 1 + 1) hw2 ht2 (by omega)
        hpar2 hstep2 x]
      rw [hmem_rm x]
      constructor
      · rintro ⟨⟨hxt, hxsub⟩, hrest⟩
        refine ⟨hxt, ?_⟩
        intro k hk1 hk2 hks
        by_cases hki : k = i
        · subst hki
          exact hxsub
        · by_cases hki1 : k = i + 1
          · subst hki1
            rw [hsurv_i1] at hks
            cases hks
          · exact hrest k (by omega) hk2 hks
      · rintro ⟨hxt, hall⟩
        exact ⟨⟨hxt, hall i le_rfl hi hsurv_i⟩,
          fun k hk1 hk2 hks => hall k (by omega) hk2 hks⟩

end LegacyMessage

namespace LegacyMessage

/-- The reduction of the scanned spacer paragraphs of a tree: an id is
present afterwards iff it is present before and lies in no non-surviving
scanned paragraph's subtree. -/
theorem reduce_scan_mem_char {t1 : DNode} (hw1 : wfIds t1) (hbl : brLeaves t1) :
    ∀ x, x ∈ allIds (reduceSpacerParagraphs t1 (getPossibleSpacerParagraphs t1)) ↔
      (x ∈ allIds t1 ∧ ∀ k, k < (getPossibleSpacerParagraphs t1).length →
        survivesIdx t1 (getPossibleSpacerParagraphs t1) k = false →
        x ∉ subtreeIds t1 ((getPossibleSpacerParagraphs t1).getD k 0)) := by
  intro x
  unfold reduceSpacerParagraphs
  by_cases hlen : (getPossibleSpacerParagraphs t1).length = 0
  · rw [if_pos hlen]
    constructor
    · intro hx
      exact ⟨hx, fun k hk => by omega⟩
    · exact fun hx => hx.1
  · rw [if_neg hlen]
    have h := reduceLoop_mem_char (scan_nodup hw1)
      (fun k hk => scan_mem_allIds (getD_mem_of_lt hk))
      (fun k hk => scan_ne_root hw1 (getD_mem_of_lt hk))
      (fun k1 k2 h1 h2 hne => scan_not_nested hw1 hbl (getD_mem_of_lt h2)
        (getD_mem_of_lt h1) (getD_ne_of_ne (scan_nodup hw1) h1 h2 hne))
      (fun k1 k2 h1 h2 => scan_no_backward hw1 h1 h2)
      (getPossibleSpacerParagraphs t1).length t1 0 hw1 rfl (by omega)
      (by simp [runStartIdx]) (fun k hk1 hk2 => ⟨rfl, rfl⟩) x
    rw [h]
    constructor
    · rintro ⟨h1, h2⟩
      exact ⟨h1, fun k hk => h2 k (Nat.zero_le k) hk⟩
    · rintro ⟨h1, h2⟩
      exact ⟨h1, fun k _ hk => h2 k hk⟩

/-- A scanned spacer paragraph survives the reduction iff its position
is a surviving one. -/
theorem reduce_scan_candidate_mem {t1 : DNode} (hw1 : wfIds t1)
    (hbl : brLeaves t1) {k : Nat}
    (hk : k < (getPossibleSpacerParagraphs t1).length) :
    ((getPossibleSpacerParagraphs t1).getD k 0 ∈
        allIds (reduceSpacerParagraphs t1 (getPossibleSpacerParagraphs t1))) ↔
      survivesIdx t1 (getPossibleSpacerParagraphs t1) k = true := by
  have hmem1 : (getPossibleSpacerParagraphs t1).getD k 0 ∈ allIds t1 :=
    scan_mem_allIds (getD_mem_of_lt hk)
  rw [reduce_scan_mem_char hw1 hbl]
  constructor
  · rintro ⟨hmem, hall⟩
    cases hs : survivesIdx t1 (getPossibleSpacerParagraphs t1) k with
    | true => rfl
    | false =>
      exfalso
      exact hall k hk hs (mem_subtreeIds_self hmem1)
  · intro hs
    refine ⟨hmem1, ?_⟩
    intro k2 hk2 hks2
    have hne : k ≠ k2 := by
      intro hcon
      rw [hcon, hks2] at hs
      cases hs
    exact scan_not_nested hw1 hbl (getD_mem_of_lt hk2) (getD_mem_of_lt hk)
      (getD_ne_of_ne (scan_nodup hw1) hk hk2 hne)

end LegacyMessage

namespace LegacyMessage

/-! ## The unwrap step as a subtree replacement -/

theorem nodeId_insertAfter (t : DNode) (j : Nat) (nw : DNode) :
    nodeId (insertAfterNode t j nw) = nodeId t := by
  cases t <;> rfl

mutual
theorem insertAfter_of_not_mem :
    ∀ {t : DNode} {j : Nat} {nw : DNode}, j ∉ allIds t →
      insertAfterNode t j nw = t
  | .text i s, j, nw => by intro h; rfl
  | .elem i tg f cs, j, nw => by
      rw [allIds_elem]
      intro h
      simp only [insertAfterNode]
      rw [insertAfterL_of_not_mem (fun hc => h (List.mem_cons_of_mem i hc))]
theorem insertAfterL_of_not_mem :
    ∀ {cs : List DNode} {j : Nat} {nw : DNode}, j ∉ allIdsL cs →
      insertAfterL cs j nw = cs
  | [], j, nw => by intro h; rfl
  | c :: rest, j, nw => by
      rw [allIdsL_cons]
      intro h
      simp only [insertAfterL]
      rw [if_neg, insertAfter_of_not_mem, insertAfterL_of_not_mem]
      · exact fun hc => h (List.mem_append.mpr (Or.inr hc))
      · exact fun hc => h (List.mem_append.mpr (Or.inl hc))
      · intro hc
        subst hc
        exact h (List.mem_append.mpr (Or.inl (nodeId_mem_allIds_self c)))
end

mutual
theorem replaceNode_of_not_mem :
    ∀ {t : DNode} {j : Nat} {nw : DNode}, j ∉ allIds t →
      replaceNode t j nw = t
  | .text i s, j, nw => by intro h; rfl
  | .elem i tg f cs, j, nw => by
      rw [allIds_elem]
      intro h
      simp only [replaceNode]
      rw [replaceNodeL_of_not_mem (fun hc => h (List.mem_cons_of_mem i hc))]
theorem replaceNodeL_of_not_mem :
    ∀ {cs : List DNode} {j : Nat} {nw : DNode}, j ∉ allIdsL cs →
      replaceNodeL cs j nw = cs
  | [], j, nw => by intro h; rfl
  | c :: rest, j, nw => by
      rw [allIdsL_cons]
      intro h
      simp only [replaceNodeL]
      rw [if_neg, replaceNode_of_not_mem, replaceNodeL_of_not_mem]
      · exact fun hc => h (List.mem_append.mpr (Or.inr hc))
      · exact fun hc => h (List.mem_append.mpr (Or.inl hc))
      · intro hc
        subst hc
        exact h (List.mem_append.mpr (Or.inl (nodeId_mem_allIds_self c)))
end

theorem not_mem_of_findNode_none {t : DNode} {j : Nat}
    (h : findNode t j = none) : j ∉ allIds t := by
  intro hc
  have := findNode_isSome hc
  rw [h] at this
  cases this

/-- An id occurring inside a strict descendant never equals the id at the
top of a duplicate-free subtree. -/
theorem inner_id_ne_top {c n : DNode} (hw : (allIds c).Nodup)
    (hn : n ∈ nodesOf c) (hne : nodeId n ≠ nodeId c) {y : Nat}
    (hy : y ∈ allIds n) : y ≠ nodeId c := by
  cases c with
  | text i s =>
    simp [nodesOf] at hn
    rw [hn] at hne
    exact absurd rfl hne
  | elem i tg f cs =>
    simp only [nodesOf, List.mem_cons] at hn
    rcases hn with hn | hn
    · rw [hn] at hne
      exact absurd rfl hne
    · have hyc : y ∈ allIdsL cs := mem_allIds_of_mem_nodesOfL hn hy
      rw [allIds_elem] at hw
      simp only [nodeId]
      intro hcon
      exact (List.nodup_cons.mp hw).1 (hcon ▸ hyc)

mutual
/-- The body of one unwrapBr round on a sole-child marker inside a
wrapper: detaching the marker, reinserting it right after the wrapper and
dropping the then-childless wrapper replaces the wrapper's subtree by the
marker. -/
theorem unwrap_step_eq_replace :
    ∀ {t : DNode} {pid : Nat} {ptag : String} {pf : Bool} {brNode : DNode},
      wfIds t → pid ≠ nodeId t →
      findNode t pid = some (.elem pid ptag pf [brNode]) →
      removeNode (insertAfterNode (removeNode t (nodeId brNode)) pid brNode)
          pid
        = replaceNode t pid brNode
  | .text i s, pid, ptag, pf, brNode => by
      intro hw hroot hf
      simp only [findNode] at hf
      split at hf
      · cases hf
      · cases hf
  | .elem i tg f cs, pid, ptag, pf, brNode => by
      intro hw hroot hf
      simp only [nodeId] at hroot
      simp only [findNode] at hf
      rw [if_neg (fun hh => hroot hh.symm)] at hf
      have hw2 : (allIdsL cs).Nodup := by
        have h0 := hw
        unfold wfIds at h0
        rw [allIds_elem] at h0
        exact (List.nodup_cons.mp h0).2
      simp only [removeNode, insertAfterNode, replaceNode]
      rw [unwrap_stepL cs hw2 hf]
theorem unwrap_stepL :
    ∀ (cs : List DNode) {pid : Nat} {ptag : String} {pf : Bool}
      {brNode : DNode}, (allIdsL cs).Nodup →
      findNodeL cs pid = some (.elem pid ptag pf [brNode]) →
      removeNodeL (insertAfterL (removeNodeL cs (nodeId brNode)) pid brNode)
          pid
        = replaceNodeL cs pid brNode
  | [], pid, ptag, pf, brNode => by intro hw hf; cases hf
  | c :: rest, pid, ptag, pf, brNode => by
      intro hw hf
      rw [allIdsL_cons] at hw
      have hnd := List.nodup_append.mp hw
      simp only [findNodeL] at hf
      cases hfc : findNode c pid with
      | some n =>
        rw [hfc] at hf
        injection hf with hf
        subst hf
        have hpidc : pid ∈ allIds c := mem_allIds_of_findNode hfc
        have hnmem := findNode_some_mem hfc
        have hjn : nodeId brNode ∈
            allIds (DNode.elem pid ptag pf [brNode]) := by
          rw [allIds_elem, allIdsL_cons, allIdsL_nil, List.append_nil]
          exact List.mem_cons_of_mem pid (nodeId_mem_allIds_self brNode)
        have hjc : nodeId brNode ∈ allIds c := by
          rcases mem_allIds.mp hjn with ⟨m, hm, hid⟩
          exact hid ▸ nodeId_mem_allIds (mem_nodesOf_trans hm hnmem.1)
        have hjrest : nodeId brNode ∉ allIdsL rest :=
          fun hc => hnd.2.2 hjc hc
        have hpidrest : pid ∉ allIdsL rest := fun hc => hnd.2.2 hpidc hc
        by_cases hcpid : nodeId c = pid
        · -- the head child is the wrapper itself
          have hceq : c = DNode.elem pid ptag pf [brNode] := by
            have hself := findNode_self c
            rw [hcpid, hfc] at hself
            injection hself with hself
            exact hself.symm
          have hwc : (allIds c).Nodup := hnd.1
          rw [hceq, allIds_elem, allIdsL_cons, allIdsL_nil,
            List.append_nil] at hwc
          have hpid_notin_br : pid ∉ allIds brNode :=
            (List.nodup_cons.mp hwc).1
          have hpid_ne_j : pid ≠ nodeId brNode := fun hh =>
            hpid_notin_br (hh ▸ nodeId_mem_allIds_self brNode)
          have hrem : removeNode c (nodeId brNode) =
              DNode.elem pid ptag pf [] := by
            rw [hceq]
            simp [removeNode, removeNodeL]
          have hcj : nodeId c ≠ nodeId brNode := by
            rw [hcpid]
            exact hpid_ne_j
          rw [removeNodeL, if_neg hcj, removeNodeL_of_not_mem hjrest, hrem]
          have hid1 : nodeId (DNode.elem pid ptag pf ([] : List DNode)) = pid := rfl
          rw [insertAfterL, if_pos hid1, insertAfterL_of_not_mem hpidrest]
          rw [removeNodeL, if_pos hid1]
          have hjpid : nodeId brNode ≠ pid := fun hh => hpid_ne_j hh.symm
          rw [removeNodeL, if_neg hjpid,
            removeNode_of_not_mem hpid_notin_br,
            removeNodeL_of_not_mem hpidrest]
          rw [replaceNodeL, if_pos hcpid,
            replaceNodeL_of_not_mem hpidrest]
        · -- the wrapper lies strictly inside the head child
          have hnne : nodeId (DNode.elem pid ptag pf [brNode]) ≠ nodeId c := by
            simp only [nodeId]
            exact fun hk => hcpid hk.symm
          have hcj : nodeId c ≠ nodeId brNode := by
            intro hh
            exact inner_id_ne_top hnd.1 hnmem.1 hnne hjn hh.symm
          have hpid_ne_c : pid ≠ nodeId c := fun hk => hcpid hk.symm
          rw [removeNodeL, if_neg hcj, removeNodeL_of_not_mem hjrest]
          have hid2 : nodeId (removeNode c (nodeId brNode)) ≠ pid := by
            rw [nodeId_removeNode]
            exact hcpid
          rw [insertAfterL, if_neg hid2, insertAfterL_of_not_mem hpidrest]
          have hid3 : nodeId (insertAfterNode (removeNode c (nodeId brNode))
              pid brNode) ≠ pid := by
            rw [nodeId_insertAfter, nodeId_removeNode]
            exact hcpid
          rw [removeNodeL, if_neg hid3, removeNodeL_of_not_mem hpidrest]
          rw [unwrap_step_eq_replace hnd.1 hpid_ne_c hfc]
          rw [replaceNodeL, if_neg hcpid,
            replaceNodeL_of_not_mem hpidrest]
      | none =>
        rw [hfc] at hf
        have hpidnc : pid ∉ allIds c := not_mem_of_findNode_none hfc
        have hfound := findNodeL_some_mem hf
        have hjrest2 : nodeId brNode ∈ allIdsL rest := by
          apply mem_allIds_of_mem_nodesOfL hfound.1
          rw [allIds_elem, allIdsL_cons, allIdsL_nil, List.append_nil]
          exact List.mem_cons_of_mem pid (nodeId_mem_allIds_self brNode)
        have hjnc : nodeId brNode ∉ allIds c :=
          fun hc => hnd.2.2 hc hjrest2
        have hcj : nodeId c ≠ nodeId brNode :=
          fun hh => hjnc (hh ▸ nodeId_mem_allIds_self c)
        have hcpid : nodeId c ≠ pid := fun hh =>
          hpidnc (hh ▸ nodeId_mem_allIds_self c)
        rw [removeNodeL, if_neg hcj, removeNode_of_not_mem hjnc]
        rw [insertAfterL, if_neg hcpid, insertAfter_of_not_mem hpidnc]
        rw [removeNodeL, if_neg hcpid, removeNode_of_not_mem hpidnc]
        rw [unwrap_stepL rest hnd.2.1 hf]
        rw [replaceNodeL, if_neg hcpid, replaceNode_of_not_mem hpidnc]
end

end LegacyMessage

namespace LegacyMessage

/-! ## Parent uniqueness and anti-nesting -/

theorem allIdsL_disjoint_of_nodup {cs : List DNode}
    (hw : (allIdsL cs).Nodup) :
    ∀ {a b : DNode}, a ∈ cs → b ∈ cs → a ≠ b →
      ∀ y, y ∈ allIds a → y ∈ allIds b → False := by
  induction cs with
  | nil => intro a b ha; simp at ha
  | cons c rest ih =>
    intro a b ha hb hab y hya hyb
    rw [allIdsL_cons] at hw
    have hnd := List.nodup_append.mp hw
    rcases List.mem_cons.mp ha with ha1 | ha1 <;>
      rcases List.mem_cons.mp hb with hb1 | hb1
    · exact hab (ha1.trans hb1.symm)
    · exact hnd.2.2 (ha1 ▸ hya) (mem_allIdsL.mpr ⟨b, hb1, hyb⟩)
    · exact hnd.2.2 (hb1 ▸ hyb) (mem_allIdsL.mpr ⟨a, ha1, hya⟩)
    · exact ih hnd.2.1 ha1 hb1 hab y hya hyb

mutual
theorem parentNodeOf_unique :
    ∀ {t P c : DNode}, wfIds t → P ∈ nodesOf t → c ∈ childrenOf P →
      parentNodeOf t (nodeId c) = some P
  | .text i s, P, c => by
      intro hw hP hc
      simp only [nodesOf, List.mem_singleton] at hP
      rw [hP] at hc
      simp [childrenOf] at hc
  | .elem i tg f cs, P, c => by
      intro hw hP hc
      have hw2 : (allIdsL cs).Nodup ∧ i ∉ allIdsL cs := by
        have h0 := hw
        unfold wfIds at h0
        rw [allIds_elem] at h0
        exact ⟨(List.nodup_cons.mp h0).2, (List.nodup_cons.mp h0).1⟩
      simp only [nodesOf, List.mem_cons] at hP
      rcases hP with hP | hP
      · -- P is this very node
        subst hP
        simp only [childrenOf] at hc
        have hany : (cs.any fun d => nodeId d = nodeId c) = true := by
          simp only [List.any_eq_true, decide_eq_true_eq]
          exact ⟨c, hc, rfl⟩
        simp only [parentNodeOf, hany, if_true]
      · -- P is inside some child subtree
        have hcid : nodeId c ∈ allIdsL cs := by
          apply mem_allIds_of_mem_nodesOfL hP
          exact nodeId_mem_allIds (mem_nodesOf_of_mem_childrenOf hc)
        simp only [parentNodeOf]
        rw [if_neg]
        · exact parentNodeOfL_unique hw2.1 hP hc
        · -- the child id does not occur among the direct children tops:
          -- it appears strictly below P which lies inside a child subtree
          simp only [List.any_eq_true, decide_eq_true_eq, not_exists, not_and]
          intro d hd hdc
          rcases mem_nodesOfL.mp hP with ⟨e, he, hPe⟩
          have hcine : c ∈ nodesOf e :=
            mem_nodesOf_trans (mem_nodesOf_of_mem_childrenOf hc) hPe
          have hdt : d ∈ nodesOf (DNode.elem i tg f cs) := by
            simp only [nodesOf, List.mem_cons]
            exact Or.inr (mem_nodesOfL.mpr ⟨d, hd, self_mem_nodesOf d⟩)
          have hct : c ∈ nodesOf (DNode.elem i tg f cs) := by
            simp only [nodesOf, List.mem_cons]
            exact Or.inr (mem_nodesOfL.mpr ⟨e, he, hcine⟩)
          have hcd : c = d := nodeId_inj hw c hct d hdt hdc.symm
          by_cases hde : d = e
          · -- then c sits below P inside c itself: sizes forbid it
            have h1 : sizeT c < sizeT P := mem_childrenOf_sizeT_lt hc
            have h2 : sizeT P ≤ sizeT e := sizeT_le_of_mem_nodesOf hPe
            have h3 : sizeT e = sizeT c := by rw [← hde, ← hcd]
            omega
          · -- c appears as a top child and inside a distinct top child
            exact allIdsL_disjoint_of_nodup hw2.1 hd he hde (nodeId c)
              (hcd ▸ nodeId_mem_allIds_self c)
              (nodeId_mem_allIds hcine)
theorem parentNodeOfL_unique :
    ∀ {cs : List DNode} {P c : DNode}, (allIdsL cs).Nodup →
      P ∈ nodesOfL cs → c ∈ childrenOf P →
      parentNodeOfL cs (nodeId c) = some P
  | [], P, c => by
      intro hw hP hc
      simp [nodesOfL] at hP
  | d :: rest, P, c => by
      intro hw hP hc
      rw [allIdsL_cons] at hw
      have hnd := List.nodup_append.mp hw
      simp only [nodesOfL, List.mem_append] at hP
      rcases hP with hP | hP
      · have := parentNodeOf_unique hnd.1 hP hc
        simp only [parentNodeOfL, this]
      · have hcd : parentNodeOf d (nodeId c) = none := by
          apply parentNodeOf_eq_none_of_not_mem
          intro hcon
          apply hnd.2.2 hcon
          apply mem_allIds_of_mem_nodesOfL hP
          exact nodeId_mem_allIds (mem_nodesOf_of_mem_childrenOf hc)
        have := parentNodeOfL_unique hnd.2.1 hP hc
        simp only [parentNodeOfL, hcd, this]
end

/-- Mutual containment of subtrees forces equality of ids. -/
theorem subtree_antisymm {t : DNode} (hw : wfIds t) {a b : Nat}
    (ha : a ∈ subtreeIds t b) (hb : b ∈ subtreeIds t a) : a = b := by
  unfold subtreeIds at ha hb
  cases hfb : findNode t b with
  | none => rw [hfb] at ha; simp at ha
  | some nb =>
    cases hfa : findNode t a with
    | none => rw [hfa] at hb; simp at hb
    | some na =>
      rw [hfb] at ha
      rw [hfa] at hb
      rcases mem_allIds.mp ha with ⟨ma, hma, hida⟩
      rcases mem_allIds.mp hb with ⟨mb, hmb, hidb⟩
      have hnat := (findNode_some_mem hfa).1
      have hnbt := (findNode_some_mem hfb).1
      have hma_eq : ma = na := nodeId_inj hw ma
        (mem_nodesOf_trans hma hnbt) na hnat
        (by rw [hida, (findNode_some_mem hfa).2])
      have hmb_eq : mb = nb := nodeId_inj hw mb
        (mem_nodesOf_trans hmb hnat) nb hnbt
        (by rw [hidb, (findNode_some_mem hfb).2])
      rw [hma_eq] at hma hida
      rw [hmb_eq] at hmb hidb
      have h1 : sizeT na ≤ sizeT nb := sizeT_le_of_mem_nodesOf hma
      have h2 : sizeT nb ≤ sizeT na := sizeT_le_of_mem_nodesOf hmb
      have hab : na = nb := by
        have h3 : sizeT na = sizeT nb := by omega
        have hmem : nb ∈ nodesOf na := hmb
        cases na with
        | text i s =>
          simp [nodesOf] at hmem
          rw [hmem]
        | elem i tg f cs =>
          simp only [nodesOf, List.mem_cons] at hmem
          rcases hmem with h | h
          · rw [h]
          · exfalso
            have := sizeL_le_of_mem_nodesOfL h
            simp only [sizeT] at h3
            have hpos := sizeT_pos nb
            omega
      rw [← hida, ← hidb, hab]

/-- A parent never lies inside the subtree of one of its children. -/
theorem parent_not_in_child_subtree {t : DNode} (hw : wfIds t) {X : Nat}
    {A : DNode} (hA : parentNodeOf t X = some A) :
    nodeId A ∉ subtreeIds t X := by
  intro hcon
  rcases parentNodeOf_some_mem hA with ⟨hAt, c, hc, hcid⟩
  have hXsubA : X ∈ subtreeIds t (nodeId A) := by
    rw [subtreeIds_of_mem hw hAt]
    exact hcid ▸ nodeId_mem_allIds
      (mem_nodesOf_trans (self_mem_nodesOf c) (mem_nodesOf_of_mem_childrenOf hc))
  have heq : nodeId A = X := subtree_antisymm hw hcon hXsubA
  rw [← heq] at hA
  -- then A would be its own parent, which sizes forbid
  rcases parentNodeOf_some_mem hA with ⟨hAt2, c2, hc2, hc2id⟩
  have hc2t : c2 ∈ nodesOf t :=
    mem_nodesOf_trans (self_mem_nodesOf c2)
      (mem_nodesOf_trans (mem_nodesOf_of_mem_childrenOf hc2) hAt2)
  have hc2A : c2 = A := nodeId_inj hw c2 hc2t A hAt hc2id
  have h1 : sizeT c2 < sizeT A := mem_childrenOf_sizeT_lt hc2
  rw [hc2A] at h1
  omega

end LegacyMessage

namespace LegacyMessage

/-! ## Sizes under removal -/

mutual
theorem sizeT_removeNode_le :
    ∀ (t : DNode) (j : Nat), sizeT (removeNode t j) ≤ sizeT t
  | .text i s, j => le_rfl
  | .elem i tg f cs, j => by
      simp only [removeNode, sizeT]
      have := sizeL_removeNodeL_le cs j
      omega
theorem sizeL_removeNodeL_le :
    ∀ (cs : List DNode) (j : Nat), sizeL (removeNodeL cs j) ≤ sizeL cs
  | [], j => le_rfl
  | c :: rest, j => by
      simp only [removeNodeL]
      split
      · have h1 := sizeL_removeNodeL_le rest j
        have h2 := sizeT_pos c
        simp only [sizeL]
        omega
      · simp only [sizeL]
        have h1 := sizeT_removeNode_le c j
        have h2 := sizeL_removeNodeL_le rest j
        omega
end

mutual
theorem removeNode_eq_or_lt :
    ∀ (t : DNode) (j : Nat),
      removeNode t j = t ∨ sizeT (removeNode t j) < sizeT t
  | .text i s, j => Or.inl rfl
  | .elem i tg f cs, j => by
      rcases removeNodeL_eq_or_lt cs j with h | h
      · left
        simp only [removeNode, h]
      · right
        simp only [removeNode, sizeT]
        omega
theorem removeNodeL_eq_or_lt :
    ∀ (cs : List DNode) (j : Nat),
      removeNodeL cs j = cs ∨ sizeL (removeNodeL cs j) < sizeL cs
  | [], j => Or.inl rfl
  | c :: rest, j => by
      simp only [removeNodeL]
      split
      · right
        have h1 := sizeL_removeNodeL_le rest j
        have h2 := sizeT_pos c
        simp only [sizeL]
        omega
      · rcases removeNode_eq_or_lt c j with h1 | h1 <;>
          rcases removeNodeL_eq_or_lt rest j with h2 | h2
        · left
          rw [h1, h2]
        · right
          rw [h1]
          simp only [sizeL]
          omega
        · right
          rw [h2]
          simp only [sizeL]
          have := sizeT_removeNode_le c j
          omega
        · right
          simp only [sizeL]
          have h3 := sizeT_removeNode_le c j
          have h4 := sizeL_removeNodeL_le rest j
          omega
end

/-! ## Reverse images of removals and replacements -/

mutual
theorem mem_nodesOf_removeNode_rev :
    ∀ {t : DNode} {j : Nat} {m2 : DNode}, m2 ∈ nodesOf (removeNode t j) →
      ∃ m ∈ nodesOf t, m2 = removeNode m j
  | .text i s, j, m2 => by
      intro h
      simp only [removeNode, nodesOf, List.mem_singleton] at h
      exact ⟨.text i s, self_mem_nodesOf _, h⟩
  | .elem i tg f cs, j, m2 => by
      intro h
      simp only [removeNode, nodesOf, List.mem_cons] at h
      rcases h with h | h
      · exact ⟨.elem i tg f cs, self_mem_nodesOf _, by simp only [removeNode, h]⟩
      · rcases mem_nodesOfL_removeNodeL_rev h with ⟨m, hm, hmeq⟩
        exact ⟨m, by
          simp only [nodesOf, List.mem_cons]
          exact Or.inr hm, hmeq⟩
theorem mem_nodesOfL_removeNodeL_rev :
    ∀ {cs : List DNode} {j : Nat} {m2 : DNode},
      m2 ∈ nodesOfL (removeNodeL cs j) →
      ∃ m ∈ nodesOfL cs, m2 = removeNode m j
  | [], j, m2 => by
      intro h
      simp [removeNodeL, nodesOfL] at h
  | c :: rest, j, m2 => by
      intro h
      simp only [removeNodeL] at h
      split at h
      · rcases mem_nodesOfL_removeNodeL_rev h with ⟨m, hm, hmeq⟩
        exact ⟨m, by
          simp only [nodesOfL, List.mem_append]
          exact Or.inr hm, hmeq⟩
      · simp only [nodesOfL, List.mem_append] at h
        rcases h with h | h
        · rcases mem_nodesOf_removeNode_rev h with ⟨m, hm, hmeq⟩
          exact ⟨m, by
            simp only [nodesOfL, List.mem_append]
            exact Or.inl hm, hmeq⟩
        · rcases mem_nodesOfL_removeNodeL_rev h with ⟨m, hm, hmeq⟩
          exact ⟨m, by
            simp only [nodesOfL, List.mem_append]
            exact Or.inr hm, hmeq⟩
end

mutual
theorem mem_nodesOf_replaceNode_rev :
    ∀ {t : DNode} {j : Nat} {nw m2 : DNode},
      m2 ∈ nodesOf (replaceNode t j nw) →
      (∃ m ∈ nodesOf t, m2 = replaceNode m j nw) ∨ m2 ∈ nodesOf nw
  | .text i s, j, nw, m2 => by
      intro h
      simp only [replaceNode, nodesOf, List.mem_singleton] at h
      exact Or.inl ⟨.text i s, self_mem_nodesOf _, h⟩
  | .elem i tg f cs, j, nw, m2 => by
      intro h
      simp only [replaceNode, nodesOf, List.mem_cons] at h
      rcases h with h | h
      · exact Or.inl ⟨.elem i tg f cs, self_mem_nodesOf _,
          by simp only [replaceNode, h]⟩
      · rcases mem_nodesOfL_replaceNodeL_rev h with ⟨m, hm, hmeq⟩ | h2
        · exact Or.inl ⟨m, by
            simp only [nodesOf, List.mem_cons]
            exact Or.inr hm, hmeq⟩
        · exact Or.inr h2
theorem mem_nodesOfL_replaceNodeL_rev :
    ∀ {cs : List DNode} {j : Nat} {nw m2 : DNode},
      m2 ∈ nodesOfL (replaceNodeL cs j nw) →
      (∃ m ∈ nodesOfL cs, m2 = replaceNode m j nw) ∨ m2 ∈ nodesOf nw
  | [], j, nw, m2 => by
      intro h
      simp [replaceNodeL, nodesOfL] at h
  | c :: rest, j, nw, m2 => by
      intro h
      simp only [replaceNodeL] at h
      split at h
      · simp only [nodesOfL, List.mem_append] at h
        rcases h with h | h
        · exact Or.inr h
        · rcases mem_nodesOfL_replaceNodeL_rev h with ⟨m, hm, hmeq⟩ | h2
          · exact Or.inl ⟨m, by
              simp only [nodesOfL, List.mem_append]
              exact Or.inr hm, hmeq⟩
          · exact Or.inr h2
      · simp only [nodesOfL, List.mem_append] at h
        rcases h with h | h
        · rcases mem_nodesOf_replaceNode_rev h with ⟨m, hm, hmeq⟩ | h2
          · exact Or.inl ⟨m, by
              simp only [nodesOfL, List.mem_append]
              exact Or.inl hm, hmeq⟩
          · exact Or.inr h2
        · rcases mem_nodesOfL_replaceNodeL_rev h with ⟨m, hm, hmeq⟩ | h2
          · exact Or.inl ⟨m, by
              simp only [nodesOfL, List.mem_append]
              exact Or.inr hm, hmeq⟩
          · exact Or.inr h2
end

theorem isBrB_removeNode (t : DNode) (j : Nat) :
    isBrB (removeNode t j) = isBrB t := by
  cases t <;> rfl

theorem isBrB_replaceNode (t : DNode) (j : Nat) (nw : DNode) :
    isBrB (replaceNode t j nw) = isBrB t := by
  cases t <;> rfl

theorem childrenOf_replaceNode (t : DNode) (j : Nat) (nw : DNode) :
    childrenOf (replaceNode t j nw) = replaceNodeL (childrenOf t) j nw := by
  cases t <;> rfl

theorem brLeaves_removeNode {t : DNode} (hbl : brLeaves t) (j : Nat) :
    brLeaves (removeNode t j) := by
  intro m2 hm2 hbr
  rcases mem_nodesOf_removeNode_rev hm2 with ⟨m, hm, hmeq⟩
  rw [hmeq, isBrB_removeNode] at hbr
  have := hbl m hm hbr
  rw [hmeq, childrenOf_removeNode, this]
  rfl

theorem brLeaves_replaceNode {t : DNode} (hbl : brLeaves t) {j : Nat}
    {nw : DNode} (hnw : ∀ m ∈ nodesOf nw, isBrB m = true → childrenOf m = []) :
    brLeaves (replaceNode t j nw) := by
  intro m2 hm2 hbr
  rcases mem_nodesOf_replaceNode_rev hm2 with ⟨m, hm, hmeq⟩ | h2
  · rw [hmeq, isBrB_replaceNode] at hbr
    have h0 := hbl m hm hbr
    rw [hmeq, childrenOf_replaceNode, h0]
    rfl
  · exact hnw m2 h2 hbr

end LegacyMessage

namespace LegacyMessage

/-! ## Effect of the unwrap replacement on ids and sizes -/

mutual
theorem sizeT_eq_length_nodesOf :
    ∀ (t : DNode), sizeT t = (nodesOf t).length
  | .text i s => rfl
  | .elem i tg f cs => by
      simp only [sizeT, nodesOf, List.length_cons]
      rw [sizeL_eq_length_nodesOfL cs]
theorem sizeL_eq_length_nodesOfL :
    ∀ (cs : List DNode), sizeL cs = (nodesOfL cs).length
  | [] => rfl
  | c :: rest => by
      simp only [sizeL, nodesOfL, List.length_append]
      rw [sizeT_eq_length_nodesOf c, sizeL_eq_length_nodesOfL rest]
end

theorem length_allIds (t : DNode) : (allIds t).length = sizeT t := by
  unfold allIds
  rw [List.length_map, sizeT_eq_length_nodesOf]

mutual
theorem allIds_replace_unwrap :
    ∀ {t : DNode} {pid : Nat} {ptag : String} {pf : Bool} {brNode : DNode},
      wfIds t → pid ≠ nodeId t →
      findNode t pid = some (.elem pid ptag pf [brNode]) →
      allIds (replaceNode t pid brNode) = (allIds t).erase pid
  | .text i s, pid, ptag, pf, brNode => by
      intro hw hroot hf
      simp only [findNode] at hf
      split at hf
      · cases hf
      · cases hf
  | .elem i tg f cs, pid, ptag, pf, brNode => by
      intro hw hroot hf
      simp only [nodeId] at hroot
      simp only [findNode] at hf
      rw [if_neg (fun hh => hroot hh.symm)] at hf
      have hw2 : (allIdsL cs).Nodup := by
        have h0 := hw
        unfold wfIds at h0
        rw [allIds_elem] at h0
        exact (List.nodup_cons.mp h0).2
      simp only [replaceNode, allIds_elem]
      rw [allIdsL_replace_unwrap hw2 hf]
      have hne2 : ¬ (i == pid) = true := by
        simp only [beq_iff_eq]
        exact fun hh => hroot hh.symm
      rw [List.erase_cons, if_neg hne2]
theorem allIdsL_replace_unwrap :
    ∀ {cs : List DNode} {pid : Nat} {ptag : String} {pf : Bool}
      {brNode : DNode}, (allIdsL cs).Nodup →
      findNodeL cs pid = some (.elem pid ptag pf [brNode]) →
      allIdsL (replaceNodeL cs pid brNode) = (allIdsL cs).erase pid
  | [], pid, ptag, pf, brNode => by intro hw hf; cases hf
  | c :: rest, pid, ptag, pf, brNode => by
      intro hw hf
      rw [allIdsL_cons] at hw
      have hnd := List.nodup_append.mp hw
      simp only [findNodeL] at hf
      cases hfc : findNode c pid with
      | some n =>
        rw [hfc] at hf
        injection hf with hf
        subst hf
        have hpidc : pid ∈ allIds c := mem_allIds_of_findNode hfc
        have hpidrest : pid ∉ allIdsL rest := fun hc => hnd.2.2 hpidc hc
        by_cases hcpid : nodeId c = pid
        · have hceq : c = DNode.elem pid ptag pf [brNode] := by
            have hself := findNode_self c
            rw [hcpid, hfc] at hself
            injection hself with hself
            exact hself.symm
          rw [replaceNodeL, if_pos hcpid,
            replaceNodeL_of_not_mem hpidrest, allIdsL_cons, allIdsL_cons,
            hceq, allIds_elem, allIdsL_cons, allIdsL_nil, List.append_nil]
          rw [List.cons_append, List.erase_cons_head]
        · have hrec := allIds_replace_unwrap hnd.1
            (fun hh => hcpid hh.symm) hfc
          rw [replaceNodeL, if_neg hcpid,
            replaceNodeL_of_not_mem hpidrest, allIdsL_cons, allIdsL_cons,
            hrec, List.erase_append_left _ hpidc]
      | none =>
        rw [hfc] at hf
        have hpidnc : pid ∉ allIds c := not_mem_of_findNode_none hfc
        have hcpid : nodeId c ≠ pid := fun hh =>
          hpidnc (hh ▸ nodeId_mem_allIds_self c)
        rw [replaceNodeL, if_neg hcpid, replaceNode_of_not_mem hpidnc,
          allIdsL_cons, allIdsL_cons, allIdsL_replace_unwrap hnd.2.1 hf,
          List.erase_append_right _ hpidnc]
end

theorem wf_replace_unwrap {t : DNode} {pid : Nat} {ptag : String}
    {pf : Bool} {brNode : DNode} (hw : wfIds t) (hroot : pid ≠ nodeId t)
    (hf : findNode t pid = some (.elem pid ptag pf [brNode])) :
    wfIds (replaceNode t pid brNode) := by
  unfold wfIds
  rw [allIds_replace_unwrap hw hroot hf]
  exact (List.erase_sublist pid (allIds t)).nodup hw

theorem mem_allIds_replace_unwrap {t : DNode} {pid : Nat} {ptag : String}
    {pf : Bool} {brNode : DNode} (hw : wfIds t) (hroot : pid ≠ nodeId t)
    (hf : findNode t pid = some (.elem pid ptag pf [brNode])) {x : Nat} :
    x ∈ allIds (replaceNode t pid brNode) ↔ x ∈ allIds t ∧ x ≠ pid := by
  rw [allIds_replace_unwrap hw hroot hf]
  rw [List.Nodup.mem_erase_iff hw]
  exact and_comm

theorem sizeT_replace_unwrap {t : DNode} {pid : Nat} {ptag : String}
    {pf : Bool} {brNode : DNode} (hw : wfIds t) (hroot : pid ≠ nodeId t)
    (hf : findNode t pid = some (.elem pid ptag pf [brNode])) :
    sizeT (replaceNode t pid brNode) + 1 = sizeT t := by
  have h1 := length_allIds (replaceNode t pid brNode)
  rw [allIds_replace_unwrap hw hroot hf] at h1
  have hpid : pid ∈ allIds t := mem_allIds_of_findNode hf
  have h2 := List.length_erase_of_mem hpid
  have h3 := length_allIds t
  have hpos : 0 < (allIds t).length := List.length_pos.mpr
    (fun hh => by rw [hh] at hpid; cases hpid)
  omega

end LegacyMessage

namespace LegacyMessage

/-! ## Survival of untouched nodes -/

mutual
theorem leaf_mem_removeNode :
    ∀ {t : DNode} {j : Nat} {m : DNode}, wfIds t → m ∈ nodesOf t →
      childrenOf m = [] → nodeId m ∉ subtreeIds t j →
      m ∈ nodesOf (removeNode t j)
  | .text i s, j, m => by
      intro hw hm hlf hsub
      simp only [nodesOf, List.mem_singleton] at hm
      simp only [removeNode, nodesOf, List.mem_singleton]
      exact hm
  | .elem i tg f cs, j, m => by
      intro hw hm hlf hsub
      simp only [nodesOf, List.mem_cons] at hm
      rcases hm with hm | hm
      · rw [hm] at hlf
        simp only [childrenOf] at hlf
        subst hlf
        rw [hm]
        simp only [removeNode, removeNodeL, nodesOf, List.mem_cons]
        exact Or.inl trivial
      · by_cases hji : j = i
        · exfalso
          apply hsub
          rw [hji]
          have : subtreeIds (DNode.elem i tg f cs) i =
              allIds (DNode.elem i tg f cs) := by
            have h0 := subtreeIds_self_eq (DNode.elem i tg f cs)
            simp only [nodeId] at h0
            exact h0
          rw [this]
          exact nodeId_mem_allIds (by
            simp only [nodesOf, List.mem_cons]
            exact Or.inr hm)
        · have hw2 : (allIdsL cs).Nodup := by
            have h0 := hw
            unfold wfIds at h0
            rw [allIds_elem] at h0
            exact (List.nodup_cons.mp h0).2
          rw [subtreeIds_elem_ne hji] at hsub
          simp only [removeNode, nodesOf, List.mem_cons]
          exact Or.inr (leaf_mem_removeNodeL hw2 hm hlf hsub)
theorem leaf_mem_removeNodeL :
    ∀ {cs : List DNode} {j : Nat} {m : DNode}, (allIdsL cs).Nodup →
      m ∈ nodesOfL cs → childrenOf m = [] → nodeId m ∉ subtreeIdsL cs j →
      m ∈ nodesOfL (removeNodeL cs j)
  | [], j, m => by
      intro hw hm hlf hsub
      simp [nodesOfL] at hm
  | c :: rest, j, m => by
      intro hw hm hlf hsub
      rw [allIdsL_cons] at hw
      have hnd := List.nodup_append.mp hw
      simp only [nodesOfL, List.mem_append] at hm
      simp only [removeNodeL]
      by_cases hcj : nodeId c = j
      · rw [if_pos hcj]
        have hsubc : subtreeIdsL (c :: rest) j = allIds c := by
          rw [subtreeIdsL_cons_of_mem (hcj ▸ nodeId_mem_allIds_self c)]
          unfold subtreeIds
          rw [← hcj, findNode_self]
        rw [hsubc] at hsub
        rcases hm with hm | hm
        · exact absurd (nodeId_mem_allIds hm) hsub
        · have hjrest : j ∉ allIdsL rest := fun hc =>
            hnd.2.2 (hcj ▸ nodeId_mem_allIds_self c) hc
          rw [removeNodeL_of_not_mem hjrest]
          exact hm
      · rw [if_neg hcj]
        simp only [nodesOfL, List.mem_append]
        by_cases hjc : j ∈ allIds c
        · have hjrest : j ∉ allIdsL rest := fun hc => hnd.2.2 hjc hc
          rw [subtreeIdsL_cons_of_mem hjc] at hsub
          rcases hm with hm | hm
          · exact Or.inl (leaf_mem_removeNode hnd.1 hm hlf hsub)
          · rw [removeNodeL_of_not_mem hjrest]
            exact Or.inr hm
        · rw [subtreeIdsL_cons_of_not_mem hjc] at hsub
          rcases hm with hm | hm
          · rw [removeNode_of_not_mem hjc]
            exact Or.inl hm
          · exact Or.inr (leaf_mem_removeNodeL hnd.2.1 hm hlf hsub)
end

mutual
theorem image_mem_replaceNode :
    ∀ {t : DNode} {j : Nat} {nw m : DNode}, wfIds t → m ∈ nodesOf t →
      nodeId m ∉ subtreeIds t j →
      replaceNode m j nw ∈ nodesOf (replaceNode t j nw)
  | .text i s, j, nw, m => by
      intro hw hm hsub
      simp only [nodesOf, List.mem_singleton] at hm
      rw [hm]
      simp only [replaceNode, nodesOf, List.mem_singleton]
  | .elem i tg f cs, j, nw, m => by
      intro hw hm hsub
      simp only [nodesOf, List.mem_cons] at hm
      rcases hm with hm | hm
      · rw [hm]
        simp only [replaceNode, nodesOf, List.mem_cons]
        exact Or.inl trivial
      · by_cases hji : j = i
        · exfalso
          apply hsub
          rw [hji]
          have h0 : subtreeIds (DNode.elem i tg f cs) i =
              allIds (DNode.elem i tg f cs) := by
            have h1 := subtreeIds_self_eq (DNode.elem i tg f cs)
            simp only [nodeId] at h1
            exact h1
          rw [h0]
          exact nodeId_mem_allIds (by
            simp only [nodesOf, List.mem_cons]
            exact Or.inr hm)
        · have hw2 : (allIdsL cs).Nodup := by
            have h0 := hw
            unfold wfIds at h0
            rw [allIds_elem] at h0
            exact (List.nodup_cons.mp h0).2
          rw [subtreeIds_elem_ne hji] at hsub
          simp only [replaceNode, nodesOf, List.mem_cons]
          exact Or.inr (image_mem_replaceNodeL hw2 hm hsub)
theorem image_mem_replaceNodeL :
    ∀ {cs : List DNode} {j : Nat} {nw m : DNode}, (allIdsL cs).Nodup →
      m ∈ nodesOfL cs → nodeId m ∉ subtreeIdsL cs j →
      replaceNode m j nw ∈ nodesOfL (replaceNodeL cs j nw)
  | [], j, nw, m => by
      intro hw hm hsub
      simp [nodesOfL] at hm
  | c :: rest, j, nw, m => by
      intro hw hm hsub
      rw [allIdsL_cons] at hw
      have hnd := List.nodup_append.mp hw
      simp only [nodesOfL, List.mem_append] at hm
      simp only [replaceNodeL]
      by_cases hcj : nodeId c = j
      · rw [if_pos hcj]
        have hsubc : subtreeIdsL (c :: rest) j = allIds c := by
          rw [subtreeIdsL_cons_of_mem (hcj ▸ nodeId_mem_allIds_self c)]
          unfold subtreeIds
          rw [← hcj, findNode_self]
        rw [hsubc] at hsub
        rcases hm with hm | hm
        · exact absurd (nodeId_mem_allIds hm) hsub
        · have hjrest : j ∉ allIdsL rest := fun hc =>
            hnd.2.2 (hcj ▸ nodeId_mem_allIds_self c) hc
          have hjm : j ∉ allIds m := by
            intro hc
            apply hjrest
            rcases mem_nodesOfL.mp hm with ⟨e, he, hme⟩
            rcases mem_allIds.mp hc with ⟨q, hq, hqid⟩
            exact hqid ▸ mem_allIdsL.mpr ⟨e, he,
              nodeId_mem_allIds (mem_nodesOf_trans hq hme)⟩
          rw [replaceNode_of_not_mem hjm, replaceNodeL_of_not_mem hjrest]
          simp only [nodesOfL, List.mem_append]
          exact Or.inr hm
      · rw [if_neg hcj]
        simp only [nodesOfL, List.mem_append]
        by_cases hjc : j ∈ allIds c
        · have hjrest : j ∉ allIdsL rest := fun hc => hnd.2.2 hjc hc
          rw [subtreeIdsL_cons_of_mem hjc] at hsub
          rcases hm with hm | hm
          · exact Or.inl (image_mem_replaceNode hnd.1 hm hsub)
          · have hjm : j ∉ allIds m := by
              intro hc
              apply hjrest
              rcases mem_nodesOfL.mp hm with ⟨e, he, hme⟩
              rcases mem_allIds.mp hc with ⟨q, hq, hqid⟩
              exact hqid ▸ mem_allIdsL.mpr ⟨e, he,
                nodeId_mem_allIds (mem_nodesOf_trans hq hme)⟩
            rw [replaceNode_of_not_mem hjm, replaceNodeL_of_not_mem hjrest]
            exact Or.inr hm
        · rw [subtreeIdsL_cons_of_not_mem hjc] at hsub
          rcases hm with hm | hm
          · have hjm : j ∉ allIds m := by
              intro hc
              apply hjc
              rcases mem_allIds.mp hc with ⟨q, hq, hqid⟩
              exact hqid ▸ nodeId_mem_allIds (mem_nodesOf_trans hq hm)
            rw [replaceNode_of_not_mem hjc, replaceNode_of_not_mem hjm]
            exact Or.inl hm
          · exact Or.inr (image_mem_replaceNodeL hnd.2.1 hm hsub)
end

mutual
theorem mem_replaceNode_self :
    ∀ {t : DNode} {X : Nat} {nw : DNode}, X ∈ allIds t → X ≠ nodeId t →
      nw ∈ nodesOf (replaceNode t X nw)
  | .text i s, X, nw => by
      intro hX hroot
      rw [allIds_text] at hX
      simp only [nodeId] at hroot
      simp at hX
      exact absurd hX hroot
  | .elem i tg f cs, X, nw => by
      intro hX hroot
      simp only [nodeId] at hroot
      rw [allIds_elem] at hX
      rcases List.mem_cons.mp hX with hX | hX
      · exact absurd hX hroot
      · simp only [replaceNode, nodesOf, List.mem_cons]
        exact Or.inr (mem_replaceNodeL_self hX)
theorem mem_replaceNodeL_self :
    ∀ {cs : List DNode} {X : Nat} {nw : DNode}, X ∈ allIdsL cs →
      nw ∈ nodesOfL (replaceNodeL cs X nw)
  | [], X, nw => by
      intro hX
      rw [allIdsL_nil] at hX
      simp at hX
  | c :: rest, X, nw => by
      intro hX
      rw [allIdsL_cons] at hX
      simp only [replaceNodeL]
      by_cases hcX : nodeId c = X
      · rw [if_pos hcX]
        simp only [nodesOfL, List.mem_append]
        exact Or.inl (self_mem_nodesOf nw)
      · rw [if_neg hcX]
        simp only [nodesOfL, List.mem_append]
        rcases List.mem_append.mp hX with hX | hX
        · exact Or.inl (mem_replaceNode_self hX (fun hh => hcX hh.symm))
        · exact Or.inr (mem_replaceNodeL_self hX)
end

end LegacyMessage

namespace LegacyMessage

/-! ## Analysis of one firing unwrap step -/

theorem allIds_leaf {m : DNode} (h : childrenOf m = []) :
    allIds m = [nodeId m] := by
  cases m with
  | text i s => rw [allIds_text]; rfl
  | elem i tg f cs =>
      simp only [childrenOf] at h
      subst h
      rw [allIds_elem, allIdsL_nil]
      rfl

theorem nodeId_replaceNode (t : DNode) (j : Nat) (nw : DNode) :
    nodeId (replaceNode t j nw) = nodeId t := by
  cases t <;> rfl

theorem mem_nodesOf_of_id_mem {t n m : DNode} (hw : wfIds t)
    (hn : n ∈ nodesOf t) (hm : m ∈ nodesOf t)
    (hid : nodeId m ∈ allIds n) : m ∈ nodesOf n := by
  rcases mem_allIds.mp hid with ⟨q, hq, hqid⟩
  have hqt : q ∈ nodesOf t := mem_nodesOf_trans hq hn
  have hqm : q = m := nodeId_inj hw q hqt m hm hqid
  rw [← hqm]
  exact hq

theorem unwrap_guards_shape {t : DNode} {j : Nat} {p brNode : DNode}
    (hw : wfIds t)
    (hns : hasSiblings t j = false)
    (hp : parentNodeOf t j = some p)
    (hgp : (parentNodeOf t (nodeId p)).isSome)
    (hf : findNode t j = some brNode) :
    p = .elem (nodeId p) (tagOf p) (fillerOf p) [brNode] ∧
      findNode t (nodeId p) = some p ∧ nodeId p ≠ nodeId t := by
  rcases parentNodeOf_some_mem hp with ⟨hPmem, c, hc, hcid⟩
  have hlen : (childrenOf p).length < 2 := by
    unfold hasSiblings at hns
    rw [hp] at hns
    simpa using hns
  have hcs : childrenOf p = [c] := by
    rcases hcs0 : childrenOf p with _ | ⟨a, rest⟩
    · rw [hcs0] at hc; simp at hc
    · rcases rest with _ | ⟨b, rest2⟩
      · rw [hcs0] at hc
        simp only [List.mem_singleton] at hc
        rw [hc]
      · rw [hcs0] at hlen
        simp only [List.length_cons] at hlen
        omega
  have hcT : c ∈ nodesOf t :=
    mem_nodesOf_trans (mem_nodesOf_of_mem_childrenOf hc) hPmem
  have hfc : findNode t j = some c := by
    rw [← hcid]
    exact findNode_unique hw hcT
  have hcbr : c = brNode := by
    rw [hfc] at hf
    injection hf
  have hPshape : p = .elem (nodeId p) (tagOf p) (fillerOf p) [brNode] := by
    cases p with
    | text i s => simp only [childrenOf] at hcs; cases hcs
    | elem i tg f cs =>
        simp only [childrenOf] at hcs
        simp only [nodeId, tagOf, fillerOf]
        rw [hcs, hcbr]
  have hfp : findNode t (nodeId p) = some p := findNode_unique hw hPmem
  have hpr : nodeId p ≠ nodeId t := by
    intro hh
    rw [hh, parentNodeOf_self_none hw] at hgp
    simp at hgp
  exact ⟨hPshape, hfp, hpr⟩

theorem leaf_mem_replace_unwrap {t : DNode} {pid : Nat} {ptag : String}
    {pf : Bool} {brNode m : DNode} (hw : wfIds t) (hroot : pid ≠ nodeId t)
    (hf : findNode t pid = some (.elem pid ptag pf [brNode]))
    (hm : m ∈ nodesOf t) (hlf : childrenOf m = []) (hne : nodeId m ≠ pid) :
    m ∈ nodesOf (replaceNode t pid brNode) := by
  have hP : (DNode.elem pid ptag pf [brNode]) ∈ nodesOf t :=
    (findNode_some_mem hf).1
  by_cases hsub : nodeId m ∈ subtreeIds t pid
  · have hsub2 : subtreeIds t pid = pid :: allIds brNode := by
      unfold subtreeIds
      rw [hf]
      show allIds (DNode.elem pid ptag pf [brNode]) = pid :: allIds brNode
      rw [allIds_elem, allIdsL_cons, allIdsL_nil, List.append_nil]
    rw [hsub2] at hsub
    rcases List.mem_cons.mp hsub with h | h
    · exact absurd h hne
    · have hbrT : brNode ∈ nodesOf t :=
        mem_nodesOf_trans
          (mem_nodesOf_of_mem_childrenOf
            (by simp only [childrenOf, List.mem_singleton]))
          hP
      have hmbr : m ∈ nodesOf brNode := mem_nodesOf_of_id_mem hw hbrT hm h
      have hpidT : pid ∈ allIds t := nodeId_mem_allIds hP
      have hbrR : brNode ∈ nodesOf (replaceNode t pid brNode) :=
        mem_replaceNode_self hpidT hroot
      exact mem_nodesOf_trans hmbr hbrR
  · have hpm : pid ∉ allIds m := by
      rw [allIds_leaf hlf]
      simp only [List.mem_singleton]
      exact fun hh => hne hh.symm
    have h1 := @image_mem_replaceNode t pid brNode m hw hm hsub
    rw [replaceNode_of_not_mem hpm] at h1
    exact h1

end LegacyMessage

namespace LegacyMessage

/-! ## Case equations of the unwrap loop -/

theorem unwrapBrLoop_eq_stop {t : DNode} {j fuel : Nat}
    (h : hasSiblings t j = true) :
    unwrapBrLoop (fuel + 1) t j = t := by
  unfold unwrapBrLoop
  rw [if_pos h]

theorem unwrapBrLoop_eq_noparent {t : DNode} {j fuel : Nat}
    (hns : hasSiblings t j = false) (hp : parentNodeOf t j = none) :
    unwrapBrLoop (fuel + 1) t j = t := by
  unfold unwrapBrLoop
  rw [if_neg (by simp [hns]), hp]

theorem unwrapBrLoop_eq_notinline {t : DNode} {j fuel : Nat} {p : DNode}
    (hns : hasSiblings t j = false) (hp : parentNodeOf t j = some p)
    (hin : tagOf p ∉ inlineTags) :
    unwrapBrLoop (fuel + 1) t j = t := by
  unfold unwrapBrLoop
  rw [if_neg (by simp [hns]), hp]
  dsimp only
  rw [if_neg hin]

theorem unwrapBrLoop_eq_nogp {t : DNode} {j fuel : Nat} {p : DNode}
    (hns : hasSiblings t j = false) (hp : parentNodeOf t j = some p)
    (hin : tagOf p ∈ inlineTags) (hgp : parentNodeOf t (nodeId p) = none) :
    unwrapBrLoop (fuel + 1) t j = t := by
  unfold unwrapBrLoop
  rw [if_neg (by simp [hns]), hp]
  dsimp only
  rw [if_pos hin, hgp]

theorem unwrapBrLoop_eq_nofind {t : DNode} {j fuel : Nat} {p gp : DNode}
    (hns : hasSiblings t j = false) (hp : parentNodeOf t j = some p)
    (hin : tagOf p ∈ inlineTags) (hgp : parentNodeOf t (nodeId p) = some gp)
    (hf : findNode t j = none) :
    unwrapBrLoop (fuel + 1) t j = t := by
  unfold unwrapBrLoop
  rw [if_neg (by simp [hns]), hp]
  dsimp only
  rw [if_pos hin, hgp]
  dsimp only
  rw [hf]

theorem unwrapBrLoop_eq_fire {t : DNode} {j fuel : Nat} {p gp brNode : DNode}
    (hns : hasSiblings t j = false) (hp : parentNodeOf t j = some p)
    (hin : tagOf p ∈ inlineTags) (hgp : parentNodeOf t (nodeId p) = some gp)
    (hf : findNode t j = some brNode) :
    unwrapBrLoop (fuel + 1) t j =
      unwrapBrLoop fuel
        (removeNode (insertAfterNode (removeNode t j) (nodeId p) brNode)
          (nodeId p)) j := by
  conv_lhs => unfold unwrapBrLoop
  rw [if_neg (by simp [hns]), hp]
  dsimp only
  rw [if_pos hin, hgp]
  dsimp only
  rw [hf]

end LegacyMessage

namespace LegacyMessage

/-! ## Invariants of the unwrap loop -/

theorem unwrapBrLoop_props :
    ∀ (fuel : Nat) (t : DNode) (j : Nat), wfIds t → brLeaves t →
      wfIds (unwrapBrLoop fuel t j) ∧
      brLeaves (unwrapBrLoop fuel t j) ∧
      nodeId (unwrapBrLoop fuel t j) = nodeId t ∧
      (unwrapBrLoop fuel t j = t ∨
        sizeT (unwrapBrLoop fuel t j) < sizeT t) ∧
      (∀ x ∈ allIds (unwrapBrLoop fuel t j), x ∈ allIds t) ∧
      (∀ m ∈ nodesOf t, childrenOf m = [] → isBrB m = true →
        m ∈ nodesOf (unwrapBrLoop fuel t j)) := by
  intro fuel
  induction fuel with
  | zero =>
    intro t j hw hbl
    unfold unwrapBrLoop
    exact ⟨hw, hbl, rfl, Or.inl rfl, fun x h => h, fun m hm _ _ => hm⟩
  | succ f ih =>
    intro t j hw hbl
    cases hns : hasSiblings t j with
    | true =>
      rw [unwrapBrLoop_eq_stop hns]
      exact ⟨hw, hbl, rfl, Or.inl rfl, fun x h => h, fun m hm _ _ => hm⟩
    | false =>
      cases hp : parentNodeOf t j with
      | none =>
        rw [unwrapBrLoop_eq_noparent hns hp]
        exact ⟨hw, hbl, rfl, Or.inl rfl, fun x h => h, fun m hm _ _ => hm⟩
      | some p =>
        by_cases hin : tagOf p ∈ inlineTags
        case neg =>
          rw [unwrapBrLoop_eq_notinline hns hp hin]
          exact ⟨hw, hbl, rfl, Or.inl rfl, fun x h => h, fun m hm _ _ => hm⟩
        case pos =>
          cases hgp : parentNodeOf t (nodeId p) with
          | none =>
            rw [unwrapBrLoop_eq_nogp hns hp hin hgp]
            exact ⟨hw, hbl, rfl, Or.inl rfl, fun x h => h,
              fun m hm _ _ => hm⟩
          | some gp =>
            cases hf : findNode t j with
            | none =>
              rw [unwrapBrLoop_eq_nofind hns hp hin hgp hf]
              exact ⟨hw, hbl, rfl, Or.inl rfl, fun x h => h,
                fun m hm _ _ => hm⟩
            | some brNode =>
              rw [unwrapBrLoop_eq_fire hns hp hin hgp hf]
              have hgp2 : (parentNodeOf t (nodeId p)).isSome = true := by
                rw [hgp]
                rfl
              obtain ⟨hshape, hfp, hroot⟩ :=
                unwrap_guards_shape hw hns hp hgp2 hf
              have hfshape : findNode t (nodeId p) =
                  some (.elem (nodeId p) (tagOf p) (fillerOf p)
                    [brNode]) := by
                rw [hfp]
                exact congrArg some hshape
              have hjbr : nodeId brNode = j := (findNode_some_mem hf).2
              have hstep : removeNode
                  (insertAfterNode (removeNode t j) (nodeId p) brNode)
                  (nodeId p) = replaceNode t (nodeId p) brNode := by
                rw [← hjbr]
                exact unwrap_step_eq_replace hw hroot hfshape
              rw [hstep]
              have hw3 : wfIds (replaceNode t (nodeId p) brNode) :=
                wf_replace_unwrap hw hroot hfshape
              have hbrT : brNode ∈ nodesOf t := (findNode_some_mem hf).1
              have hbl3 : brLeaves (replaceNode t (nodeId p) brNode) :=
                brLeaves_replaceNode hbl
                  (fun m hm hbr => hbl m (mem_nodesOf_trans hm hbrT) hbr)
              obtain ⟨ihw, ihbl, ihid, ihsz, ihsub, ihbrm⟩ :=
                ih (replaceNode t (nodeId p) brNode) j hw3 hbl3
              have hsz3 : sizeT (replaceNode t (nodeId p) brNode) + 1 =
                  sizeT t := sizeT_replace_unwrap hw hroot hfshape
              refine ⟨ihw, ihbl, ?_, ?_, ?_, ?_⟩
              · rw [ihid, nodeId_replaceNode]
              · rcases ihsz with h | h
                · rw [h]
                  exact Or.inr (by omega)
                · exact Or.inr (by omega)
              · intro x hx
                have h2 := ihsub x hx
                exact ((mem_allIds_replace_unwrap hw hroot hfshape).mp h2).1
              · intro m hm hlf hbr
                have hne : nodeId m ≠ nodeId p := by
                  intro hh
                  have hPmem : p ∈ nodesOf t := (findNode_some_mem hfp).1
                  have hmp : m = p := nodeId_inj hw m hm p hPmem hh
                  rw [hmp, hshape] at hlf
                  simp only [childrenOf] at hlf
                  cases hlf
                have hm3 : m ∈ nodesOf (replaceNode t (nodeId p) brNode) :=
                  leaf_mem_replace_unwrap hw hroot hfshape hm hlf hne
                exact ihbrm m hm3 hlf hbr

end LegacyMessage

namespace LegacyMessage

/-! ## Invariants of removeTrailingBr -/

theorem removeTrailingBr_cases (t : DNode) (j : Nat) :
    removeTrailingBr t j = t ∨
    (∃ br, findNode t j = some br ∧ fillerOf br = false ∧
      removeTrailingBr t j = removeNode t j) := by
  unfold removeTrailingBr
  cases hf : findNode t j with
  | none => exact Or.inl rfl
  | some br =>
    dsimp only
    by_cases hfl : fillerOf br = true
    · rw [if_pos hfl]
      exact Or.inl rfl
    · rw [if_neg hfl]
      cases hc : closestPTd t j with
      | none => exact Or.inl rfl
      | some cid =>
        dsimp only
        rcases hend : isAtNodeEnd t j cid with _ | _
        · exact Or.inl rfl
        · rw [if_neg (by simp [hend])]
          cases hfc : findNode t cid with
          | none => exact Or.inl rfl
          | some c =>
            dsimp only
            by_cases hcond :
                (tagOf c == "TD" || decide (1 < (childrenOf c).length))
                  = true
            · rw [if_pos hcond]
              refine Or.inr ⟨br, rfl, ?_, rfl⟩
              revert hfl
              cases fillerOf br <;> simp
            · rw [if_neg hcond]
              exact Or.inl rfl

theorem removeNode_root_eq {t : DNode} (hw : wfIds t) :
    removeNode t (nodeId t) = t := by
  cases t with
  | text i s => rfl
  | elem i tg f cs =>
    simp only [removeNode, nodeId]
    have hi : i ∉ allIdsL cs := by
      unfold wfIds at hw
      rw [allIds_elem] at hw
      exact (List.nodup_cons.mp hw).1
    rw [removeNodeL_of_not_mem hi]

theorem removeTrailingBr_props {t : DNode} (j : Nat) (hw : wfIds t)
    (hbl : brLeaves t)
    (hj : ∀ n, findNode t j = some n → childrenOf n = []) :
    wfIds (removeTrailingBr t j) ∧
    brLeaves (removeTrailingBr t j) ∧
    nodeId (removeTrailingBr t j) = nodeId t ∧
    (removeTrailingBr t j = t ∨ sizeT (removeTrailingBr t j) < sizeT t) ∧
    (∀ x ∈ allIds (removeTrailingBr t j), x ∈ allIds t) ∧
    (∀ m ∈ nodesOf t, childrenOf m = [] → nodeId m ∈
      allIds (removeTrailingBr t j) → m ∈ nodesOf (removeTrailingBr t j)) ∧
    (∀ m ∈ nodesOf t, childrenOf m = [] → fillerOf m = true →
      m ∈ nodesOf (removeTrailingBr t j)) := by
  rcases removeTrailingBr_cases t j with heq | ⟨br, hf, hfl, heq⟩
  · rw [heq]
    exact ⟨hw, hbl, rfl, Or.inl rfl, fun x h => h,
      fun m hm _ _ => hm, fun m hm _ _ => hm⟩
  · rw [heq]
    have hjid : nodeId br = j := (findNode_some_mem hf).2
    have hbrm : br ∈ nodesOf t := (findNode_some_mem hf).1
    have hlfbr : childrenOf br = [] := hj br hf
    have hsubj : subtreeIds t j = [j] := by
      unfold subtreeIds
      rw [hf]
      show allIds br = [j]
      rw [allIds_leaf hlfbr, hjid]
    refine ⟨wfIds_removeNode hw j, brLeaves_removeNode hbl j,
      nodeId_removeNode t j, removeNode_eq_or_lt t j,
      fun x h => (allIds_removeNode_sublist t j).subset h, ?_, ?_⟩
    · intro m hm hlf hmem
      by_cases hroot : j = nodeId t
      · rw [hroot, removeNode_root_eq hw]
        exact hm
      · have h2 := (mem_allIds_removeNode hw hroot).mp hmem
        exact leaf_mem_removeNode hw hm hlf h2.2
    · intro m hm hlf hfil
      have hne : nodeId m ≠ j := by
        intro hh
        have hfm : findNode t j = some m := by
          rw [← hh]
          exact findNode_unique hw hm
        rw [hfm] at hf
        injection hf with hf2
        rw [← hf2] at hfl
        rw [hfil] at hfl
        cases hfl
      have hsub : nodeId m ∉ subtreeIds t j := by
        rw [hsubj]
        simp only [List.mem_singleton]
        exact hne
      exact leaf_mem_removeNode hw hm hlf hsub

end LegacyMessage

namespace LegacyMessage

/-! ## Invariants of normalizeBr -/

theorem normalize_step_inv (t0 : DNode) (hbl0 : brLeaves t0)
    (cur : DNode) (j : Nat)
    (hm0 : ∃ m0 ∈ nodesOf t0, isBrB m0 = true ∧ nodeId m0 = j)
    (hA : wfIds cur) (hB : brLeaves cur) (hC : nodeId cur = nodeId t0)
    (hD : cur = t0 ∨ sizeT cur < sizeT t0)
    (hE : ∀ x ∈ allIds cur, x ∈ allIds t0)
    (hF : ∀ m ∈ nodesOf t0, childrenOf m = [] → isBrB m = true →
      nodeId m ∈ allIds cur → m ∈ nodesOf cur)
    (hG : ∀ m ∈ nodesOf t0, childrenOf m = [] → isBrB m = true →
      fillerOf m = true → m ∈ nodesOf cur) :
    wfIds (removeTrailingBr (unwrapBr cur j) j) ∧
    brLeaves (removeTrailingBr (unwrapBr cur j) j) ∧
    nodeId (removeTrailingBr (unwrapBr cur j) j) = nodeId t0 ∧
    (removeTrailingBr (unwrapBr cur j) j = t0 ∨
      sizeT (removeTrailingBr (unwrapBr cur j) j) < sizeT t0) ∧
    (∀ x ∈ allIds (removeTrailingBr (unwrapBr cur j) j), x ∈ allIds t0) ∧
    (∀ m ∈ nodesOf t0, childrenOf m = [] → isBrB m = true →
      nodeId m ∈ allIds (removeTrailingBr (unwrapBr cur j) j) →
      m ∈ nodesOf (removeTrailingBr (unwrapBr cur j) j)) ∧
    (∀ m ∈ nodesOf t0, childrenOf m = [] → isBrB m = true →
      fillerOf m = true →
      m ∈ nodesOf (removeTrailingBr (unwrapBr cur j) j)) := by
  unfold unwrapBr
  obtain ⟨m0, hm0T, hm0br, hm0id⟩ := hm0
  have hm0lf : childrenOf m0 = [] := hbl0 m0 hm0T hm0br
  obtain ⟨uA, uB, uC, uD, uE, uF⟩ :=
    unwrapBrLoop_props (sizeT cur) cur j hA hB
  have hFu : ∀ m ∈ nodesOf t0, childrenOf m = [] → isBrB m = true →
      nodeId m ∈ allIds (unwrapBrLoop (sizeT cur) cur j) →
      m ∈ nodesOf (unwrapBrLoop (sizeT cur) cur j) := by
    intro m hm hlf hbr hid
    have h1 : nodeId m ∈ allIds cur := uE _ hid
    have h2 : m ∈ nodesOf cur := hF m hm hlf hbr h1
    exact uF m h2 hlf hbr
  have hj : ∀ n, findNode (unwrapBrLoop (sizeT cur) cur j) j = some n →
      childrenOf n = [] := by
    intro n hn
    have hjid : j ∈ allIds (unwrapBrLoop (sizeT cur) cur j) :=
      mem_allIds_of_findNode hn
    have hm0u : m0 ∈ nodesOf (unwrapBrLoop (sizeT cur) cur j) :=
      hFu m0 hm0T hm0lf hm0br (hm0id ▸ hjid)
    have hfm0 : findNode (unwrapBrLoop (sizeT cur) cur j) j = some m0 := by
      have h3 := findNode_unique uA hm0u
      rw [hm0id] at h3
      exact h3
    rw [hfm0] at hn
    injection hn with hn2
    rw [← hn2]
    exact hm0lf
  obtain ⟨rA, rB, rC, rD, rE, rF, rG⟩ :=
    removeTrailingBr_props j uA uB hj
  refine ⟨rA, rB, ?_, ?_, ?_, ?_, ?_⟩
  · rw [rC, uC, hC]
  · have hcurt0 : sizeT cur = sizeT t0 ∨ sizeT cur < sizeT t0 := by
      rcases hD with hd | hd
      · left
        rw [hd]
      · right
        exact hd
    rcases rD with rd | rd <;> rcases uD with ud | ud
    · rw [rd, ud]
      exact hD
    · rw [rd]
      right
      omega
    · right
      rw [ud] at rd ⊢
      omega
    · right
      omega
  · exact fun x hx => hE x (uE x (rE x hx))
  · intro m hm hlf hbr hid
    have hidu : nodeId m ∈ allIds (unwrapBr cur j) := rE _ hid
    have hmu := hFu m hm hlf hbr hidu
    exact rF m hmu hlf hid
  · intro m hm hlf hbr hfil
    have hmcur := hG m hm hlf hbr hfil
    have hmu := uF m hmcur hlf hbr
    exact rG m hmu hlf hfil

theorem normalizeBr_fold_inv (t0 : DNode) (hbl0 : brLeaves t0) :
    ∀ (js : List Nat) (cur : DNode),
      (∀ j ∈ js, ∃ m0 ∈ nodesOf t0, isBrB m0 = true ∧ nodeId m0 = j) →
      wfIds cur → brLeaves cur → nodeId cur = nodeId t0 →
      (cur = t0 ∨ sizeT cur < sizeT t0) →
      (∀ x ∈ allIds cur, x ∈ allIds t0) →
      (∀ m ∈ nodesOf t0, childrenOf m = [] → isBrB m = true →
        nodeId m ∈ allIds cur → m ∈ nodesOf cur) →
      (∀ m ∈ nodesOf t0, childrenOf m = [] → isBrB m = true →
        fillerOf m = true → m ∈ nodesOf cur) →
      wfIds (js.foldl
          (fun acc j => removeTrailingBr (unwrapBr acc j) j) cur) ∧
      brLeaves (js.foldl
          (fun acc j => removeTrailingBr (unwrapBr acc j) j) cur) ∧
      nodeId (js.foldl
          (fun acc j => removeTrailingBr (unwrapBr acc j) j) cur)
        = nodeId t0 ∧
      (js.foldl (fun acc j => removeTrailingBr (unwrapBr acc j) j) cur = t0
        ∨ sizeT (js.foldl
            (fun acc j => removeTrailingBr (unwrapBr acc j) j) cur)
          < sizeT t0) ∧
      (∀ x ∈ allIds (js.foldl
          (fun acc j => removeTrailingBr (unwrapBr acc j) j) cur),
        x ∈ allIds t0) ∧
      (∀ m ∈ nodesOf t0, childrenOf m = [] → isBrB m = true →
        nodeId m ∈ allIds (js.foldl
          (fun acc j => removeTrailingBr (unwrapBr acc j) j) cur) →
        m ∈ nodesOf (js.foldl
          (fun acc j => removeTrailingBr (unwrapBr acc j) j) cur)) ∧
      (∀ m ∈ nodesOf t0, childrenOf m = [] → isBrB m = true →
        fillerOf m = true →
        m ∈ nodesOf (js.foldl
          (fun acc j => removeTrailingBr (unwrapBr acc j) j) cur)) := by
  intro js
  induction js with
  | nil =>
    intro cur hjs hA hB hC hD hE hF hG
    exact ⟨hA, hB, hC, hD, hE, hF, hG⟩
  | cons j rest ih =>
    intro cur hjs hA hB hC hD hE hF hG
    simp only [List.foldl_cons]
    obtain ⟨sA, sB, sC, sD, sE, sF, sG⟩ :=
      normalize_step_inv t0 hbl0 cur j (hjs j (List.mem_cons_self j rest))
        hA hB hC hD hE hF hG
    exact ih (removeTrailingBr (unwrapBr cur j) j)
      (fun j2 h2 => hjs j2 (List.mem_cons_of_mem j h2))
      sA sB sC sD sE sF sG

theorem normalizeBr_props {t0 : DNode} (hw : wfIds t0)
    (hbl : brLeaves t0) :
    wfIds (normalizeBr t0) ∧
    brLeaves (normalizeBr t0) ∧
    nodeId (normalizeBr t0) = nodeId t0 ∧
    (normalizeBr t0 = t0 ∨ sizeT (normalizeBr t0) < sizeT t0) ∧
    (∀ x ∈ allIds (normalizeBr t0), x ∈ allIds t0) ∧
    (∀ m ∈ nodesOf t0, childrenOf m = [] → isBrB m = true →
      nodeId m ∈ allIds (normalizeBr t0) → m ∈ nodesOf (normalizeBr t0)) ∧
    (∀ m ∈ nodesOf t0, childrenOf m = [] → isBrB m = true →
      fillerOf m = true → m ∈ nodesOf (normalizeBr t0)) := by
  have hjs : ∀ j ∈ brIdsOf t0,
      ∃ m0 ∈ nodesOf t0, isBrB m0 = true ∧ nodeId m0 = j := by
    intro j hj
    unfold brIdsOf at hj
    rcases List.mem_map.mp hj with ⟨m0, hm0, hid⟩
    rcases List.mem_filter.mp hm0 with ⟨hm0d, hm0br⟩
    exact ⟨m0, (descendantNodes_sublist t0).subset hm0d, hm0br, hid⟩
  exact normalizeBr_fold_inv t0 hbl (brIdsOf t0) t0 hjs hw hbl rfl
    (Or.inl rfl) (fun x h => h) (fun m hm _ _ h2 => hm)
    (fun m hm _ _ _ => hm)

end LegacyMessage

namespace LegacyMessage

/-! ## A shrink relation tying a stage's output to its input -/

/-- The structural facts every normalization stage guarantees: the
output is well formed, keeps BR nodes childless, has the same root, is
the input or strictly smaller, introduces no new ids, and keeps every
childless BR node whose id survives. -/
def Shrinks (a b : DNode) : Prop :=
  wfIds b ∧ brLeaves b ∧ nodeId b = nodeId a ∧
  (b = a ∨ sizeT b < sizeT a) ∧
  (∀ x ∈ allIds b, x ∈ allIds a) ∧
  (∀ m ∈ nodesOf a, childrenOf m = [] → isBrB m = true →
    nodeId m ∈ allIds b → m ∈ nodesOf b)

theorem shrinks_refl {a : DNode} (hw : wfIds a) (hbl : brLeaves a) :
    Shrinks a a :=
  ⟨hw, hbl, rfl, Or.inl rfl, fun x h => h, fun m hm _ _ _ => hm⟩

theorem shrinks_trans {a b c : DNode} (h1 : Shrinks a b)
    (h2 : Shrinks b c) : Shrinks a c := by
  obtain ⟨w1, l1, r1, s1, e1, f1⟩ := h1
  obtain ⟨w2, l2, r2, s2, e2, f2⟩ := h2
  refine ⟨w2, l2, by rw [r2, r1], ?_, fun x hx => e1 x (e2 x hx), ?_⟩
  · rcases s2 with h | h <;> rcases s1 with h3 | h3
    · rw [h, h3]
      exact Or.inl rfl
    · rw [h]
      exact Or.inr h3
    · rw [h3] at h
      exact Or.inr h
    · exact Or.inr (by omega)
  · intro m hm hlf hbr hid
    have hidb : nodeId m ∈ allIds b := e2 _ hid
    have hmb : m ∈ nodesOf b := f1 m hm hlf hbr hidb
    exact f2 m hmb hlf hbr hid

theorem leaf_mem_removeNode_of_id {t m : DNode} {j : Nat} (hw : wfIds t)
    (hm : m ∈ nodesOf t) (hlf : childrenOf m = [])
    (hid : nodeId m ∈ allIds (removeNode t j)) :
    m ∈ nodesOf (removeNode t j) := by
  by_cases hroot : j = nodeId t
  · rw [hroot, removeNode_root_eq hw]
    exact hm
  · have h2 := (mem_allIds_removeNode hw hroot).mp hid
    exact leaf_mem_removeNode hw hm hlf h2.2

theorem shrinks_removeNode {t : DNode} (hw : wfIds t) (hbl : brLeaves t)
    (j : Nat) : Shrinks t (removeNode t j) :=
  ⟨wfIds_removeNode hw j, brLeaves_removeNode hbl j, nodeId_removeNode t j,
    removeNode_eq_or_lt t j,
    fun x hx => (allIds_removeNode_sublist t j).subset hx,
    fun m hm hlf _ hid => leaf_mem_removeNode_of_id hw hm hlf hid⟩

theorem shrinks_foldl_remove :
    ∀ (l : List Nat) (t : DNode), wfIds t → brLeaves t →
      Shrinks t (l.foldl removeNode t)
  | [], t => fun hw hbl => shrinks_refl hw hbl
  | j :: rest, t => fun hw hbl => by
      simp only [List.foldl_cons]
      have h1 : Shrinks t (removeNode t j) := shrinks_removeNode hw hbl j
      exact shrinks_trans h1
        (shrinks_foldl_remove rest (removeNode t j)
          (wfIds_removeNode hw j) (brLeaves_removeNode hbl j))

theorem reduceLoop_shrinks :
    ∀ (fuel : Nat) (t : DNode) (ps : List Nat) (i : Nat),
      wfIds t → brLeaves t → Shrinks t (reduceLoop fuel t ps i) := by
  intro fuel
  induction fuel with
  | zero =>
    intro t ps i hw hbl
    unfold reduceLoop
    exact shrinks_refl hw hbl
  | succ f ih =>
    intro t ps i hw hbl
    unfold reduceLoop
    by_cases hi : i < ps.length
    case neg =>
      rw [if_neg hi]
      exact shrinks_refl hw hbl
    case pos =>
      rw [if_pos hi]
      dsimp only
      by_cases hoff : offsetLoop t (ps.getD i 0) ps i ps.length 0 = 0
      · rw [if_pos hoff]
        have h1 : Shrinks t (removeNode t (ps.getD i 0)) :=
          shrinks_removeNode hw hbl (ps.getD i 0)
        exact shrinks_trans h1
          (ih (removeNode t (ps.getD i 0)) ps (i + 1)
            (wfIds_removeNode hw (ps.getD i 0))
            (brLeaves_removeNode hbl (ps.getD i 0)))
      · rw [if_neg hoff]
        have h1 : Shrinks t
            (((ps.drop i).take
              (if offsetLoop t (ps.getD i 0) ps i ps.length 0 % 2 = 1 then
                (offsetLoop t (ps.getD i 0) ps i ps.length 0 + 1) / 2
              else
                offsetLoop t (ps.getD i 0) ps i ps.length 0 / 2 + 1)).foldl
              removeNode t) :=
          shrinks_foldl_remove _ t hw hbl
        exact shrinks_trans h1 (ih _ ps _ h1.1 h1.2.1)

theorem reduce_shrinks {t : DNode} (hw : wfIds t) (hbl : brLeaves t)
    (ps : List Nat) : Shrinks t (reduceSpacerParagraphs t ps) := by
  unfold reduceSpacerParagraphs
  by_cases hlen : ps.length = 0
  · rw [if_pos hlen]
    exact shrinks_refl hw hbl
  · rw [if_neg hlen]
    exact reduceLoop_shrinks ps.length t ps 0 hw hbl

theorem normalizeBr_shrinks {t : DNode} (hw : wfIds t)
    (hbl : brLeaves t) : Shrinks t (normalizeBr t) := by
  obtain ⟨a, b, c, d, e, f, g⟩ := normalizeBr_props hw hbl
  exact ⟨a, b, c, d, e, f⟩

theorem normalizeDiv_shrinks {t : DNode} (hw : wfIds t)
    (hbl : brLeaves t) : Shrinks t (normalizeDiv t) := by
  unfold normalizeDiv
  have h1 : Shrinks t (normalizeBr t) := normalizeBr_shrinks hw hbl
  exact shrinks_trans h1
    (reduce_shrinks h1.1 h1.2.1 (getPossibleSpacerParagraphs (normalizeBr t)))

/-- Filler BR markers survive the whole tree pipeline as nodes. -/
theorem filler_survives_normalizeDiv {t m : DNode} (hw : wfIds t)
    (hbl : brLeaves t) (hm : m ∈ nodesOf t) (hbr : isBrB m = true)
    (hfil : fillerOf m = true) : m ∈ nodesOf (normalizeDiv t) := by
  have hlf : childrenOf m = [] := hbl m hm hbr
  obtain ⟨a1, b1, c1, d1, e1, f1, g1⟩ := normalizeBr_props hw hbl
  have hm1 : m ∈ nodesOf (normalizeBr t) := g1 m hm hlf hbr hfil
  have hfb1 : fillerBrIn (normalizeBr t) (nodeId m) :=
    ⟨m, hm1, rfl, hbr, hfil⟩
  have hid2 : nodeId m ∈ allIds
      (reduceSpacerParagraphs (normalizeBr t)
        (getPossibleSpacerParagraphs (normalizeBr t))) := by
    rw [reduce_scan_mem_char a1 b1]
    refine ⟨nodeId_mem_allIds hm1, ?_⟩
    intro k hk hks
    exact scan_no_filler_inside a1 b1 (getD_mem_of_lt hk) hfb1
  have h2 : Shrinks (normalizeBr t)
      (reduceSpacerParagraphs (normalizeBr t)
        (getPossibleSpacerParagraphs (normalizeBr t))) :=
    reduce_shrinks a1 b1 (getPossibleSpacerParagraphs (normalizeBr t))
  have hres := h2.2.2.2.2.2 m hm1 hlf hbr hid2
  unfold normalizeDiv
  exact hres

end LegacyMessage

namespace LegacyMessage

/-! ## findNode after an interior replacement -/

mutual
theorem findNode_replaceNode_of_inside :
    ∀ {t : DNode} {X j : Nat} {nw n : DNode}, wfIds t →
      findNode t X = some n → j ∈ allIds n → j ≠ X →
      findNode (replaceNode t j nw) X = some (replaceNode n j nw)
  | .text i s, X, j, nw, n => by
      intro hw hf hj hne
      simp only [findNode] at hf
      split at hf
      · injection hf with hf2
        rw [← hf2, allIds_text] at hj
        simp only [List.mem_singleton] at hj
        rename_i hiX
        exact absurd (hj.trans hiX) hne
      · cases hf
  | .elem i tg f cs, X, j, nw, n => by
      intro hw hf hj hne
      simp only [findNode] at hf
      by_cases hiX : i = X
      · rw [if_pos hiX] at hf
        injection hf with hf2
        simp only [replaceNode, findNode]
        have hji : j ≠ i := fun hh => hne (hh.symm ▸ hiX.symm ▸ rfl)
        rw [if_pos hiX]
        rw [← hf2]
        simp only [replaceNode]
      · rw [if_neg hiX] at hf
        have hnL : n ∈ nodesOfL cs := (findNodeL_some_mem hf).1
        have hjL : j ∈ allIdsL cs := mem_allIds_of_mem_nodesOfL hnL hj
        have hji : j ≠ i := by
          unfold wfIds at hw
          rw [allIds_elem] at hw
          intro hh
          exact (List.nodup_cons.mp hw).1 (hh ▸ hjL)
        have hw2 : (allIdsL cs).Nodup := by
          have h0 := hw
          unfold wfIds at h0
          rw [allIds_elem] at h0
          exact (List.nodup_cons.mp h0).2
        simp only [replaceNode, findNode]
        rw [if_neg hiX]
        exact findNodeL_replaceNodeL_of_inside hw2 hf hj hne
theorem findNodeL_replaceNodeL_of_inside :
    ∀ {cs : List DNode} {X j : Nat} {nw n : DNode}, (allIdsL cs).Nodup →
      findNodeL cs X = some n → j ∈ allIds n → j ≠ X →
      findNodeL (replaceNodeL cs j nw) X = some (replaceNode n j nw)
  | [], X, j, nw, n => by
      intro hw hf hj hne
      cases hf
  | c :: rest, X, j, nw, n => by
      intro hw hf hj hne
      rw [allIdsL_cons] at hw
      have hnd := List.nodup_append.mp hw
      simp only [findNodeL] at hf
      cases hfc : findNode c X with
      | some n2 =>
        rw [hfc] at hf
        injection hf with hf2
        rw [hf2] at hfc
        have hnC : n ∈ nodesOf c := (findNode_some_mem hfc).1
        have hjC : j ∈ allIds c := by
          rcases mem_allIds.mp hj with ⟨q, hq, hqid⟩
          exact hqid ▸ nodeId_mem_allIds (mem_nodesOf_trans hq hnC)
        have hcj : nodeId c ≠ j := by
          by_cases hcX : nodeId c = X
          · intro hh
            exact hne (hh.symm.trans hcX)
          · have hnne : nodeId n ≠ nodeId c := by
              intro hh
              have hXn : nodeId n = X := (findNode_some_mem hfc).2
              exact hcX (hh ▸ hXn)
            exact fun hh => (inner_id_ne_top hnd.1 hnC hnne hj) hh.symm
        simp only [replaceNodeL]
        rw [if_neg (fun hh => hcj hh)]
        simp only [findNodeL]
        rw [findNode_replaceNode_of_inside hnd.1 hfc hj hne]
      | none =>
        rw [hfc] at hf
        have hnR : n ∈ nodesOfL rest := (findNodeL_some_mem hf).1
        have hjR : j ∈ allIdsL rest := mem_allIds_of_mem_nodesOfL hnR hj
        have hjc : j ∉ allIds c := fun hc => hnd.2.2 hc hjR
        have hcj : nodeId c ≠ j := fun hh =>
          hjc (hh ▸ nodeId_mem_allIds_self c)
        simp only [replaceNodeL]
        rw [if_neg (fun hh => hcj hh)]
        simp only [findNodeL]
        rw [replaceNode_of_not_mem hjc, hfc]
        exact findNodeL_replaceNodeL_of_inside hnd.2.1 hf hj hne
end

end LegacyMessage

namespace LegacyMessage

/-! ## Chains of sole-child inline wrappers -/

/-- A nest of sole-child wrappers around a node, listed from the
innermost wrapper outwards: each triple holds one wrapper's id, tag and
filler flag. -/
def wrapChainR : DNode → List (Nat × String × Bool) → DNode
  | base, [] => base
  | base, w :: rest => wrapChainR (.elem w.1 w.2.1 w.2.2 [base]) rest

theorem wrapChainR_base_mem :
    ∀ (ws : List (Nat × String × Bool)) (base : DNode),
      base ∈ nodesOf (wrapChainR base ws)
  | [], base => self_mem_nodesOf base
  | w :: rest, base => by
      show base ∈ nodesOf (wrapChainR (.elem w.1 w.2.1 w.2.2 [base]) rest)
      refine mem_nodesOf_trans ?_ (wrapChainR_base_mem rest _)
      exact mem_nodesOf_of_mem_childrenOf
        (by simp only [childrenOf, List.mem_singleton])

theorem nodeId_wrapChainR_indep :
    ∀ (ws : List (Nat × String × Bool)), ws ≠ [] →
      ∀ (b1 b2 : DNode),
        nodeId (wrapChainR b1 ws) = nodeId (wrapChainR b2 ws)
  | [], h => absurd rfl h
  | w :: rest, _ => by
      intro b1 b2
      cases hrest : rest with
      | nil =>
        show nodeId (wrapChainR (.elem w.1 w.2.1 w.2.2 [b1]) [])
          = nodeId (wrapChainR (.elem w.1 w.2.1 w.2.2 [b2]) [])
        rfl
      | cons r rest2 =>
        show nodeId (wrapChainR (.elem w.1 w.2.1 w.2.2 [b1]) (r :: rest2))
          = nodeId (wrapChainR (.elem w.1 w.2.1 w.2.2 [b2]) (r :: rest2))
        exact nodeId_wrapChainR_indep (r :: rest2) (by simp) _ _

theorem sizeT_wrapChainR :
    ∀ (ws : List (Nat × String × Bool)) (base : DNode),
      sizeT (wrapChainR base ws) = ws.length + sizeT base
  | [], base => by
      show sizeT base = 0 + sizeT base
      omega
  | w :: rest, base => by
      show sizeT (wrapChainR (.elem w.1 w.2.1 w.2.2 [base]) rest)
        = (w :: rest).length + sizeT base
      rw [sizeT_wrapChainR rest _]
      show rest.length + (sizeT base + 0 + 1) = rest.length + 1 + sizeT base
      omega

theorem wrapChainR_replace :
    ∀ (rest : List (Nat × String × Bool)) (base nw : DNode) (j : Nat),
      (∀ v ∈ rest, v.1 ≠ j) → nodeId base ≠ j →
      replaceNode (wrapChainR base rest) j nw =
        wrapChainR (replaceNode base j nw) rest
  | [], base, nw, j => fun _ _ => rfl
  | r :: rest2, base, nw, j => by
      intro hws htop
      show replaceNode
          (wrapChainR (.elem r.1 r.2.1 r.2.2 [base]) rest2) j nw
        = wrapChainR (replaceNode base j nw) (r :: rest2)
      rw [wrapChainR_replace rest2 (.elem r.1 r.2.1 r.2.2 [base]) nw j
        (fun v hv => hws v (List.mem_cons_of_mem r hv))
        (show nodeId (DNode.elem r.1 r.2.1 r.2.2 [base]) ≠ j from
          hws r (List.mem_cons_self r rest2))]
      have hbase : replaceNode (.elem r.1 r.2.1 r.2.2 [base]) j nw
          = .elem r.1 r.2.1 r.2.2 [replaceNode base j nw] := by
        simp only [replaceNode, replaceNodeL]
        rw [if_neg htop]
      rw [hbase]
      rfl

/-- The whole-subtree ids of a tree restrict to a well-formed subtree. -/
theorem wf_sub {t n : DNode} (hw : wfIds t) (hn : n ∈ nodesOf t) :
    wfIds n := by
  have h1 : List.Sublist (nodesOf n) (nodesOf t) :=
    (nodesOf_infix_of_mem t n hn).sublist
  exact (h1.map nodeId).nodup hw

end LegacyMessage

namespace LegacyMessage

/-! ## A replacement at an ancestor absorbs replacements inside it -/

mutual
theorem replaceNode_absorb :
    ∀ {t : DNode} {j X : Nat} {nX nw0 nw : DNode}, wfIds t →
      X ≠ nodeId t → findNode t X = some nX → j ∈ allIds nX → j ≠ X →
      replaceNode (replaceNode t j nw0) X nw = replaceNode t X nw
  | .text i s, j, X, nX, nw0, nw => by
      intro hw hXr hf hj hne
      simp only [findNode] at hf
      split at hf
      · rename_i hiX
        exact absurd hiX.symm hXr
      · cases hf
  | .elem i tg f cs, j, X, nX, nw0, nw => by
      intro hw hXr hf hj hne
      simp only [nodeId] at hXr
      simp only [findNode] at hf
      rw [if_neg (fun hh => hXr hh.symm)] at hf
      have hw2 : (allIdsL cs).Nodup := by
        have h0 := hw
        unfold wfIds at h0
        rw [allIds_elem] at h0
        exact (List.nodup_cons.mp h0).2
      simp only [replaceNode]
      rw [replaceNodeL_absorb hw2 hf hj hne]
theorem replaceNodeL_absorb :
    ∀ {cs : List DNode} {j X : Nat} {nX nw0 nw : DNode},
      (allIdsL cs).Nodup →
      findNodeL cs X = some nX → j ∈ allIds nX → j ≠ X →
      replaceNodeL (replaceNodeL cs j nw0) X nw = replaceNodeL cs X nw
  | [], j, X, nX, nw0, nw => by
      intro hw hf hj hne
      cases hf
  | c :: rest, j, X, nX, nw0, nw => by
      intro hw hf hj hne
      rw [allIdsL_cons] at hw
      have hnd := List.nodup_append.mp hw
      simp only [findNodeL] at hf
      cases hfc : findNode c X with
      | some n2 =>
        rw [hfc] at hf
        injection hf with hf2
        rw [hf2] at hfc
        have hnC : nX ∈ nodesOf c := (findNode_some_mem hfc).1
        have hXid : nodeId nX = X := (findNode_some_mem hfc).2
        have hjC : j ∈ allIds c := by
          rcases mem_allIds.mp hj with ⟨q, hq, hqid⟩
          exact hqid ▸ nodeId_mem_allIds (mem_nodesOf_trans hq hnC)
        have hjrest : j ∉ allIdsL rest := fun hc => hnd.2.2 hjC hc
        have hcj : nodeId c ≠ j := by
          by_cases hcX : nodeId c = X
          · exact fun hh => hne (hh.symm.trans hcX)
          · have hnne : nodeId nX ≠ nodeId c := fun hh => hcX (hh ▸ hXid)
            exact fun hh => (inner_id_ne_top hnd.1 hnC hnne hj) hh.symm
        simp only [replaceNodeL]
        rw [if_neg (fun hh => hcj hh), replaceNodeL_of_not_mem hjrest]
        simp only [replaceNodeL, nodeId_replaceNode]
        by_cases hcX : nodeId c = X
        · rw [if_pos hcX, if_pos hcX]
        · rw [if_neg hcX, if_neg hcX]
          rw [replaceNode_absorb hnd.1 (fun hh => hcX hh.symm) hfc hj hne]
      | none =>
        rw [hfc] at hf
        have hnR : nX ∈ nodesOfL rest := (findNodeL_some_mem hf).1
        have hjR : j ∈ allIdsL rest := by
          rcases mem_allIds.mp hj with ⟨q, hq, hqid⟩
          exact hqid ▸ mem_allIds_of_mem_nodesOfL hnR
            (nodeId_mem_allIds hq)
        have hjc : j ∉ allIds c := fun hc => hnd.2.2 hc hjR
        have hcj : nodeId c ≠ j := fun hh =>
          hjc (hh ▸ nodeId_mem_allIds_self c)
        have hXc : X ∉ allIds c := not_mem_of_findNode_none hfc
        have hcX : nodeId c ≠ X := fun hh =>
          hXc (hh ▸ nodeId_mem_allIds_self c)
        simp only [replaceNodeL]
        rw [if_neg (fun hh => hcj hh), replaceNode_of_not_mem hjc]
        simp only [replaceNodeL]
        rw [if_neg (fun hh => hcX hh), if_neg (fun hh => hcX hh)]
        rw [replaceNodeL_absorb hnd.2.1 hf hj hne]
end

end LegacyMessage

namespace LegacyMessage

/-! ## Small facts feeding the chain theorem -/

theorem tagOf_replaceNode (t : DNode) (j : Nat) (nw : DNode) :
    tagOf (replaceNode t j nw) = tagOf t := by
  cases t <;> rfl

theorem allIds_mono {t n : DNode} (hn : n ∈ nodesOf t) {y : Nat}
    (hy : y ∈ allIds n) : y ∈ allIds t := by
  rcases mem_allIds.mp hy with ⟨q, hq, hqid⟩
  exact hqid ▸ nodeId_mem_allIds (mem_nodesOf_trans hq hn)

theorem mem_replaceNodeL_hit :
    ∀ {cs : List DNode} {c : DNode} {j : Nat} {nw : DNode}, c ∈ cs →
      nodeId c = j → nw ∈ replaceNodeL cs j nw
  | [], c, j, nw => by intro h _; cases h
  | d :: rest, c, j, nw => by
      intro hc hid
      simp only [replaceNodeL]
      rcases List.mem_cons.mp hc with hc | hc
      · rw [← hc, if_pos hid]
        exact List.mem_cons_self _ _
      · by_cases hd : nodeId d = j
        · rw [if_pos hd]
          exact List.mem_cons_self _ _
        · rw [if_neg hd]
          exact List.mem_cons_of_mem _ (mem_replaceNodeL_hit hc hid)

theorem mem_replaceNodeL_image :
    ∀ {cs : List DNode} {c : DNode} {j : Nat} {nw : DNode}, c ∈ cs →
      nodeId c ≠ j → replaceNode c j nw ∈ replaceNodeL cs j nw
  | [], c, j, nw => by intro h _; cases h
  | d :: rest, c, j, nw => by
      intro hc hid
      simp only [replaceNodeL]
      rcases List.mem_cons.mp hc with hc | hc
      · rw [← hc, if_neg hid]
        exact List.mem_cons_self _ _
      · by_cases hd : nodeId d = j
        · rw [if_pos hd]
          exact List.mem_cons_of_mem _ (mem_replaceNodeL_image hc hid)
        · rw [if_neg hd]
          exact List.mem_cons_of_mem _ (mem_replaceNodeL_image hc hid)

theorem wrapChainR_outer_not_in_base :
    ∀ (ws : List (Nat × String × Bool)) (base : DNode),
      wfIds (wrapChainR base ws) → ∀ v ∈ ws, v.1 ∉ allIds base
  | [], base => by intro _ v hv; cases hv
  | w :: rest, base => by
      intro hw v hv
      have hchain : wrapChainR base (w :: rest)
          = wrapChainR (.elem w.1 w.2.1 w.2.2 [base]) rest := rfl
      rcases List.mem_cons.mp hv with hv | hv
      · have hWmem : (DNode.elem w.1 w.2.1 w.2.2 [base])
            ∈ nodesOf (wrapChainR base (w :: rest)) := by
          rw [hchain]
          exact wrapChainR_base_mem rest _
        have hwfW : wfIds (DNode.elem w.1 w.2.1 w.2.2 [base]) :=
          wf_sub hw hWmem
        unfold wfIds at hwfW
        rw [allIds_elem] at hwfW
        have h1 : w.1 ∉ allIdsL [base] := (List.nodup_cons.mp hwfW).1
        rw [hv]
        intro hcon
        apply h1
        have : allIdsL [base] = allIds base := by
          unfold allIdsL allIds
          simp [nodesOfL]
        rw [this]
        exact hcon
      · have hrec := wrapChainR_outer_not_in_base rest
          (.elem w.1 w.2.1 w.2.2 [base]) (by rw [← hchain]; exact hw) v hv
        intro hcon
        apply hrec
        rw [allIds_elem]
        refine List.mem_cons_of_mem _ ?_
        have : allIdsL [base] = allIds base := by
          unfold allIdsL allIds
          simp [nodesOfL]
        rw [this]
        exact hcon

theorem unwrapBrLoop_stopped {t : DNode} {j : Nat} {P : DNode}
    (hw : wfIds t) (hpar : parentNodeOf t j = some P)
    (hstop : tagOf P ∉ inlineTags ∨ nodeId P = nodeId t) :
    ∀ fuel, unwrapBrLoop fuel t j = t := by
  intro fuel
  cases fuel with
  | zero => rfl
  | succ f =>
    cases hns : hasSiblings t j with
    | true => exact unwrapBrLoop_eq_stop hns
    | false =>
      rcases hstop with hni | hroot
      · exact unwrapBrLoop_eq_notinline hns hpar hni
      · by_cases hin : tagOf P ∈ inlineTags
        · refine unwrapBrLoop_eq_nogp hns hpar hin ?_
          rw [hroot]
          exact parentNodeOf_self_none hw
        · exact unwrapBrLoop_eq_notinline hns hpar hin

end LegacyMessage

namespace LegacyMessage

/-! ## The unwrap loop on a full wrapper chain -/

theorem unwrapBrLoop_chain :
    ∀ (ws : List (Nat × String × Bool)) (t br P : DNode) (fuel : Nat),
      wfIds t → ws ≠ [] → ws.length ≤ fuel →
      wrapChainR br ws ∈ nodesOf t →
      (∀ v ∈ ws, v.2.1 ∈ inlineTags) →
      nodeId (wrapChainR br ws) ≠ nodeId t →
      parentNodeOf t (nodeId (wrapChainR br ws)) = some P →
      (tagOf P ∉ inlineTags ∨ nodeId P = nodeId t) →
      unwrapBrLoop fuel t (nodeId br) =
        replaceNode t (nodeId (wrapChainR br ws)) br
  | [], t, br, P, fuel => by
      intro _ hne
      exact absurd rfl hne
  | [w], t, br, P, fuel => by
      intro hw _ hfuel hchainT hin hXroot hP hstop
      cases fuel with
      | zero => simp at hfuel
      | succ f =>
        have hWt : (DNode.elem w.1 w.2.1 w.2.2 [br]) ∈ nodesOf t := hchainT
        have hXroot' : w.1 ≠ nodeId t := hXroot
        have hP' : parentNodeOf t w.1 = some P := hP
        have hbrT : br ∈ nodesOf t :=
          mem_nodesOf_trans
            (mem_nodesOf_of_mem_childrenOf
              (show br ∈ childrenOf (DNode.elem w.1 w.2.1 w.2.2 [br]) by
                simp only [childrenOf, List.mem_singleton])) hWt
        have hfbr : findNode t (nodeId br) = some br :=
          findNode_unique hw hbrT
        have hpW : parentNodeOf t (nodeId br)
            = some (DNode.elem w.1 w.2.1 w.2.2 [br]) :=
          parentNodeOf_unique hw hWt
            (by simp only [childrenOf, List.mem_singleton])
        have hns : hasSiblings t (nodeId br) = false := by
          unfold hasSiblings
          rw [hpW]
          simp [childrenOf]
        have hinW : tagOf (DNode.elem w.1 w.2.1 w.2.2 [br]) ∈ inlineTags :=
          hin w (List.mem_cons_self w [])
        have hfW : findNode t w.1
            = some (DNode.elem w.1 w.2.1 w.2.2 [br]) :=
          findNode_unique hw hWt
        rw [unwrapBrLoop_eq_fire hns hpW hinW hP' hfbr]
        rw [show nodeId (DNode.elem w.1 w.2.1 w.2.2 [br]) = w.1 from rfl]
        rw [unwrap_step_eq_replace hw hXroot' hfW]
        show unwrapBrLoop f (replaceNode t w.1 br) (nodeId br)
          = replaceNode t w.1 br
        have hwtf : wfIds (replaceNode t w.1 br) :=
          wf_replace_unwrap hw hXroot' hfW
        rcases parentNodeOf_some_mem hP' with ⟨hPmem, c, hc, hcid⟩
        have hPsub : nodeId P ∉ subtreeIds t w.1 :=
          parent_not_in_child_subtree hw hP'
        have hP2mem : replaceNode P w.1 br
            ∈ nodesOf (replaceNode t w.1 br) :=
          image_mem_replaceNode hw hPmem hPsub
        have hbrchild : br ∈ childrenOf (replaceNode P w.1 br) := by
          cases P with
          | text ip sp => simp [childrenOf] at hc
          | elem ip tgp fp csp =>
            simp only [childrenOf] at hc
            simp only [replaceNode, childrenOf]
            exact mem_replaceNodeL_hit hc hcid
        have hptf : parentNodeOf (replaceNode t w.1 br) (nodeId br)
            = some (replaceNode P w.1 br) :=
          parentNodeOf_unique hwtf hP2mem hbrchild
        have hstop2 : tagOf (replaceNode P w.1 br) ∉ inlineTags ∨
            nodeId (replaceNode P w.1 br)
              = nodeId (replaceNode t w.1 br) := by
          rcases hstop with h | h
          · left
            rw [tagOf_replaceNode]
            exact h
          · right
            rw [nodeId_replaceNode, nodeId_replaceNode]
            exact h
        exact unwrapBrLoop_stopped hwtf hptf hstop2 f
  | w :: r :: rest2, t, br, P, fuel => by
      intro hw _ hfuel hchainT hin hXroot hP hstop
      cases fuel with
      | zero => simp at hfuel
      | succ f =>
        have hWchain : (DNode.elem w.1 w.2.1 w.2.2 [br])
            ∈ nodesOf (wrapChainR br (w :: r :: rest2)) :=
          wrapChainR_base_mem (r :: rest2) (.elem w.1 w.2.1 w.2.2 [br])
        have hWt : (DNode.elem w.1 w.2.1 w.2.2 [br]) ∈ nodesOf t :=
          mem_nodesOf_trans hWchain hchainT
        have hbrT : br ∈ nodesOf t :=
          mem_nodesOf_trans
            (mem_nodesOf_of_mem_childrenOf
              (show br ∈ childrenOf (DNode.elem w.1 w.2.1 w.2.2 [br]) by
                simp only [childrenOf, List.mem_singleton])) hWt
        have hfbr : findNode t (nodeId br) = some br :=
          findNode_unique hw hbrT
        have hpW : parentNodeOf t (nodeId br)
            = some (DNode.elem w.1 w.2.1 w.2.2 [br]) :=
          parentNodeOf_unique hw hWt
            (by simp only [childrenOf, List.mem_singleton])
        have hns : hasSiblings t (nodeId br) = false := by
          unfold hasSiblings
          rw [hpW]
          simp [childrenOf]
        have hinW : tagOf (DNode.elem w.1 w.2.1 w.2.2 [br]) ∈ inlineTags :=
          hin w (List.mem_cons_self _ _)
        have hfW : findNode t w.1
            = some (DNode.elem w.1 w.2.1 w.2.2 [br]) :=
          findNode_unique hw hWt
        have hszW : sizeT (DNode.elem w.1 w.2.1 w.2.2 [br])
            = sizeT br + 1 := by
          simp [sizeT, sizeL]
        have hszchain : sizeT (wrapChainR br (w :: r :: rest2))
            = (w :: r :: rest2).length + sizeT br := sizeT_wrapChainR _ _
        have hXne_w1 : nodeId (wrapChainR br (w :: r :: rest2)) ≠ w.1 := by
          intro hcon
          have hWeq : (DNode.elem w.1 w.2.1 w.2.2 [br])
              = wrapChainR br (w :: r :: rest2) :=
            nodeId_inj hw _ hWt _ hchainT
              (show nodeId (DNode.elem w.1 w.2.1 w.2.2 [br])
                = nodeId (wrapChainR br (w :: r :: rest2)) from hcon.symm)
          have hsz := congrArg sizeT hWeq
          rw [hszW, hszchain] at hsz
          simp only [List.length_cons] at hsz
          omega
        have hw1root : w.1 ≠ nodeId t := by
          intro hcon
          have hWeq : (DNode.elem w.1 w.2.1 w.2.2 [br]) = t :=
            nodeId_inj hw _ hWt t (self_mem_nodesOf t) hcon
          have hsz1 : sizeT (wrapChainR br (w :: r :: rest2)) ≤ sizeT t :=
            sizeT_le_of_mem_nodesOf hchainT
          have hsz2 := congrArg sizeT hWeq
          rw [hszW] at hsz2
          rw [hszchain] at hsz1
          simp only [List.length_cons] at hsz1
          omega
        have hgpr : parentNodeOf t w.1 = some
            (.elem r.1 r.2.1 r.2.2 [.elem w.1 w.2.1 w.2.2 [br]]) := by
          have hmem : (DNode.elem r.1 r.2.1 r.2.2
              [DNode.elem w.1 w.2.1 w.2.2 [br]])
              ∈ nodesOf (wrapChainR br (w :: r :: rest2)) :=
            wrapChainR_base_mem rest2 _
          exact parentNodeOf_unique hw (mem_nodesOf_trans hmem hchainT)
            (show (DNode.elem w.1 w.2.1 w.2.2 [br]) ∈ childrenOf
                (DNode.elem r.1 r.2.1 r.2.2
                  [DNode.elem w.1 w.2.1 w.2.2 [br]]) by
              simp only [childrenOf, List.mem_singleton])
        rw [unwrapBrLoop_eq_fire hns hpW hinW hgpr hfbr]
        rw [show nodeId (DNode.elem w.1 w.2.1 w.2.2 [br]) = w.1 from rfl]
        rw [unwrap_step_eq_replace hw hw1root hfW]
        have hwt2 : wfIds (replaceNode t w.1 br) :=
          wf_replace_unwrap hw hw1root hfW
        have hfchain : findNode t (nodeId (wrapChainR br (w :: r :: rest2)))
            = some (wrapChainR br (w :: r :: rest2)) :=
          findNode_unique hw hchainT
        have hw1in : w.1 ∈ allIds (wrapChainR br (w :: r :: rest2)) :=
          allIds_mono hWchain
            (show w.1 ∈ allIds (DNode.elem w.1 w.2.1 w.2.2 [br]) from
              nodeId_mem_allIds_self _)
        have hfr : findNode (replaceNode t w.1 br)
            (nodeId (wrapChainR br (w :: r :: rest2)))
            = some (replaceNode (wrapChainR br (w :: r :: rest2)) w.1 br) :=
          findNode_replaceNode_of_inside hw hfchain hw1in
            (fun hh => hXne_w1 hh.symm)
        have houter := wrapChainR_outer_not_in_base (r :: rest2)
          (.elem w.1 w.2.1 w.2.2 [br]) (wf_sub hw hchainT)
        have hw1W : w.1 ∈ allIds (DNode.elem w.1 w.2.1 w.2.2 [br]) :=
          nodeId_mem_allIds_self _
        have hrepl_chain :
            replaceNode (wrapChainR br (w :: r :: rest2)) w.1 br
            = wrapChainR br (r :: rest2) := by
          show replaceNode
            (wrapChainR (.elem r.1 r.2.1 r.2.2
              [.elem w.1 w.2.1 w.2.2 [br]]) rest2) w.1 br
            = wrapChainR br (r :: rest2)
          rw [wrapChainR_replace rest2 _ br w.1
            (fun v hv => fun hh =>
              houter v (List.mem_cons_of_mem r hv) (hh ▸ hw1W))
            (show nodeId (DNode.elem r.1 r.2.1 r.2.2
                [DNode.elem w.1 w.2.1 w.2.2 [br]]) ≠ w.1 from
              fun hh => houter r (List.mem_cons_self r rest2)
                (hh ▸ hw1W))]
          have hinner : replaceNode
              (.elem r.1 r.2.1 r.2.2 [.elem w.1 w.2.1 w.2.2 [br]]) w.1 br
              = .elem r.1 r.2.1 r.2.2 [br] := by
            simp only [replaceNode, replaceNodeL, nodeId]
            simp
          rw [hinner]
          rfl
        rw [hrepl_chain] at hfr
        have hchain2 : wrapChainR br (r :: rest2)
            ∈ nodesOf (replaceNode t w.1 br) := (findNode_some_mem hfr).1
        have hX2 : nodeId (wrapChainR br (r :: rest2))
            = nodeId (wrapChainR br (w :: r :: rest2)) :=
          (findNode_some_mem hfr).2
        have hX2root : nodeId (wrapChainR br (r :: rest2))
            ≠ nodeId (replaceNode t w.1 br) := by
          rw [hX2, nodeId_replaceNode]
          exact hXroot
        rcases parentNodeOf_some_mem hP with ⟨hPmem, c, hc, hcid⟩
        have hPsub : nodeId P ∉ subtreeIds t w.1 := by
          have h1 : nodeId P
              ∉ subtreeIds t (nodeId (wrapChainR br (w :: r :: rest2))) :=
            parent_not_in_child_subtree hw hP
          intro hcon
          apply h1
          have hs1 : subtreeIds t w.1
              = allIds (DNode.elem w.1 w.2.1 w.2.2 [br]) := by
            unfold subtreeIds
            rw [hfW]
          have hs2 : subtreeIds t (nodeId (wrapChainR br (w :: r :: rest2)))
              = allIds (wrapChainR br (w :: r :: rest2)) := by
            unfold subtreeIds
            rw [hfchain]
          rw [hs1] at hcon
          rw [hs2]
          exact allIds_mono hWchain hcon
        have hP2mem : replaceNode P w.1 br
            ∈ nodesOf (replaceNode t w.1 br) :=
          image_mem_replaceNode hw hPmem hPsub
        have hcimg : replaceNode c w.1 br
            ∈ childrenOf (replaceNode P w.1 br) := by
          cases P with
          | text ip sp => simp [childrenOf] at hc
          | elem ip tgp fp csp =>
            simp only [childrenOf] at hc
            simp only [replaceNode, childrenOf]
            exact mem_replaceNodeL_image hc
              (fun hh => hXne_w1 (hcid ▸ hh))
        have hpt2 : parentNodeOf (replaceNode t w.1 br)
            (nodeId (wrapChainR br (r :: rest2)))
            = some (replaceNode P w.1 br) := by
          have h0 := parentNodeOf_unique hwt2 hP2mem hcimg
          rw [nodeId_replaceNode, hcid, ← hX2] at h0
          exact h0
        have hstop2 : tagOf (replaceNode P w.1 br) ∉ inlineTags ∨
            nodeId (replaceNode P w.1 br)
              = nodeId (replaceNode t w.1 br) := by
          rcases hstop with h | h
          · left
            rw [tagOf_replaceNode]
            exact h
          · right
            rw [nodeId_replaceNode, nodeId_replaceNode]
            exact h
        rw [unwrapBrLoop_chain (r :: rest2) (replaceNode t w.1 br) br
          (replaceNode P w.1 br) f hwt2 (by simp)
          (by simp only [List.length_cons] at hfuel ⊢; omega)
          hchain2 (fun v hv => hin v (List.mem_cons_of_mem w hv))
          hX2root hpt2 hstop2]
        rw [hX2]
        exact replaceNode_absorb hw hXroot hfchain hw1in
          (fun hh => hXne_w1 hh.symm)

end LegacyMessage

namespace LegacyMessage

/-- C6: for a marker nested arbitrarily deep inside sole-child
recognized inline wrappers, the unwrap loop of unwrapBr terminates
within its fuel and replaces the whole wrapper chain by the bare marker,
which ends as a direct child of the nearest ancestor that is not a
recognized inline wrapper (or of the root when every ancestor
qualifies); the emptied wrappers are gone with the chain. -/
theorem unwrapBr_chain_full {t br P : DNode}
    {ws : List (Nat × String × Bool)} (hw : wfIds t) (hbl : brLeaves t)
    (hne : ws ≠ []) (hchain : wrapChainR br ws ∈ nodesOf t)
    (hin : ∀ v ∈ ws, v.2.1 ∈ inlineTags)
    (hXroot : nodeId (wrapChainR br ws) ≠ nodeId t)
    (hP : parentNodeOf t (nodeId (wrapChainR br ws)) = some P)
    (hstop : tagOf P ∉ inlineTags ∨ nodeId P = nodeId t) :
    unwrapBr t (nodeId br)
      = replaceNode t (nodeId (wrapChainR br ws)) br ∧
    parentNodeOf (unwrapBr t (nodeId br)) (nodeId br)
      = some (replaceNode P (nodeId (wrapChainR br ws)) br) := by
  have hlen : ws.length ≤ sizeT t := by
    have h1 : sizeT (wrapChainR br ws) ≤ sizeT t :=
      sizeT_le_of_mem_nodesOf hchain
    have h2 : sizeT (wrapChainR br ws) = ws.length + sizeT br :=
      sizeT_wrapChainR _ _
    have h3 : 0 < sizeT br := sizeT_pos br
    omega
  have heq : unwrapBr t (nodeId br)
      = replaceNode t (nodeId (wrapChainR br ws)) br :=
    unwrapBrLoop_chain ws t br P (sizeT t) hw hne hlen hchain hin
      hXroot hP hstop
  refine ⟨heq, ?_⟩
  have hwtf : wfIds (unwrapBr t (nodeId br)) :=
    (unwrapBrLoop_props (sizeT t) t (nodeId br) hw hbl).1
  rw [heq] at hwtf
  rcases parentNodeOf_some_mem hP with ⟨hPmem, c, hc, hcid⟩
  have hPsub : nodeId P ∉ subtreeIds t (nodeId (wrapChainR br ws)) :=
    parent_not_in_child_subtree hw hP
  have hP2mem : replaceNode P (nodeId (wrapChainR br ws)) br
      ∈ nodesOf (replaceNode t (nodeId (wrapChainR br ws)) br) :=
    image_mem_replaceNode hw hPmem hPsub
  have hbrchild : br ∈ childrenOf
      (replaceNode P (nodeId (wrapChainR br ws)) br) := by
    cases P with
    | text ip sp => simp [childrenOf] at hc
    | elem ip tgp fp csp =>
      simp only [childrenOf] at hc
      simp only [replaceNode, childrenOf]
      exact mem_replaceNodeL_hit hc hcid
  rw [heq]
  exact parentNodeOf_unique hwtf hP2mem hbrchild

end LegacyMessage

namespace LegacyMessage

/-! ## The reducer as a pairwise remover -/

/-- The reducer with the even-offset branch cut out: remove a lone
candidate outright, and for an adjacent pair remove the first member and
skip both.  reduceLoop is equivalent to this on duplicate-free scans. -/
def reduceLoopPair : Nat → DNode → List Nat → Nat → DNode
  | 0, t, _, _ => t
  | fuel + 1, t, ps, i =>
      if i < ps.length then
        let cand := ps.getD i 0
        let off := offsetLoop t cand ps i ps.length 0
        if off = 0 then reduceLoopPair fuel (removeNode t cand) ps (i + 1)
        else reduceLoopPair fuel (removeNode t cand) ps (i + 2)
      else t

theorem reduceLoop_eq_pair {ps : List Nat} (hnd : ps.Nodup) :
    ∀ (fuel : Nat) (t : DNode) (i : Nat),
      reduceLoop fuel t ps i = reduceLoopPair fuel t ps i := by
  intro fuel
  induction fuel with
  | zero =>
    intro t i
    rfl
  | succ f ih =>
    intro t i
    unfold reduceLoop reduceLoopPair
    by_cases hi : i < ps.length
    case neg =>
      rw [if_neg hi, if_neg hi]
    case pos =>
      rw [if_pos hi, if_pos hi]
      dsimp only
      by_cases hoff : offsetLoop t (ps.getD i 0) ps i ps.length 0 = 0
      · rw [if_pos hoff, if_pos hoff]
        exact ih (removeNode t (ps.getD i 0)) (i + 1)
      · rw [if_neg hoff, if_neg hoff]
        have hle : offsetLoop t (ps.getD i 0) ps i ps.length 0 ≤ 1 :=
          offsetLoop_le_one hnd ps.length
        have hoff1 : offsetLoop t (ps.getD i 0) ps i ps.length 0 = 1 := by
          omega
        rw [hoff1]
        have hksimp : (if 1 % 2 = 1 then (1 + 1) / 2 else 1 / 2 + 1)
            = 1 := by norm_num
        rw [hksimp, drop_take_one hi]
        simp only [List.foldl_cons, List.foldl_nil]
        exact ih (removeNode t (ps.getD i 0)) (i + 1 + 1)

end LegacyMessage

namespace LegacyMessage

/-! ## Per-run counting -/

theorem runStartIdx_of_run {t1 : DNode} {ps : List Nat} {a b : Nat}
    (hstart : a = 0 ∨ adjFlag t1 ps (a - 1) = false)
    (hrun : ∀ j, a ≤ j → j < b → adjFlag t1 ps j = true) :
    ∀ k, a ≤ k → k ≤ b → runStartIdx t1 ps k = a := by
  have aux : ∀ d, a + d ≤ b → runStartIdx t1 ps (a + d) = a := by
    intro d
    induction d with
    | zero =>
      intro _
      rw [Nat.add_zero]
      cases ha : a with
      | zero => rfl
      | succ m =>
        rw [runStartIdx_succ]
        rcases hstart with h | h
        · rw [ha] at h
          cases h
        · rw [ha] at h
          rw [show m + 1 - 1 = m from rfl] at h
          rw [if_neg (by simp [h])]
    | succ d ih =>
      intro hle
      have hadj : adjFlag t1 ps (a + d) = true :=
        hrun (a + d) (by omega) (by omega)
      rw [show a + (d + 1) = a + d + 1 from rfl, runStartIdx_succ,
        if_pos hadj]
      exact ih (by omega)
  intro k hk1 hk2
  rw [show k = a + (k - a) by omega]
  exact aux (k - a) (by omega)

theorem length_filter_odd :
    ∀ n : Nat,
      ((List.range n).filter (fun d => decide (d % 2 = 1))).length
        = n / 2 := by
  intro n
  induction n with
  | zero => rfl
  | succ m ih =>
    rw [List.range_succ, List.filter_append, List.length_append, ih]
    by_cases h : m % 2 = 1
    · have hone : List.filter (fun d => decide (d % 2 = 1)) [m] = [m] := by
        simp [h]
      rw [hone]
      simp only [List.length_cons, List.length_nil]
      omega
    · have hzero : List.filter (fun d => decide (d % 2 = 1)) [m] = [] := by
        simp [h]
      rw [hzero]
      simp only [List.length_nil]
      omega

end LegacyMessage

namespace LegacyMessage

/-! ## Concrete trees used by the witnesses and counterexamples -/

/-- A filler marker as the sole child of an inline span. -/
def v1 : List DNode := [.elem 1 "SPAN" false [.elem 2 "BR" true []]]

/-- A paragraph ending in two markers wrapped in an italic element: its
normalization changes again on a second pass. -/
def vx : List DNode :=
  [.elem 1 "P" false [.text 2 "x",
    .elem 3 "I" false [.elem 4 "BR" false [], .elem 5 "BR" false []]]]

/-- Three adjacent spacer paragraphs. -/
def ex3 : DNode := .elem 0 "DIV" false
  [.elem 1 "P" false [.elem 2 "BR" false []],
   .elem 3 "P" false [.elem 4 "BR" false []],
   .elem 5 "P" false [.elem 6 "BR" false []]]

/-- A marker nested in two inline wrappers. -/
def br6 : DNode := .elem 3 "BR" false []

def t6 : DNode := .elem 0 "DIV" false
  [.elem 1 "SPAN" false [.elem 2 "I" false [br6]]]

def ws6 : List (Nat × String × Bool) := [(2, "I", false), (1, "SPAN", false)]

/-- A table cell holding only a marker. -/
def c8a : DNode := .elem 0 "DIV" false
  [.elem 1 "TD" false [.elem 2 "BR" false []]]

/-- A paragraph with a text child and a marker child. -/
def c8b : DNode := .elem 0 "DIV" false
  [.elem 1 "P" false [.text 2 "x", .elem 3 "BR" false []]]

/-- A paragraph with only a marker. -/
def t5b : DNode := .elem 0 "DIV" false
  [.elem 1 "P" false [.elem 2 "BR" false []]]

end LegacyMessage

namespace LegacyMessage

/-! ## Claim theorems -/

/-- C1: a line-break marker carrying the filler flag is never deleted by
the tree pipeline of normalizeLegacyMessage: it is still a node of the
normalized tree.  (The claim's stronger "same parent and sibling
position" part is refuted separately: unwrapBr ignores the filler flag
and can move a filler out of its wrapper.) -/
theorem C1_filler_never_deleted {t m : DNode} (hw : wfIds t)
    (hbl : brLeaves t) (hm : m ∈ nodesOf t) (hbr : isBrB m = true)
    (hfil : fillerOf m = true) : m ∈ nodesOf (normalizeDiv t) :=
  filler_survives_normalizeDiv hw hbl hm hbr hfil

theorem C1_filler_never_deleted_witness :
    wfIds (mkWorkingDiv v1) ∧
    (DNode.elem 2 "BR" true []) ∈ nodesOf (normalizeDiv (mkWorkingDiv v1)) :=
  ⟨by decide,
    C1_filler_never_deleted (by decide) (by decide) (by decide)
      (by decide) (by decide)⟩

/-- C1 counterexample: the filler marker of v1 is unwrapped out of its
span by the pipeline, so its parent changes although it survives. -/
theorem C1_counterexample :
    (DNode.elem 2 "BR" true []) ∈ nodesOf (mkWorkingDiv v1) ∧
    fillerOf (DNode.elem 2 "BR" true []) = true ∧
    parentNodeOf (normalizeDiv (mkWorkingDiv v1)) 2
      ≠ parentNodeOf (mkWorkingDiv v1) 2 := by decide

/-- C2: a scanned spacer paragraph survives the reduction exactly when
its offset from the start of its adjacency run is odd - the second
member of each consecutive pair - not when it lies in the trailing half
of the run. -/
theorem C2_survivor_iff_odd_offset {t1 : DNode} (hw1 : wfIds t1)
    (hbl : brLeaves t1) {k : Nat}
    (hk : k < (getPossibleSpacerParagraphs t1).length) :
    ((getPossibleSpacerParagraphs t1).getD k 0
        ∈ allIds (reduceSpacerParagraphs t1
          (getPossibleSpacerParagraphs t1)))
      ↔ (k - runStartIdx t1 (getPossibleSpacerParagraphs t1) k) % 2
          = 1 := by
  rw [reduce_scan_candidate_mem hw1 hbl hk]
  unfold survivesIdx
  simp

theorem C2_survivor_iff_odd_offset_witness :
    wfIds ex3 ∧
    ((getPossibleSpacerParagraphs ex3).getD 1 0
        ∈ allIds (reduceSpacerParagraphs ex3
          (getPossibleSpacerParagraphs ex3))
      ↔ (1 - runStartIdx ex3 (getPossibleSpacerParagraphs ex3) 1) % 2
          = 1) :=
  ⟨by decide,
    C2_survivor_iff_odd_offset (by decide) (by decide) (by decide)⟩

/-- C2 counterexample: in a run of three spacer paragraphs the middle
one survives and the trailing one is deleted, contradicting "the
surviving members are the trailing members". -/
theorem C2_counterexample :
    getPossibleSpacerParagraphs ex3 = [1, 3, 5] ∧
    3 ∈ allIds (reduceSpacerParagraphs ex3
      (getPossibleSpacerParagraphs ex3)) ∧
    5 ∉ allIds (reduceSpacerParagraphs ex3
      (getPossibleSpacerParagraphs ex3)) := by decide

/-- C4: one full tree pass either leaves the tree unchanged or strictly
shrinks it; full idempotence fails (see the counterexample), so only
this progress property holds. -/
theorem C4_progress {t : DNode} (hw : wfIds t) (hbl : brLeaves t) :
    normalizeDiv t = t ∨ sizeT (normalizeDiv t) < sizeT t :=
  (normalizeDiv_shrinks hw hbl).2.2.2.1

theorem C4_progress_witness :
    wfIds ex3 ∧
    (normalizeDiv ex3 = ex3 ∨ sizeT (normalizeDiv ex3) < sizeT ex3) :=
  ⟨by decide, C4_progress (by decide) (by decide)⟩

/-- C4 counterexample: normalizing the normalized value of vx changes it
again, so normalizeLegacyMessage is not idempotent. -/
theorem C4_counterexample :
    normalizeValue (normalizeValue vx) ≠ normalizeValue vx := by decide

/-- C10: with pairwise-distinct scanned paragraphs the adjacency counter
offset never exceeds 1, and the reducer behaves as the pairwise remover
that drops a lone candidate and the first member of each adjacent pair
(the even-offset branch is unreachable). -/
theorem C10_offset_le_one_pairwise {ps : List Nat} (hnd : ps.Nodup)
    (t : DNode) :
    (∀ i fuel, offsetLoop t (ps.getD i 0) ps i fuel 0 ≤ 1) ∧
    (∀ fuel t2 i, reduceLoop fuel t2 ps i = reduceLoopPair fuel t2 ps i) :=
  ⟨fun i fuel => offsetLoop_le_one hnd fuel,
   fun fuel t2 i => reduceLoop_eq_pair hnd fuel t2 i⟩

theorem C10_offset_le_one_pairwise_witness :
    ([1, 3, 5] : List Nat).Nodup ∧
    reduceLoop 3 ex3 [1, 3, 5] 0 = reduceLoopPair 3 ex3 [1, 3, 5] 0 :=
  ⟨by decide, (C10_offset_le_one_pairwise (by decide) ex3).2 3 ex3 0⟩

end LegacyMessage

namespace LegacyMessage

/-- C3: a maximal adjacency run of spacer paragraphs spanning scan
positions a..b keeps exactly floor(n/2) of its n members; a run of one
keeps none, and two non-adjacent spacer paragraphs are handled as
independent runs of one. -/
theorem C3_run_half_count {t1 : DNode} (hw1 : wfIds t1)
    (hbl : brLeaves t1) {a b : Nat} (hab : a ≤ b)
    (hb : b < (getPossibleSpacerParagraphs t1).length)
    (hstart : a = 0 ∨
      adjFlag t1 (getPossibleSpacerParagraphs t1) (a - 1) = false)
    (hrun : ∀ j, a ≤ j → j < b →
      adjFlag t1 (getPossibleSpacerParagraphs t1) j = true) :
    ((List.range (b - a + 1)).filter (fun d =>
      decide ((getPossibleSpacerParagraphs t1).getD (a + d) 0
        ∈ allIds (reduceSpacerParagraphs t1
            (getPossibleSpacerParagraphs t1))))).length
      = (b - a + 1) / 2 := by
  have hchar : ∀ d ∈ List.range (b - a + 1),
      decide ((getPossibleSpacerParagraphs t1).getD (a + d) 0
        ∈ allIds (reduceSpacerParagraphs t1
            (getPossibleSpacerParagraphs t1)))
      = decide (d % 2 = 1) := by
    intro d hd
    rw [List.mem_range] at hd
    have hk : a + d < (getPossibleSpacerParagraphs t1).length := by omega
    rw [decide_eq_decide]
    rw [reduce_scan_candidate_mem hw1 hbl hk]
    have h2 : runStartIdx t1 (getPossibleSpacerParagraphs t1) (a + d)
        = a :=
      runStartIdx_of_run hstart hrun (a + d) (by omega) (by omega)
    unfold survivesIdx
    rw [h2, show a + d - a = d by omega]
    simp
  rw [List.filter_congr hchar]
  exact length_filter_odd (b - a + 1)

theorem C3_run_half_count_witness :
    wfIds ex3 ∧
    ((List.range (2 - 0 + 1)).filter (fun d =>
      decide ((getPossibleSpacerParagraphs ex3).getD (0 + d) 0
        ∈ allIds (reduceSpacerParagraphs ex3
            (getPossibleSpacerParagraphs ex3))))).length
      = (2 - 0 + 1) / 2 :=
  ⟨by decide,
    C3_run_half_count (by decide) (by decide) (by omega) (by decide)
      (Or.inl rfl)
      (fun j h1 h2 => by
        have hj : j = 0 ∨ j = 1 := by omega
        rcases hj with hj | hj <;> rw [hj] <;> decide)⟩

end LegacyMessage

namespace LegacyMessage

/-- C5: removeTrailingBr's case analysis: a filler marker is skipped; a
marker with no enclosing paragraph or table cell, or one that is not at
the end of it, is left untouched; a trailing marker is removed from a
table cell unconditionally and from a paragraph only when the paragraph
has two or more child nodes, while the sole child of a paragraph is
kept. -/
theorem C5_removeTrailingBr_cases (t : DNode) (j : Nat) :
    (∀ br, findNode t j = some br → fillerOf br = true →
      removeTrailingBr t j = t) ∧
    (∀ br, findNode t j = some br → fillerOf br = false →
      closestPTd t j = none → removeTrailingBr t j = t) ∧
    (∀ br cid, findNode t j = some br → fillerOf br = false →
      closestPTd t j = some cid → isAtNodeEnd t j cid = false →
      removeTrailingBr t j = t) ∧
    (∀ br cid c, findNode t j = some br → fillerOf br = false →
      closestPTd t j = some cid → isAtNodeEnd t j cid = true →
      findNode t cid = some c → tagOf c = "TD" →
      removeTrailingBr t j = removeNode t j) ∧
    (∀ br cid c, findNode t j = some br → fillerOf br = false →
      closestPTd t j = some cid → isAtNodeEnd t j cid = true →
      findNode t cid = some c → 1 < (childrenOf c).length →
      removeTrailingBr t j = removeNode t j) ∧
    (∀ br cid c, findNode t j = some br → fillerOf br = false →
      closestPTd t j = some cid → isAtNodeEnd t j cid = true →
      findNode t cid = some c → tagOf c ≠ "TD" →
      (childrenOf c).length ≤ 1 →
      removeTrailingBr t j = t) := by
  refine ⟨?_, ?_, ?_, ?_, ?_, ?_⟩
  · intro br hf hfil
    unfold removeTrailingBr
    rw [hf]
    dsimp only
    rw [if_pos hfil]
  · intro br hf hfil hc
    unfold removeTrailingBr
    rw [hf]
    dsimp only
    rw [if_neg (by simp [hfil]), hc]
  · intro br cid hf hfil hc hend
    unfold removeTrailingBr
    rw [hf]
    dsimp only
    rw [if_neg (by simp [hfil]), hc]
    dsimp only
    rw [hend]
    rfl
  · intro br cid c hf hfil hc hend hfc htd
    unfold removeTrailingBr
    rw [hf]
    dsimp only
    rw [if_neg (by simp [hfil]), hc]
    dsimp only
    rw [if_neg (by simp [hend]), hfc]
    dsimp only
    rw [if_pos (by simp [htd])]
  · intro br cid c hf hfil hc hend hfc hlen
    unfold removeTrailingBr
    rw [hf]
    dsimp only
    rw [if_neg (by simp [hfil]), hc]
    dsimp only
    rw [if_neg (by simp [hend]), hfc]
    dsimp only
    rw [if_pos (by simp [hlen])]
  · intro br cid c hf hfil hc hend hfc htd hlen
    unfold removeTrailingBr
    rw [hf]
    dsimp only
    rw [if_neg (by simp [hfil]), hc]
    dsimp only
    rw [if_neg (by simp [hend]), hfc]
    dsimp only
    rw [if_neg (by
      simp only [Bool.or_eq_true, beq_iff_eq, decide_eq_true_eq]
      push_neg
      exact ⟨htd, by omega⟩)]

theorem C5_removeTrailingBr_cases_witness :
    removeTrailingBr c8b 3 = removeNode c8b 3 ∧
    removeTrailingBr t5b 2 = t5b ∧
    removeTrailingBr c8a 2 = removeNode c8a 2 :=
  ⟨(C5_removeTrailingBr_cases c8b 3).2.2.2.2.1
      (.elem 3 "BR" false []) 1 (.elem 1 "P" false
        [.text 2 "x", .elem 3 "BR" false []])
      (by decide) (by decide) (by decide) (by decide) (by decide)
      (by decide),
   (C5_removeTrailingBr_cases t5b 2).2.2.2.2.2
      (.elem 2 "BR" false []) 1 (.elem 1 "P" false
        [.elem 2 "BR" false []])
      (by decide) (by decide) (by decide) (by decide) (by decide)
      (by decide) (by decide),
   (C5_removeTrailingBr_cases c8a 2).2.2.2.1
      (.elem 2 "BR" false []) 1 (.elem 1 "TD" false
        [.elem 2 "BR" false []])
      (by decide) (by decide) (by decide) (by decide) (by decide)
      (by decide)⟩

end LegacyMessage

namespace LegacyMessage

theorem isSpacerP_iff (n : DNode) :
    isSpacerP n = true ↔ (isElemB n = true ∧ tagOf n = "P" ∧
      ∃ c, (childrenOf n).filter isElemB = [c] ∧ tagOf c = "BR" ∧
        fillerOf c = false) := by
  unfold isSpacerP
  cases hm : (childrenOf n).filter isElemB with
  | nil =>
    constructor
    · intro h
      simp at h
    · rintro ⟨h1, h2, c, hc, _⟩
      cases hc
  | cons c rest =>
    cases rest with
    | nil =>
      constructor
      · intro h
        simp only [Bool.and_eq_true, beq_iff_eq, Bool.not_eq_true'] at h
        exact ⟨h.1.1, h.1.2, c, rfl, h.2.1, h.2.2⟩
      · rintro ⟨h1, h2, c2, hc2, h3, h4⟩
        injection hc2 with hc2a hc2b
        rw [hc2a]
        simp only [Bool.and_eq_true, beq_iff_eq, Bool.not_eq_true']
        exact ⟨⟨h1, h2⟩, h3, h4⟩
    | cons d rest2 =>
      constructor
      · intro h
        simp at h
      · rintro ⟨h1, h2, c2, hc2, _⟩
        simp at hc2

/-- C8: getPossibleSpacerParagraphs returns, in document order, exactly
the ids of the P elements whose element children reduce to a single
non-filler BR; table cells are not scanned and text-node children do not
count against the childElementCount test.  The scan is a pure
function of the tree. -/
theorem C8_scan_characterization (t : DNode) (p : Nat) :
    p ∈ getPossibleSpacerParagraphs t ↔
      ∃ n ∈ descendantNodes t, nodeId n = p ∧ isElemB n = true ∧
        tagOf n = "P" ∧ ∃ c, (childrenOf n).filter isElemB = [c] ∧
          tagOf c = "BR" ∧ fillerOf c = false := by
  rw [mem_scan]
  constructor
  · rintro ⟨n, hn, hsp, hid⟩
    rcases (isSpacerP_iff n).mp hsp with ⟨h1, h2, c, hc, h3, h4⟩
    exact ⟨n, hn, hid, h1, h2, c, hc, h3, h4⟩
  · rintro ⟨n, hn, hid, h1, h2, c, hc, h3, h4⟩
    exact ⟨n, hn, (isSpacerP_iff n).mpr ⟨h1, h2, c, hc, h3, h4⟩, hid⟩

/-- C8 counterexample: a table cell holding only a marker is not
scanned, while a paragraph with a text node and a marker - two child
nodes - is scanned: the claim's "paragraphs or table cells whose only
child is a marker" reading fails on both ends. -/
theorem C8_counterexample :
    getPossibleSpacerParagraphs c8a = [] ∧
    getPossibleSpacerParagraphs c8b = [1] ∧
    (childrenOf (DNode.elem 1 "P" false
      [.text 2 "x", .elem 3 "BR" false []])).length = 2 := by decide

/-- C7: normalizeLegacyMessage reports the TypeError exactly when the
designated element is not a textarea, and in that case the document is
left entirely unchanged. -/
theorem C7_error_iff (doc : List UiElement) (k : Nat) :
    ((normalizeLegacyMessage doc k).1
        = Except.error "Expected the element to be a <textarea>."
      ↔ ∀ v props, doc.get? k ≠ some (.textarea v props)) ∧
    ((∀ v props, doc.get? k ≠ some (.textarea v props)) →
      (normalizeLegacyMessage doc k).2 = doc) := by
  unfold normalizeLegacyMessage
  cases hg : doc.get? k with
  | none =>
    refine ⟨⟨fun _ v props h => ?_, fun _ => rfl⟩, fun _ => rfl⟩
    cases h
  | some e =>
    cases e with
    | textarea v props =>
      dsimp only
      refine ⟨⟨fun h => ?_, fun hall => ?_⟩, fun hall => ?_⟩
      · cases h
      · exact absurd rfl (hall v props)
      · exact absurd rfl (hall v props)
    | other s props =>
      dsimp only
      refine ⟨⟨fun _ v2 props2 h => ?_, fun _ => rfl⟩, fun _ => rfl⟩
      simp at h

theorem C7_error_iff_witness :
    ((normalizeLegacyMessage [UiElement.other "DIV" []] 0).1
        = Except.error "Expected the element to be a <textarea>.") ∧
    (normalizeLegacyMessage [UiElement.other "DIV" []] 0).2
      = [UiElement.other "DIV" []] :=
  ⟨(C7_error_iff [UiElement.other "DIV" []] 0).1.mpr
      (fun v props h => by cases h),
   (C7_error_iff [UiElement.other "DIV" []] 0).2
      (fun v props h => by cases h)⟩

/-- C9: on a textarea, normalizeLegacyMessage succeeds, replaces only
that element's value by the normalized markup while keeping its other
properties, and leaves every other element of the document unchanged. -/
theorem C9_frame {doc : List UiElement} {k : Nat} {v : List DNode}
    {props : List (String × String)}
    (h : doc.get? k = some (.textarea v props)) :
    (normalizeLegacyMessage doc k).1 = Except.ok () ∧
    (normalizeLegacyMessage doc k).2.get? k
      = some (.textarea (normalizeValue v) props) ∧
    (∀ k2, k2 ≠ k →
      (normalizeLegacyMessage doc k).2.get? k2 = doc.get? k2) := by
  have hk : k < doc.length := by
    by_contra hc
    rw [List.get?_eq_none.mpr (by omega)] at h
    cases h
  unfold normalizeLegacyMessage
  rw [h]
  dsimp only
  refine ⟨rfl, ?_, ?_⟩
  · rw [List.get?_eq_getElem?]
    exact List.getElem?_set_eq_of_lt _ hk
  · intro k2 hk2
    rw [List.get?_eq_getElem?, List.get?_eq_getElem?]
    exact List.getElem?_set_ne (fun hh => hk2 hh.symm)

theorem C9_frame_witness :
    (normalizeLegacyMessage [UiElement.textarea v1 [("rows", "4")]] 0).1
      = Except.ok () ∧
    (normalizeLegacyMessage [UiElement.textarea v1 [("rows", "4")]] 0).2.get? 0
      = some (.textarea (normalizeValue v1) [("rows", "4")]) :=
  ⟨(C9_frame (show ([UiElement.textarea v1 [("rows", "4")]].get? 0)
      = some (.textarea v1 [("rows", "4")]) from rfl)).1,
   (C9_frame (show ([UiElement.textarea v1 [("rows", "4")]].get? 0)
      = some (.textarea v1 [("rows", "4")]) from rfl)).2.1⟩

end LegacyMessage

namespace LegacyMessage

theorem unwrapBr_chain_full_witness :
    wfIds t6 ∧
    unwrapBr t6 (nodeId br6)
      = replaceNode t6 (nodeId (wrapChainR br6 ws6)) br6 :=
  ⟨by decide,
    (unwrapBr_chain_full (by decide) (by decide) (by decide) (by decide)
      (by decide) (by decide)
      (show parentNodeOf t6 (nodeId (wrapChainR br6 ws6)) = some t6
        by decide)
      (Or.inl (by decide))).1⟩

end LegacyMessage
